import Mathlib

/-!
Verification development for the logger client (src/logger/init.py).

The client stores files as content-addressed Merkle trees on an external
append-only ledger and recovers them from the ledger event history.  Pure
helpers (keccak-256, calculate_root_from_hashes) are embedded directly;
the stateful client functions are embedded as explicit state-passing
functions over a combined session/ledger state.  The on-chain Logger
contract is not part of the repository, so its behaviour is modelled from
the spec where the client depends on it (see the definitions whose doc
comments start with Modelled from the spec).

Machine words are lists of byte values (Nat, each < 256); 64-bit lanes are
Nat reduced mod 2 ^ 64 at every operation.
-/

/-- Keccak 64-bit lane rotation: values stay below 2 ^ 64. -/
def rotl64 (x n : Nat) : Nat :=
  ((x <<< n) ||| (x >>> (64 - n))) % 2 ^ 64

structure KSt where
  (a0 : Nat) (a1 : Nat) (a2 : Nat) (a3 : Nat) (a4 : Nat) (a5 : Nat) (a6 : Nat) (a7 : Nat) (a8 : Nat) (a9 : Nat) (a10 : Nat) (a11 : Nat) (a12 : Nat)
  (a13 : Nat) (a14 : Nat) (a15 : Nat) (a16 : Nat) (a17 : Nat) (a18 : Nat) (a19 : Nat) (a20 : Nat) (a21 : Nat) (a22 : Nat) (a23 : Nat) (a24 : Nat)

def keccakRound (s : KSt) (rc : Nat) : KSt :=
  let c0 := s.a0 ^^^ s.a5 ^^^ s.a10 ^^^ s.a15 ^^^ s.a20
  let c1 := s.a1 ^^^ s.a6 ^^^ s.a11 ^^^ s.a16 ^^^ s.a21
  let c2 := s.a2 ^^^ s.a7 ^^^ s.a12 ^^^ s.a17 ^^^ s.a22
  let c3 := s.a3 ^^^ s.a8 ^^^ s.a13 ^^^ s.a18 ^^^ s.a23
  let c4 := s.a4 ^^^ s.a9 ^^^ s.a14 ^^^ s.a19 ^^^ s.a24
  let d0 := c4 ^^^ rotl64 c1 1
  let d1 := c0 ^^^ rotl64 c2 1
  let d2 := c1 ^^^ rotl64 c3 1
  let d3 := c2 ^^^ rotl64 c4 1
  let d4 := c3 ^^^ rotl64 c0 1
  let t0 := s.a0 ^^^ d0
  let t1 := s.a1 ^^^ d1
  let t2 := s.a2 ^^^ d2
  let t3 := s.a3 ^^^ d3
  let t4 := s.a4 ^^^ d4
  let t5 := s.a5 ^^^ d0
  let t6 := s.a6 ^^^ d1
  let t7 := s.a7 ^^^ d2
  let t8 := s.a8 ^^^ d3
  let t9 := s.a9 ^^^ d4
  let t10 := s.a10 ^^^ d0
  let t11 := s.a11 ^^^ d1
  let t12 := s.a12 ^^^ d2
  let t13 := s.a13 ^^^ d3
  let t14 := s.a14 ^^^ d4
  let t15 := s.a15 ^^^ d0
  let t16 := s.a16 ^^^ d1
  let t17 := s.a17 ^^^ d2
  let t18 := s.a18 ^^^ d3
  let t19 := s.a19 ^^^ d4
  let t20 := s.a20 ^^^ d0
  let t21 := s.a21 ^^^ d1
  let t22 := s.a22 ^^^ d2
  let t23 := s.a23 ^^^ d3
  let t24 := s.a24 ^^^ d4
  let b0 := t0
  let b1 := rotl64 t6 44
  let b2 := rotl64 t12 43
  let b3 := rotl64 t18 21
  let b4 := rotl64 t24 14
  let b5 := rotl64 t3 28
  let b6 := rotl64 t9 20
  let b7 := rotl64 t10 3
  let b8 := rotl64 t16 45
  let b9 := rotl64 t22 61
  let b10 := rotl64 t1 1
  let b11 := rotl64 t7 6
  let b12 := rotl64 t13 25
  let b13 := rotl64 t19 8
  let b14 := rotl64 t20 18
  let b15 := rotl64 t4 27
  let b16 := rotl64 t5 36
  let b17 := rotl64 t11 10
  let b18 := rotl64 t17 15
  let b19 := rotl64 t23 56
  let b20 := rotl64 t2 62
  let b21 := rotl64 t8 55
  let b22 := rotl64 t14 39
  let b23 := rotl64 t15 41
  let b24 := rotl64 t21 2
  KSt.mk ((b0 ^^^ ((b1 ^^^ 18446744073709551615) &&& b2)) ^^^ rc)
    (b1 ^^^ ((b2 ^^^ 18446744073709551615) &&& b3))
    (b2 ^^^ ((b3 ^^^ 18446744073709551615) &&& b4))
    (b3 ^^^ ((b4 ^^^ 18446744073709551615) &&& b0))
    (b4 ^^^ ((b0 ^^^ 18446744073709551615) &&& b1))
    (b5 ^^^ ((b6 ^^^ 18446744073709551615) &&& b7))
    (b6 ^^^ ((b7 ^^^ 18446744073709551615) &&& b8))
    (b7 ^^^ ((b8 ^^^ 18446744073709551615) &&& b9))
    (b8 ^^^ ((b9 ^^^ 18446744073709551615) &&& b5))
    (b9 ^^^ ((b5 ^^^ 18446744073709551615) &&& b6))
    (b10 ^^^ ((b11 ^^^ 18446744073709551615) &&& b12))
    (b11 ^^^ ((b12 ^^^ 18446744073709551615) &&& b13))
    (b12 ^^^ ((b13 ^^^ 18446744073709551615) &&& b14))
    (b13 ^^^ ((b14 ^^^ 18446744073709551615) &&& b10))
    (b14 ^^^ ((b10 ^^^ 18446744073709551615) &&& b11))
    (b15 ^^^ ((b16 ^^^ 18446744073709551615) &&& b17))
    (b16 ^^^ ((b17 ^^^ 18446744073709551615) &&& b18))
    (b17 ^^^ ((b18 ^^^ 18446744073709551615) &&& b19))
    (b18 ^^^ ((b19 ^^^ 18446744073709551615) &&& b15))
    (b19 ^^^ ((b15 ^^^ 18446744073709551615) &&& b16))
    (b20 ^^^ ((b21 ^^^ 18446744073709551615) &&& b22))
    (b21 ^^^ ((b22 ^^^ 18446744073709551615) &&& b23))
    (b22 ^^^ ((b23 ^^^ 18446744073709551615) &&& b24))
    (b23 ^^^ ((b24 ^^^ 18446744073709551615) &&& b20))
    (b24 ^^^ ((b20 ^^^ 18446744073709551615) &&& b21))

/-- Round constants of keccak-f[1600]. -/
def keccakRC : List Nat :=
  [0x0000000000000001, 0x0000000000008082, 0x800000000000808a, 0x8000000080008000,
   0x000000000000808b, 0x0000000080000001, 0x8000000080008081, 0x8000000000008009,
   0x000000000000008a, 0x0000000000000088, 0x0000000080008009, 0x000000008000000a,
   0x000000008000808b, 0x800000000000008b, 0x8000000000008089, 0x8000000000008003,
   0x8000000000008002, 0x8000000000000080, 0x000000000000800a, 0x800000008000000a,
   0x8000000080008081, 0x8000000000008080, 0x0000000080000001, 0x8000000080008008]

/-- The keccak-f[1600] permutation: 24 rounds. -/
def keccakF (s : KSt) : KSt := keccakRC.foldl keccakRound s

/-- Original Keccak multi-rate padding (pad byte 0x01, final bit 0x80), as used
by sha3.keccak_256 in the source; rate 1088 bits = 136 bytes. -/
def keccakPadMsg (msg : List Nat) : List Nat :=
  let padlen := 136 - msg.length % 136
  if padlen == 1 then msg ++ [0x81]
  else msg ++ [0x01] ++ List.replicate (padlen - 2) 0 ++ [0x80]

/-- Little-endian byte list to 64-bit lane. -/
def bytesToLane (bs : List Nat) : Nat := bs.foldr (fun b acc => acc * 256 + b) 0

/-- 64-bit lane to 8 little-endian bytes. -/
def laneToBytes (n : Nat) : List Nat := (List.range 8).map (fun i => (n >>> (8 * i)) % 256)

def laneAt (block : List Nat) (i : Nat) : Nat := bytesToLane ((block.drop (8 * i)).take 8)

/-- Absorb one 136-byte block into the sponge state. -/
def absorbBlock (s : KSt) (block : List Nat) : KSt :=
  keccakF (KSt.mk
    (s.a0 ^^^ laneAt block 0) (s.a1 ^^^ laneAt block 1) (s.a2 ^^^ laneAt block 2)
    (s.a3 ^^^ laneAt block 3) (s.a4 ^^^ laneAt block 4) (s.a5 ^^^ laneAt block 5)
    (s.a6 ^^^ laneAt block 6) (s.a7 ^^^ laneAt block 7) (s.a8 ^^^ laneAt block 8)
    (s.a9 ^^^ laneAt block 9) (s.a10 ^^^ laneAt block 10) (s.a11 ^^^ laneAt block 11)
    (s.a12 ^^^ laneAt block 12) (s.a13 ^^^ laneAt block 13) (s.a14 ^^^ laneAt block 14)
    (s.a15 ^^^ laneAt block 15) (s.a16 ^^^ laneAt block 16)
    s.a17 s.a18 s.a19 s.a20 s.a21 s.a22 s.a23 s.a24)

def kstZero : KSt := KSt.mk 0 0 0 0 0 0 0 0 0 0 0 0 0 0 0 0 0 0 0 0 0 0 0 0 0

def keccakBlocks (padded : List Nat) : List (List Nat) :=
  (List.range (padded.length / 136)).map (fun k => ((padded.drop (136 * k)).take 136))

/-- keccak-256 of a byte list (the hash sha3.keccak_256 computes in the source;
checked against the standard test vectors and against the roots asserted by
src/test/test_data_availability.py). -/
def keccak256 (msg : List Nat) : List Nat :=
  let st := (keccakBlocks (keccakPadMsg msg)).foldl absorbBlock kstZero
  laneToBytes st.a0 ++ laneToBytes st.a1 ++ laneToBytes st.a2 ++ laneToBytes st.a3

/-- Byte strings and 32-byte hashes. -/
abbrev Bytes := List Nat

/-- A blob: an ordered list of words (each a byte list), as the source passes
around lists of 8-byte chunks. -/
abbrev Blob := List Bytes

/-- The all-zero 8-byte word bytes(8). -/
def zeroWord : Bytes := List.replicate 8 0

/-- One pass of calculate_root_from_hashes (src lines 398-407): pop the two
front-most hashes, push keccak-256 of their concatenation; a trailing unpaired
hash is not carried over (the source pops len/2 pairs and then replaces the
list by the results list). -/
def pairPass : Blob → Blob
  | a :: b :: rest => keccak256 (a ++ b) :: pairPass rest
  | _ => []

/-- The while-loop of calculate_root_from_hashes, run on explicit fuel; each
iteration at least halves the list length, so fuel equal to the initial length
always suffices (see calcRootAux_fuel). -/
def calcRootAux : Nat → Blob → Blob
  | 0, hs => hs
  | fuel + 1, hs => if hs.length > 1 then calcRootAux fuel (pairPass hs) else hs

/-- Shallow embedding of calculate_root_from_hashes (src lines 397-409).
On the empty list the source raises IndexError at hashes[0]; the embedding
returns [] there (no claim evaluates it on the empty list). -/
def calculate_root_from_hashes (hashes : Blob) : Bytes :=
  (calcRootAux hashes.length hashes).headD []

/-- A ledger history event: MerkleRootCalculatedFromData (a submitted page)
or MerkleRootCalculatedFromHistory (an aggregation of earlier indices). -/
inductive Event where
  | fromData (root : Bytes) (log2Size : Nat) (data : Blob) (index : Nat)
  | fromHistory (root : Bytes) (log2Size : Nat) (indices : List Nat) (index : Nat)
deriving DecidableEq

def Event.root : Event → Bytes
  | .fromData r _ _ _ => r
  | .fromHistory r _ _ _ => r

def Event.log2Size : Event → Nat
  | .fromData _ s _ _ => s
  | .fromHistory _ s _ _ => s

def Event.index : Event → Nat
  | .fromData _ _ _ i => i
  | .fromHistory _ _ _ i => i

/-- Combined state of one client session (the fields instantiate resets:
page/tree sizes and the three dedup caches) and of the external ledger
(its event history, next fresh index, whether it is currently rejecting
mutating transactions, and an instrumentation counter of mutating calls
issued by the client). -/
structure St where
  pageLog2Size : Nat
  treeLog2Size : Nat
  blobCache : List (Blob × Nat)
  indexCache : List (List Nat × Nat)
  downloadCache : List (Bytes × Blob)
  logs : List Event
  nextIndex : Nat
  rejects : Bool
  mutCount : Nat
deriving DecidableEq

/-- Python dict modelled as an association list: insertion prepends, lookup
takes the first match. -/
def alookup {α β : Type} [DecidableEq α] : List (α × β) → α → Option β
  | [], _ => none
  | (k2, v) :: rest, k => if k = k2 then some v else alookup rest k

/-- A fresh state: empty session caches and an empty ledger (instantiate on a
fresh deployment). -/
def initSt (pageLog2Size treeLog2Size : Nat) : St :=
  { pageLog2Size := pageLog2Size, treeLog2Size := treeLog2Size,
    blobCache := [], indexCache := [], downloadCache := [],
    logs := [], nextIndex := 0, rejects := false, mutCount := 0 }

/-- search_logs_root (src lines 147-155): the first event in history order
whose root field matches. -/
def searchLogsRoot (st : St) (root : Bytes) : Option Event :=
  st.logs.find? (fun e => e.root == root)

/-- search_logs_index (src lines 157-165): the first event whose index
field matches. -/
def searchLogsIndex (st : St) (i : Nat) : Option Event :=
  st.logs.find? (fun e => e.index == i)

/-- Modelled from the spec: the contract query isLogAvailable(root, log2Size)
(isRegistered in spec section 6): does an object with this root exist at this
declared size. -/
def isLogAvailable (st : St) (root : Bytes) (log2Size : Nat) : Bool :=
  match searchLogsRoot st root with
  | some e => e.log2Size == log2Size
  | none => false

/-- Modelled from the spec: the contract query getLogIndex(root), the index of
the stored object with this root (only called after isLogAvailable). -/
def getLogIndex (st : St) (root : Bytes) : Nat :=
  match searchLogsRoot st root with
  | some e => e.index
  | none => 0

/-- Modelled from the spec: the contract query getLogRoot(index)
(indexToRoot in spec section 6); none models the revert on an unknown index. -/
def getLogRoot (st : St) (i : Nat) : Option Bytes :=
  (searchLogsIndex st i).map Event.root

/-- Shallow embedding of Logger.__get_index_from_root (src lines 167-175). -/
def get_index_from_root (st : St) (root : Bytes) (log2Size : Nat) : Bool × Nat :=
  if isLogAvailable st root log2Size then (true, getLogIndex st root) else (false, 0)

def allSome {α : Type} : List (Option α) → Option (List α)
  | [] => some []
  | none :: _ => none
  | some a :: rest => (allSome rest).map (fun l => a :: l)

/-- Right-pad one word to 8 bytes with zero BYTES (value 0), as bytes8 ABI
encoding does when a short chunk is sent to or stored by the contract. -/
def pad8zero (w : Bytes) : Bytes := w ++ List.replicate (8 - w.length) 0

/-- Modelled from the spec: the on-chain calculateMerkleRootFromData.  The
contract zero-pads the submitted words to the declared 2 ^ log2Size bytes with
0x00 bytes, hashes each 8-byte word with keccak-256 and combines pairwise
(the fixed hashing rule of spec sections 2 and 4.2 that the local hasher must
match bit-for-bit); it records the event with the submitted words (as bytes8
values) and a fresh index, and an index is unique per root: resubmitting
content whose root is already stored returns the existing index with no new
event. -/
def ledgerCalculateFromData (st : St) (log2Size : Nat) (data : Blob) : (Nat × Bytes) × St :=
  let words := data.map pad8zero
  let n := 2 ^ log2Size / 8
  let hashes := (words ++ List.replicate (n - words.length) zeroWord).map keccak256
  let root := calculate_root_from_hashes hashes
  match searchLogsRoot st root with
  | some e => ((e.index, root), st)
  | none =>
    ((st.nextIndex, root),
     { st with logs := st.logs ++ [Event.fromData root log2Size words st.nextIndex],
               nextIndex := st.nextIndex + 1 })

/-- Modelled from the spec: the on-chain calculateMerkleRootFromHistory.  The
contract combines the stored roots of the given indices pairwise in order,
records the event at the combined size with a fresh index (unique per root,
as for data submissions). -/
def ledgerCalculateFromHistory (st : St) (log2Size : Nat) (indices : List Nat) :
    Option ((Nat × Bytes) × St) :=
  match allSome (indices.map (getLogRoot st)) with
  | none => none
  | some hashes =>
    let root := calculate_root_from_hashes hashes
    let sz := log2Size + Nat.log2 indices.length
    match searchLogsRoot st root with
    | some e => some ((e.index, root), st)
    | none =>
      some ((st.nextIndex, root),
        { st with logs := st.logs ++ [Event.fromHistory root sz indices st.nextIndex],
                  nextIndex := st.nextIndex + 1 })

/-- The word padding submit_data_to_logger applies locally before hashing
(src line 294): the source appends the byte b'0', i.e. ASCII 0x30, not the
zero byte. -/
def localWordPad (w : Bytes) : Bytes := w ++ List.replicate (8 - w.length) 0x30

/-- The word hashes submit_data_to_logger computes locally (src lines 286-296):
pad the page with zero words to page_size/8 words, pad each word to 8 bytes
with localWordPad, keccak-256 each. -/
def localPageHashes (pageLog2Size : Nat) (data : Blob) : List Bytes :=
  let n := 2 ^ pageLog2Size / 8
  let padded_data := data ++ List.replicate (n - data.length) zeroWord
  (List.range n).map (fun x => keccak256 (localWordPad (padded_data.getD x [])))

/-- Shallow embedding of submit_data_to_logger (src lines 283-310): compute the
page root locally, adopt the existing ledger index if the root is registered,
otherwise issue the mutating calculateMerkleRootFromData call.  A rejected
transaction raises ValueError inside __send_txn_to_logger, which the source
catches, prints and swallows, returning None: that is the none result.
Progress-bar updates are omitted. -/
def submit_data_to_logger (st : St) (data : Blob) : Option (Nat × Bytes) × St :=
  let root := calculate_root_from_hashes (localPageHashes st.pageLog2Size data)
  let q := get_index_from_root st root st.pageLog2Size
  if q.1 then (some (q.2, root), st)
  else
    let st1 := { st with mutCount := st.mutCount + 1 }
    if st1.rejects then (none, st1)
    else
      let r := ledgerCalculateFromData st1 st.pageLog2Size data
      (some r.1, r.2)

/-- Shallow embedding of submit_indices_to_logger (src lines 215-234): fetch
the root of each index (a revert on an unknown index is caught and swallowed,
returning None), compute the combined root locally, adopt an existing index
or issue the mutating calculateMerkleRootFromHistory call. -/
def submit_indices_to_logger (st : St) (log2Size : Nat) (indices : List Nat) :
    Option (Nat × Bytes) × St :=
  match allSome (indices.map (getLogRoot st)) with
  | none => (none, st)
  | some hashes =>
    let root := calculate_root_from_hashes hashes
    let q := get_index_from_root st root (log2Size + Nat.log2 indices.length)
    if q.1 then (some (q.2, root), st)
    else
      let st1 := { st with mutCount := st.mutCount + 1 }
      if st1.rejects then (none, st1)
      else
        match ledgerCalculateFromHistory st1 log2Size indices with
        | none => (none, st1)
        | some r => (some r.1, r.2)

/-- The Python error submit_file surfaces to its caller when a swallowed
failure makes submit_data_to_logger / submit_indices_to_logger return None:
unpacking None raises TypeError. -/
inductive PyErr where
  | typeError
deriving DecidableEq

instance {e a : Type} [DecidableEq e] [DecidableEq a] : DecidableEq (Except e a) := fun x y =>
  match x, y with
  | .error x, .error y =>
    if h : x = y then isTrue (by rw [h]) else isFalse (by intro hh; cases hh; exact h rfl)
  | .ok x, .ok y =>
    if h : x = y then isTrue (by rw [h]) else isFalse (by intro hh; cases hh; exact h rfl)
  | .error _, .ok _ => isFalse (by intro hh; cases hh)
  | .ok _, .error _ => isFalse (by intro hh; cases hh)

/-- The chunk-accumulating for-loop of submit_file (src lines 317-330): the
byte stream is the list of chunks the generator __bytes_from_file yields
(f.read(8) results: 8-byte words, the final one possibly shorter).  A page is
complete when it holds page_size/8 words; completed pages go through the
blob cache, else through submit_data_to_logger (whose index is then cached).
Progress-bar updates are omitted; None unpacking is the typeError result. -/
def pageLoop (st : St) (data : Blob) (indices : List Nat) (root : Bytes) (count : Int) :
    List Bytes → Except PyErr (Blob × List Nat × Bytes × Int × St)
  | [] => .ok (data, indices, root, count, st)
  | b :: rest =>
    let data1 := data ++ [b]
    if data1.length * 8 == 2 ^ st.pageLog2Size then
      match alookup st.blobCache data1 with
      | some cached => pageLoop st [] (indices ++ [cached]) root (count - 1) rest
      | none =>
        match submit_data_to_logger st data1 with
        | (some (i, r), st2) =>
          pageLoop { st2 with blobCache := (data1, i) :: st2.blobCache } []
            (indices ++ [i]) r (count - 1) rest
        | (none, _) => .error .typeError
    else pageLoop st data1 indices root count rest

/-- The partial-final-page step of submit_file (src lines 332-336): a nonempty
word remainder is submitted as a short page, without consulting or updating
the blob cache. -/
def submitTail1 (st : St) (data : Blob) (indices : List Nat) (root : Bytes) (count : Int) :
    Except PyErr (List Nat × Bytes × Int × St) :=
  if data.length = 0 then .ok (indices, root, count, st)
  else
    match submit_data_to_logger st data with
    | (some (i, r), st2) => .ok (indices ++ [i], r, count - 1, st2)
    | (none, _) => .error .typeError

/-- The zero-page fill step of submit_file (src lines 338-346): when fewer
pages than the tree capacity were produced, submit the one-zero-word page
once and append its index for every remaining page slot. -/
def submitTail2 (st : St) (indices : List Nat) (root : Bytes) (count : Int) :
    Except PyErr (List Nat × Bytes × St) :=
  if count > 0 then
    match submit_data_to_logger st [zeroWord] with
    | (some (i, r), st2) => .ok (indices ++ List.replicate count.toNat i, r, st2)
    | (none, _) => .error .typeError
  else .ok (indices, root, st)

/-- One pass of the aggregation while-loop of submit_file (src lines 354-367):
consume the index list two at a time in order, going through the index-pair
cache or submit_indices_to_logger; an unpaired trailing index is dropped
(the source runs len/2 pair iterations and then discards the old list). -/
def aggPass (st : St) (log2Size : Nat) (root : Bytes) (acc : List Nat) :
    List Nat → Except PyErr (List Nat × Bytes × St)
  | i1 :: i2 :: rest =>
    (match alookup st.indexCache [i1, i2] with
     | some cached => aggPass st log2Size root (acc ++ [cached]) rest
     | none =>
       match submit_indices_to_logger st log2Size [i1, i2] with
       | (some (i, r), st2) =>
         aggPass { st2 with indexCache := ([i1, i2], i) :: st2.indexCache } log2Size r
           (acc ++ [i]) rest
       | (none, _) => .error .typeError)
  | _ => .ok (acc, root, st)

/-- The aggregation while-loop of submit_file (src lines 350-369), run on
explicit fuel; each pass halves the index-list length, so fuel equal to the
initial length always suffices. -/
def aggLoop : Nat → St → Nat → List Nat → Bytes → Except PyErr (Bytes × St)
  | 0, st, _, _, root => .ok (root, st)
  | fuel + 1, st, log2Size, indices, root =>
    if indices.length > 1 then
      match aggPass st log2Size root [] indices with
      | .error e => .error e
      | .ok (newIndices, root2, st2) => aggLoop fuel st2 (log2Size + 1) newIndices root2
    else .ok (root, st)

/-- Shallow embedding of submit_file (src lines 312-371).  root starts as
bytes(32) and is reassigned only by the non-cached branches. -/
def submit_file (st : St) (chunks : List Bytes) : Except PyErr (Bytes × St) :=
  let totalPages : Int := (2 : Int) ^ (st.treeLog2Size - st.pageLog2Size)
  match pageLoop st [] [] (List.replicate 32 0) totalPages chunks with
  | .error e => .error e
  | .ok (data, indices, root, count, st1) =>
    match submitTail1 st1 data indices root count with
    | .error e => .error e
    | .ok (indices2, root2, count2, st2) =>
      match submitTail2 st2 indices2 root2 count2 with
      | .error e => .error e
      | .ok (indices3, root3, st3) =>
        aggLoop indices3.length st3 st3.pageLog2Size indices3 root3

/-- One step of the child-index for-loop of recover_data_from_root (src lines
264-272), parameterised by the recursive call: a dangling index is silently
skipped, and the success flag of the recursive call is ignored, exactly as in
the source. -/
def recoverFoldWith (rec2 : St → Bytes → Option ((Bool × Blob) × St))
    (acc : Option (Blob × St)) (i : Nat) : Option (Blob × St) :=
  match acc with
  | none => none
  | some (d, st2) =>
    match searchLogsIndex st2 i with
    | none => some (d, st2)
    | some e =>
      match rec2 st2 e.root with
      | none => none
      | some ((_, di), st3) => some (d ++ di, st3)

/-- Shallow embedding of recover_data_from_root (src lines 236-281), with an
explicit fuel bound on the recursion depth: none is the fuel running out,
modelling the unbounded recursion of the source (which has no depth guard and
recurses in Python until the interpreter's recursion limit).  A data event is
zero-word-padded to its declared size; a history event resolves each child
index in order (a dangling index is silently skipped, and the success flag of
a recursive call is ignored, exactly as in the source), then the
concatenation is stored in the download cache.  Progress updates omitted. -/
def recover_data_from_root : Nat → St → Bytes → Option ((Bool × Blob) × St)
  | 0, _, _ => none
  | fuel + 1, st, root =>
    match alookup st.downloadCache root with
    | some d => some ((true, d), st)
    | none =>
      match searchLogsRoot st root with
      | some (Event.fromData _ log2Size data _) =>
        let expected := 2 ^ (log2Size - 3)
        some ((true, data ++ List.replicate (expected - data.length) zeroWord), st)
      | some (Event.fromHistory _ _ indices _) =>
        match indices.foldl (recoverFoldWith (recover_data_from_root fuel)) (some ([], st)) with
        | none => none
        | some (d, st2) =>
          some ((true, d), { st2 with downloadCache := (root, d) :: st2.downloadCache })
      | none => some ((false, []), st)

/-- Shallow embedding of download_file (src lines 373-395).  The written file
is modelled as a byte list: after writing all recovered words the source
truncates the file to 2 ^ treeLog2Size whenever the byte count differs, which
cuts a longer recovery and zero-extends a shorter one (POSIX truncate).  The
none output component is the file not being written (root not found). -/
def download_file (fuel : Nat) (st : St) (root : Bytes) : Option ((Bool × Option Bytes) × St) :=
  match recover_data_from_root fuel st root with
  | none => none
  | some ((succ, data), st2) =>
    let bytes_count := (data.map List.length).sum
    let expected := 2 ^ st2.treeLog2Size
    if succ then
      let written := data.flatten
      let out := if expected ≠ bytes_count then
          written.take expected ++ List.replicate (expected - written.length) 0
        else written
      some ((true, some out), st2)
    else some ((false, none), st2)

/-! Concrete fixtures used by the claim theorems. -/

/-- The four 8-byte words of test case 1 in src/test/test_data_availability.py:
the ASCII bytes of est95192, 51e5q1w9, 54sd984s, df5a1ste. -/
def fourWords : Blob :=
  [[101, 115, 116, 57, 53, 49, 57, 50], [53, 49, 101, 53, 113, 49, 119, 57],
   [53, 52, 115, 100, 57, 56, 52, 115], [100, 102, 53, 97, 49, 115, 116, 101]]

/-- The 32-byte root 41635d7ab5ba446d0ffa701662a60aec0709b0f778f15745a631d070ccfa90f4
asserted by test case 1. -/
def c6RootBytes : Bytes :=
  [0x41, 0x63, 0x5d, 0x7a, 0xb5, 0xba, 0x44, 0x6d, 0x0f, 0xfa, 0x70, 0x16, 0x62, 0xa6, 0x0a, 0xec,
   0x07, 0x09, 0xb0, 0xf7, 0x78, 0xf1, 0x57, 0x45, 0xa6, 0x31, 0xd0, 0x70, 0xcc, 0xfa, 0x90, 0xf4]

def c6Run1 : Option (Nat × Bytes) × St := submit_data_to_logger (initSt 5 5) fourWords

def c6Run2 : Option (Nat × Bytes) × St := submit_data_to_logger c6Run1.2 fourWords

/-- An 8-byte file (one full word), submitted into a 16-byte tree. -/
def c1File : List Bytes := [[1, 2, 3, 4, 5, 6, 7, 8]]

/-- The output file download_file(submit_file(c1File)) writes, with
pageLog2Size 3 and treeLog2Size 4. -/
def c1Out : Option Bytes :=
  match submit_file (initSt 3 4) c1File with
  | .ok (r, st1) =>
    match download_file 10 st1 r with
    | some ((_, out), _) => out
    | none => none
  | .error _ => none

/-- A 16-byte file: two full words, filling the 2-page tree of
pageLog2Size 3 and treeLog2Size 4 exactly. -/
def c2File : List Bytes :=
  [[101, 115, 116, 57, 53, 49, 57, 50], [53, 49, 101, 53, 113, 49, 119, 57]]

def c2FirstRoot : Option Bytes :=
  match submit_file (initSt 3 4) c2File with
  | .ok (r, _) => some r
  | .error _ => none

def c2SecondRoot : Option Bytes :=
  match submit_file (initSt 3 4) c2File with
  | .ok (_, st1) =>
    match submit_file st1 c2File with
    | .ok (r, _) => some r
    | .error _ => none
  | .error _ => none

/-- A 3-byte file (a single short chunk), submitted into the one-page tree of
pageLog2Size 4 and treeLog2Size 4: its final short word makes the local page
root differ from the root the ledger stores. -/
def c3File : List Bytes := [[97, 98, 99]]

/-- The mutating-ledger-call counters after a first and a second submission of
c3File in one session. -/
def c3MutCounts : Option (Nat × Nat) :=
  match submit_file (initSt 4 4) c3File with
  | .ok (_, st1) =>
    match submit_file st1 c3File with
    | .ok (_, st2) => some (st1.mutCount, st2.mutCount)
    | .error _ => none
  | .error _ => none

/-- A malformed ledger: the history event for root [1, 2, 3] lists child index
0, and the event stored at index 0 is that same event, so recovery recurses on
the same root forever. -/
def cycSt : St :=
  { pageLog2Size := 3, treeLog2Size := 4, blobCache := [], indexCache := [], downloadCache := [],
    logs := [Event.fromHistory [1, 2, 3] 4 [0] 0], nextIndex := 1, rejects := false, mutCount := 0 }

/-- A ledger whose mutating calls fail (transaction receipt status 0). -/
def rejSt : St :=
  { pageLog2Size := 3, treeLog2Size := 3, blobCache := [], indexCache := [], downloadCache := [],
    logs := [], nextIndex := 0, rejects := true, mutCount := 0 }

/-- A ledger state whose only event is an 8-byte page at log2Size 3, while the
session expects a 16-byte tree: recovery of root [9, 9, 9] returns fewer bytes
than the expected size. -/
def c5St : St :=
  { pageLog2Size := 3, treeLog2Size := 4, blobCache := [], indexCache := [], downloadCache := [],
    logs := [Event.fromData [9, 9, 9] 3 [[1, 2, 3, 4, 5, 6, 7, 8]] 0], nextIndex := 1,
    rejects := false, mutCount := 0 }

/-! Claim theorems. -/

set_option maxRecDepth 1000000 in
set_option maxHeartbeats 2000000 in
/-- C6: submitting the four 8-byte words est95192, 51e5q1w9, 54sd984s, df5a1ste
as one page at pageLog2Size 5 yields the locally computed root (keccak-256 of
each word, then two levels of pairwise keccak-256 over concatenations) equal to
41635d7ab5ba446d0ffa701662a60aec0709b0f778f15745a631d070ccfa90f4, and
re-submitting the identical four words returns the same index with the state
(in particular the mutating-call counter) unchanged. -/
theorem C6_page_root_and_dedup :
    calculate_root_from_hashes (localPageHashes 5 fourWords) = c6RootBytes ∧
    c6RootBytes =
      keccak256 (keccak256 (keccak256 (fourWords.getD 0 []) ++ keccak256 (fourWords.getD 1 [])) ++
        keccak256 (keccak256 (fourWords.getD 2 []) ++ keccak256 (fourWords.getD 3 []))) ∧
    c6Run1.1 = some (0, c6RootBytes) ∧
    c6Run2.1 = some (0, c6RootBytes) ∧
    c6Run2.2 = c6Run1.2 := by
  decide

set_option maxRecDepth 1000000 in
set_option maxHeartbeats 1000000 in
/-- C4 (code bug): for the short final chunk [97, 98, 99] the local page-root
computation of submit_data_to_logger hashes the word right-padded with the
ASCII byte 0x30 (the source appends b'0', not the zero byte), so the padding
is not the zero-byte padding the claim (and the comment in the source) state. -/
theorem C4_short_word_padded_with_ascii_zero :
    localWordPad [97, 98, 99] = [97, 98, 99] ++ List.replicate 5 0x30 ∧
    localWordPad [97, 98, 99] ≠ [97, 98, 99] ++ List.replicate 5 0 ∧
    localPageHashes 4 [[97, 98, 99]] =
      [keccak256 ([97, 98, 99] ++ List.replicate 5 0x30), keccak256 zeroWord] ∧
    localPageHashes 4 [[97, 98, 99]] ≠
      [keccak256 ([97, 98, 99] ++ List.replicate 5 0), keccak256 zeroWord] := by
  decide

set_option maxRecDepth 1000000 in
set_option maxHeartbeats 2000000 in
/-- C3 (code bug): submitting the 3-byte file [97, 98, 99] twice in one session
with pageLog2Size = treeLog2Size = 4 issues a mutating ledger call on the
second submission as well (the counter goes from 1 to 2): the partial-page
path neither consults the blob cache nor finds the 0x30-padded local root in
the ledger, which stores the zero-padded root. -/
theorem C3_second_submission_issues_mutating_call : c3MutCounts = some (1, 2) := by
  decide

set_option maxRecDepth 1000000 in
set_option maxHeartbeats 2000000 in
/-- C1 counterexample: for the 8-byte file c1File and the valid configuration
pageLog2Size 3, treeLog2Size 4, download_file after submit_file writes the
file zero-padded to 16 bytes, not the original 8 bytes: the round trip is not
byte-for-byte. -/
theorem C1_counterexample_roundtrip_pads :
    c1Out = some ([1, 2, 3, 4, 5, 6, 7, 8] ++ List.replicate 8 0) ∧
    c1Out ≠ some [1, 2, 3, 4, 5, 6, 7, 8] := by
  decide

set_option maxRecDepth 1000000 in
set_option maxHeartbeats 4000000 in
/-- C2 counterexample: submitting the tree-filling 16-byte file c2File twice in
one session returns a real root the first time but the 32 zero bytes the
second time (every step of the second run is served from the session caches,
which never assign the root variable). -/
theorem C2_counterexample_second_root_differs :
    c2SecondRoot = some (List.replicate 32 0) ∧
    c2FirstRoot ≠ c2SecondRoot ∧
    c2FirstRoot ≠ none := by
  decide

set_option maxRecDepth 100000 in
/-- C7 counterexample: on the cyclic one-event history of cycSt (whose
configuration has treeLog2Size - pageLog2Size = 1), recovery of the root
[1, 2, 3] is still recursing after 64 nested calls: the recursion depth is not
bounded by treeLog2Size - pageLog2Size and no SizeMismatch is reported. -/
theorem C7_counterexample_depth_unbounded :
    recover_data_from_root 64 cycSt [1, 2, 3] = none := by
  decide

set_option maxRecDepth 1000000 in
set_option maxHeartbeats 1000000 in
/-- C8 counterexample: with a ledger that rejects mutating transactions
(receipt status 0), submit_data_to_logger swallows the ValueError (returning
None), and submit_file surfaces only the TypeError from unpacking None: the
caller does not receive the SubmissionRejected error with the transaction
identity. -/
theorem C8_counterexample_error_swallowed :
    (submit_data_to_logger rejSt [[97]]).1 = none ∧
    submit_file rejSt [[1, 2, 3, 4, 5, 6, 7, 8]] = .error .typeError := by
  decide

/-- C5 counterexample: on the malformed ledger c5St recovery succeeds with only
8 bytes while the expected tree size is 16; download_file silently zero-extends
the output file to 16 bytes and reports success instead of a SizeMismatch
error. -/
theorem C5_counterexample_short_recovery_extended :
    download_file 5 c5St [9, 9, 9] =
      some ((true, some ([1, 2, 3, 4, 5, 6, 7, 8] ++ List.replicate 8 0)), c5St) := by
  decide

/-! Helper lemmas about calculate_root_from_hashes. -/

theorem pairPass_length (l : Blob) : (pairPass l).length = l.length / 2 := by
  induction l using pairPass.induct with
  | case1 a b rest ih => simp [pairPass, ih]; omega
  | case2 l h => cases l with
    | nil => simp [pairPass]
    | cons a rest =>
      cases rest with
      | nil => simp [pairPass]
      | cons b r => exact absurd rfl (h a b r)

theorem calcRootAux_congr (f1 f2 : Nat) (hs : Blob)
    (h1 : hs.length ≤ f1) (h2 : hs.length ≤ f2) :
    calcRootAux f1 hs = calcRootAux f2 hs := by
  induction f1 generalizing f2 hs with
  | zero =>
    have h0 : hs.length = 0 := Nat.le_zero.mp h1
    cases f2 with
    | zero => rfl
    | succ m => simp [calcRootAux, h0]
  | succ n ih =>
    cases f2 with
    | zero =>
      have : hs.length = 0 := Nat.le_zero.mp h2
      simp [calcRootAux, this]
    | succ m =>
      simp only [calcRootAux]
      by_cases hlen : hs.length > 1
      · simp only [hlen, if_pos]
        have hp : (pairPass hs).length ≤ n := by
          rw [pairPass_length]; omega
        have hp2 : (pairPass hs).length ≤ m := by
          rw [pairPass_length]; omega
        exact ih m (pairPass hs) hp hp2
      · simp [hlen]

/-- C10: for a hash list of odd length at least 3, calculate_root_from_hashes
gives the same root as on the list with its last element removed: the unpaired
trailing hash is silently dropped in the first pass, never rejected and never
carried over. -/
theorem C10_odd_trailing_hash_dropped (l : Blob)
    (hodd : l.length % 2 = 1) (h3 : 3 ≤ l.length) :
    calculate_root_from_hashes l = calculate_root_from_hashes l.dropLast := by
  have hpp : ∀ (m : Blob), m.length % 2 = 1 → pairPass m = pairPass m.dropLast := by
    intro m
    induction m using pairPass.induct with
    | case1 a b rest ih =>
      intro hm
      cases rest with
      | nil => simp at hm
      | cons c r =>
        have : (c :: r).length % 2 = 1 := by simp at hm ⊢; omega
        simp only [pairPass, List.dropLast]
        rw [ih this]
    | case2 m h =>
      intro hm
      cases m with
      | nil => simp at hm
      | cons a rest =>
        cases rest with
        | nil => simp [pairPass]
        | cons b r => exact absurd rfl (h a b r)
  unfold calculate_root_from_hashes
  have hlen : l.dropLast.length = l.length - 1 := by simp
  have h1 : calcRootAux l.length l = calcRootAux (l.length - 1) (pairPass l) := by
    have : l.length > 1 := by omega
    cases hl : l.length with
    | zero => omega
    | succ n =>
      simp only [calcRootAux]
      rw [if_pos]
      · exact calcRootAux_congr n (n + 1 - 1) (pairPass l)
          (by rw [pairPass_length]; omega) (by rw [pairPass_length]; omega)
      · omega
  have h2 : calcRootAux l.dropLast.length l.dropLast =
      calcRootAux (l.length - 1) (pairPass l.dropLast) := by
    rw [hlen]
    cases hl : l.length - 1 with
    | zero => omega
    | succ n =>
      simp only [calcRootAux]
      rw [if_pos]
      · exact calcRootAux_congr n (n + 1) (pairPass l.dropLast)
          (by rw [pairPass_length, hlen, hl]; omega)
          (by rw [pairPass_length, hlen, hl]; omega)
      · rw [hlen, hl]; omega
  rw [h1, h2, hpp l hodd]

/-- C10 witness: at the concrete odd-length list [[1], [2], [3]]. -/
theorem C10_odd_trailing_hash_dropped_witness :
    ([[1], [2], [3]] : Blob).length % 2 = 1 ∧ 3 ≤ ([[1], [2], [3]] : Blob).length ∧
    calculate_root_from_hashes [[1], [2], [3]] =
      calculate_root_from_hashes (([[1], [2], [3]] : Blob).dropLast) :=
  ⟨by decide, by decide, C10_odd_trailing_hash_dropped [[1], [2], [3]] (by decide) (by decide)⟩

/-- C9: for any state whose ledger history holds no event with the requested
root (and whose download cache does not hold it either), recovery returns the
negative not-found result (False, []) without changing the state, and
download_file reports failure and writes no output file. -/
theorem C9_root_not_found (st : St) (root : Bytes) (fuel : Nat)
    (hcache : alookup st.downloadCache root = none)
    (hlogs : ∀ e ∈ st.logs, e.root ≠ root) :
    recover_data_from_root (fuel + 1) st root = some ((false, []), st) ∧
    download_file (fuel + 1) st root = some ((false, none), st) := by
  have hfind : searchLogsRoot st root = none := by
    unfold searchLogsRoot
    rw [List.find?_eq_none]
    intro e he
    simpa using hlogs e he
  have hrec : recover_data_from_root (fuel + 1) st root = some ((false, []), st) := by
    simp only [recover_data_from_root, hcache, hfind]
  refine ⟨hrec, ?_⟩
  simp only [download_file, hrec]
  simp

/-- C9 witness: a fresh state with an unrelated event, queried at root [5]. -/
theorem C9_root_not_found_witness :
    alookup c5St.downloadCache [5] = none ∧ (∀ e ∈ c5St.logs, e.root ≠ [5]) ∧
    recover_data_from_root 3 c5St [5] = some ((false, []), c5St) ∧
    download_file 3 c5St [5] = some ((false, none), c5St) := by
  refine ⟨by decide, by decide, ?_⟩
  exact C9_root_not_found c5St [5] 2 (by decide) (by decide)

/-- C5 amended: whenever recovery succeeds, download_file reshapes the
recovered bytes to exactly 2 ^ treeLog2Size: a longer recovery is truncated
and a shorter one silently zero-extended, and success is reported in both
cases, with no distinct SizeMismatch outcome. -/
theorem C5_amended_output_resized (fuel : Nat) (st st2 : St) (root : Bytes) (data : Blob)
    (h : recover_data_from_root fuel st root = some ((true, data), st2)) :
    download_file fuel st root =
      some ((true, some (data.flatten.take (2 ^ st2.treeLog2Size) ++
        List.replicate (2 ^ st2.treeLog2Size - data.flatten.length) 0)), st2) := by
  simp only [download_file, h]
  by_cases hq : 2 ^ st2.treeLog2Size ≠ (data.map List.length).sum
  · simp [hq]
  · push_neg at hq
    have hlen : data.flatten.length = 2 ^ st2.treeLog2Size := by
      rw [List.length_flatten]
      omega
    simp [hq, ← hlen]

/-- C5 amended witness: at the malformed ledger c5St with an 8-byte recovery
against a 16-byte tree. -/
theorem C5_amended_output_resized_witness :
    recover_data_from_root 5 c5St [9, 9, 9] =
      some ((true, [[1, 2, 3, 4, 5, 6, 7, 8]]), c5St) ∧
    download_file 5 c5St [9, 9, 9] =
      some ((true, some (([[1, 2, 3, 4, 5, 6, 7, 8]] : Blob).flatten.take (2 ^ c5St.treeLog2Size) ++
        List.replicate (2 ^ c5St.treeLog2Size - ([[1, 2, 3, 4, 5, 6, 7, 8]] : Blob).flatten.length) 0)),
        c5St) :=
  ⟨by decide, C5_amended_output_resized 5 c5St c5St [9, 9, 9] [[1, 2, 3, 4, 5, 6, 7, 8]] (by decide)⟩

/-- C7 amended: recover_data_from_root imposes no recursion-depth bound at all;
on the cyclic history of cycSt the recursion outruns every fuel bound (the
source recurses until the Python interpreter aborts it), so no depth equal to
treeLog2Size - pageLog2Size is enforced and no SizeMismatch is reported. -/
theorem C7_amended_no_depth_bound :
    ∀ fuel, recover_data_from_root fuel cycSt [1, 2, 3] = none := by
  intro fuel
  induction fuel with
  | zero => rfl
  | succ n ih =>
    simp only [recover_data_from_root]
    simp only [cycSt] at ih
    simp [cycSt, alookup, searchLogsRoot, searchLogsIndex, recoverFoldWith, List.find?, Event.root,
      Event.index, ih]

theorem submit_data_rejects (st : St) (data : Blob)
    (hrej : st.rejects = true) (hlogs : st.logs = []) :
    submit_data_to_logger st data = (none, { st with mutCount := st.mutCount + 1 }) := by
  simp only [submit_data_to_logger, get_index_from_root, isLogAvailable, searchLogsRoot, hlogs,
    List.find?]
  simp [hrej]

theorem pageLoop_rejects (st : St) (hrej : st.rejects = true) (hlogs : st.logs = [])
    (hblob : st.blobCache = []) :
    ∀ (chunks : List Bytes) (data : Blob) (indices : List Nat) (root : Bytes) (count : Int),
      pageLoop st data indices root count chunks = .error .typeError ∨
      ∃ d2, pageLoop st data indices root count chunks = .ok (d2, indices, root, count, st) := by
  intro chunks
  induction chunks with
  | nil => intro data indices root count; exact .inr ⟨data, rfl⟩
  | cons b rest ih =>
    intro data indices root count
    simp only [pageLoop]
    by_cases hfull : (data ++ [b]).length * 8 == 2 ^ st.pageLog2Size
    · rw [if_pos hfull]
      rw [hblob]
      simp only [alookup]
      rw [submit_data_rejects st (data ++ [b]) hrej hlogs]
      exact .inl rfl
    · rw [if_neg hfull]
      exact ih (data ++ [b]) indices root count

/-- C8 amended: when the ledger rejects mutating transactions (receipt status
0), the ValueError carrying the transaction hash is raised inside
__send_txn_to_logger but caught, printed and swallowed by
submit_data_to_logger, which returns None; submit_file then fails unpacking
None, so its direct caller observes only a TypeError without the failing
transaction's identity (here stated for a fresh session against an
empty-history rejecting ledger, for every file). -/
theorem C8_amended_typeerror_to_caller (st : St) (chunks : List Bytes)
    (hrej : st.rejects = true) (hlogs : st.logs = []) (hblob : st.blobCache = []) :
    submit_file st chunks = .error .typeError := by
  simp only [submit_file]
  rcases pageLoop_rejects st hrej hlogs hblob chunks [] []
      (List.replicate 32 0) ((2 : Int) ^ (st.treeLog2Size - st.pageLog2Size)) with h | ⟨d2, h⟩
  · rw [h]
  · rw [h]
    simp only [submitTail1]
    by_cases hd : d2.length = 0
    · rw [if_pos hd]
      simp only [submitTail2]
      rw [if_pos (by positivity)]
      rw [submit_data_rejects st [zeroWord] hrej hlogs]
    · rw [if_neg hd]
      rw [submit_data_rejects st d2 hrej hlogs]

/-- C8 amended witness: the rejecting ledger rejSt with a one-chunk file. -/
theorem C8_amended_typeerror_to_caller_witness :
    rejSt.rejects = true ∧ rejSt.logs = [] ∧ rejSt.blobCache = [] ∧
    submit_file rejSt [[97]] = .error .typeError :=
  ⟨rfl, rfl, rfl, C8_amended_typeerror_to_caller rejSt [[97]] rfl rfl rfl⟩

/-- Association-list extension: every present binding is preserved. -/
def cacheLe {α : Type} [DecidableEq α] (c c' : List (α × Nat)) : Prop :=
  ∀ k v, alookup c k = some v → alookup c' k = some v

theorem cacheLe_refl {α : Type} [DecidableEq α] (c : List (α × Nat)) : cacheLe c c :=
  fun _ _ h => h

theorem cacheLe_trans {α : Type} [DecidableEq α] {a b c : List (α × Nat)}
    (h1 : cacheLe a b) (h2 : cacheLe b c) : cacheLe a c :=
  fun k v h => h2 k v (h1 k v h)

theorem cacheLe_cons_of_miss {α : Type} [DecidableEq α] {c : List (α × Nat)} {k : α} {v : Nat}
    (h : alookup c k = none) : cacheLe c ((k, v) :: c) := by
  intro k2 v2 h2
  simp only [alookup]
  by_cases he : k2 = k
  · subst he; rw [h2] at h; cases h
  · rw [if_neg he]; exact h2

theorem alookup_cons_self {α : Type} [DecidableEq α] (c : List (α × Nat)) (k : α) (v : Nat) :
    alookup ((k, v) :: c) k = some v := by
  simp [alookup]

theorem ledgerData_preserves (st : St) (log2Size : Nat) (data : Blob) :
    (ledgerCalculateFromData st log2Size data).2.blobCache = st.blobCache ∧
    (ledgerCalculateFromData st log2Size data).2.indexCache = st.indexCache ∧
    (ledgerCalculateFromData st log2Size data).2.downloadCache = st.downloadCache ∧
    (ledgerCalculateFromData st log2Size data).2.pageLog2Size = st.pageLog2Size ∧
    (ledgerCalculateFromData st log2Size data).2.treeLog2Size = st.treeLog2Size ∧
    (ledgerCalculateFromData st log2Size data).2.rejects = st.rejects := by
  simp only [ledgerCalculateFromData]
  split <;> exact ⟨rfl, rfl, rfl, rfl, rfl, rfl⟩

theorem ledgerHistory_preserves (st : St) (log2Size : Nat) (indices : List Nat) :
    ∀ r, ledgerCalculateFromHistory st log2Size indices = some r →
      r.2.blobCache = st.blobCache ∧ r.2.indexCache = st.indexCache ∧
      r.2.downloadCache = st.downloadCache ∧ r.2.pageLog2Size = st.pageLog2Size ∧
      r.2.treeLog2Size = st.treeLog2Size ∧ r.2.rejects = st.rejects := by
  intro r h
  simp only [ledgerCalculateFromHistory] at h
  repeat' split at h
  · cases h
  · cases h; exact ⟨rfl, rfl, rfl, rfl, rfl, rfl⟩
  · cases h; exact ⟨rfl, rfl, rfl, rfl, rfl, rfl⟩

/-- submit_data_to_logger only touches the ledger fields and the mutation
counter: session caches, sizes and the rejection flag are unchanged. -/
theorem submit_data_preserves (st : St) (data : Blob) :
    (submit_data_to_logger st data).2.blobCache = st.blobCache ∧
    (submit_data_to_logger st data).2.indexCache = st.indexCache ∧
    (submit_data_to_logger st data).2.downloadCache = st.downloadCache ∧
    (submit_data_to_logger st data).2.pageLog2Size = st.pageLog2Size ∧
    (submit_data_to_logger st data).2.treeLog2Size = st.treeLog2Size ∧
    (submit_data_to_logger st data).2.rejects = st.rejects := by
  simp only [submit_data_to_logger]
  split
  · exact ⟨rfl, rfl, rfl, rfl, rfl, rfl⟩
  · split
    · exact ⟨rfl, rfl, rfl, rfl, rfl, rfl⟩
    · exact ledgerData_preserves { st with mutCount := st.mutCount + 1 } st.pageLog2Size data

/-- submit_indices_to_logger likewise preserves session caches, sizes and the
rejection flag. -/
theorem submit_indices_preserves (st : St) (log2Size : Nat) (indices : List Nat) :
    (submit_indices_to_logger st log2Size indices).2.blobCache = st.blobCache ∧
    (submit_indices_to_logger st log2Size indices).2.indexCache = st.indexCache ∧
    (submit_indices_to_logger st log2Size indices).2.downloadCache = st.downloadCache ∧
    (submit_indices_to_logger st log2Size indices).2.pageLog2Size = st.pageLog2Size ∧
    (submit_indices_to_logger st log2Size indices).2.treeLog2Size = st.treeLog2Size ∧
    (submit_indices_to_logger st log2Size indices).2.rejects = st.rejects := by
  simp only [submit_indices_to_logger]
  split
  · exact ⟨rfl, rfl, rfl, rfl, rfl, rfl⟩
  · split
    · exact ⟨rfl, rfl, rfl, rfl, rfl, rfl⟩
    · split
      · exact ⟨rfl, rfl, rfl, rfl, rfl, rfl⟩
      · split
        · exact ⟨rfl, rfl, rfl, rfl, rfl, rfl⟩
        · rename_i r heq
          exact ledgerHistory_preserves { st with mutCount := st.mutCount + 1 } log2Size indices r heq

/-- Replay property of the page loop: a successful run appends a list of page
indices determined by the pages, records every completed page in the blob
cache of its final state, and rerunning the same chunk stream from any state
whose blob cache extends that final cache (with the same page size) is a pure
cache replay: it returns the same remainder and the same appended indices,
leaves the state untouched, and never reassigns root. -/
theorem pageLoop_replay :
    ∀ (chunks : List Bytes) (st : St) (data : Blob) (indices : List Nat) (root : Bytes)
      (count : Int) (d' : Blob) (ind' : List Nat) (root' : Bytes) (count' : Int) (st' : St),
      pageLoop st data indices root count chunks = .ok (d', ind', root', count', st') →
      st'.pageLog2Size = st.pageLog2Size ∧ st'.treeLog2Size = st.treeLog2Size ∧
      cacheLe st.blobCache st'.blobCache ∧
      ∃ new, ind' = indices ++ new ∧
        ∀ (st2 : St) (indices0 : List Nat) (root0 : Bytes) (count0 : Int),
          cacheLe st'.blobCache st2.blobCache → st2.pageLog2Size = st.pageLog2Size →
          pageLoop st2 data indices0 root0 count0 chunks =
            .ok (d', indices0 ++ new, root0, count0 - (count - count'), st2) := by
  intro chunks
  induction chunks with
  | nil =>
    intro st data indices root count d' ind' root' count' st' h
    simp only [pageLoop, Except.ok.injEq, Prod.mk.injEq] at h
    obtain ⟨rfl, rfl, rfl, rfl, rfl⟩ := h
    refine ⟨rfl, rfl, cacheLe_refl _, [], by simp, ?_⟩
    intro st2 indices0 root0 count0 _ _
    simp [pageLoop]
  | cons b rest ih =>
    intro st data indices root count d' ind' root' count' st' h
    simp only [pageLoop] at h
    by_cases hfull : ((data ++ [b]).length * 8 == 2 ^ st.pageLog2Size) = true
    · rw [if_pos hfull] at h
      rcases halk : alookup st.blobCache (data ++ [b]) with _ | cached
      · rcases hsd : submit_data_to_logger st (data ++ [b]) with ⟨o, stm⟩
        simp only [halk, hsd] at h
        cases o with
        | none => cases h
        | some ir =>
          rcases ir with ⟨i, r⟩
          obtain ⟨hpres1, hpres2, hpres3, hpres4, hpres5, hpres6⟩ :=
            submit_data_preserves st (data ++ [b])
          rw [hsd] at hpres1 hpres2 hpres3 hpres4 hpres5 hpres6
          dsimp only at h hpres1 hpres2 hpres3 hpres4 hpres5 hpres6
          obtain ⟨hsz1, hsz2, hmono, new, hind, hreplay⟩ := ih _ _ _ _ _ _ _ _ _ _ h
          have hmonoFull : cacheLe st.blobCache st'.blobCache := by
            refine cacheLe_trans ?_ hmono
            dsimp only
            rw [hpres1]
            exact cacheLe_cons_of_miss halk
          refine ⟨by rw [hsz1]; dsimp only; rw [hpres4], by rw [hsz2]; dsimp only; rw [hpres5],
            hmonoFull, i :: new, by rw [hind]; simp, ?_⟩
          intro st2 indices0 root0 count0 hle hpage
          simp only [pageLoop]
          rw [if_pos (by rw [show st2.pageLog2Size = st.pageLog2Size from hpage]; exact hfull)]
          have hhit : alookup st2.blobCache (data ++ [b]) = some i := by
            apply hle
            apply hmono
            dsimp only
            rw [hpres1]
            exact alookup_cons_self _ _ _
          simp only [hhit]
          have hrep := hreplay st2 (indices0 ++ [i]) root0 (count0 - 1) hle
            (by rw [hpage]; dsimp only at hpres4 ⊢; rw [hpres4])
          rw [hrep]
          have hl1 : (indices0 ++ [i]) ++ new = indices0 ++ i :: new := by simp
          have hl2 : count0 - 1 - (count - 1 - count') = count0 - (count - count') := by omega
          rw [hl1, hl2]
      · simp only [halk] at h
        obtain ⟨hsz1, hsz2, hmono, new, hind, hreplay⟩ := ih _ _ _ _ _ _ _ _ _ _ h
        refine ⟨hsz1, hsz2, hmono, cached :: new, by rw [hind]; simp, ?_⟩
        intro st2 indices0 root0 count0 hle hpage
        simp only [pageLoop]
        rw [if_pos (by rw [show st2.pageLog2Size = st.pageLog2Size from hpage]; exact hfull)]
        have hhit : alookup st2.blobCache (data ++ [b]) = some cached :=
          hle _ _ (hmono _ _ halk)
        simp only [hhit]
        have hrep := hreplay st2 (indices0 ++ [cached]) root0 (count0 - 1) hle hpage
        rw [hrep]
        have hl1 : (indices0 ++ [cached]) ++ new = indices0 ++ cached :: new := by simp
        have hl2 : count0 - 1 - (count - 1 - count') = count0 - (count - count') := by omega
        rw [hl1, hl2]
    · rw [if_neg hfull] at h
      obtain ⟨hsz1, hsz2, hmono, new, hind, hreplay⟩ := ih _ _ _ _ _ _ _ _ _ _ h
      refine ⟨hsz1, hsz2, hmono, new, hind, ?_⟩
      intro st2 indices0 root0 count0 hle hpage
      simp only [pageLoop]
      rw [if_neg (by rw [show st2.pageLog2Size = st.pageLog2Size from hpage]; exact hfull)]
      exact hreplay st2 indices0 root0 count0 hle hpage

/-- Page-accounting of the page loop: page completion is counted in words,
independently of the caches and the ledger.  Starting with a word remainder
strictly below the page word count, a successful run leaves a remainder of
total words mod page words and decrements count once per completed page. -/
theorem pageLoop_shape :
    ∀ (chunks : List Bytes) (st : St) (data : Blob) (indices : List Nat) (root : Bytes)
      (count : Int) (d' : Blob) (ind' : List Nat) (root' : Bytes) (count' : Int) (st' : St),
      pageLoop st data indices root count chunks = .ok (d', ind', root', count', st') →
      3 ≤ st.pageLog2Size →
      data.length + 1 ≤ 2 ^ (st.pageLog2Size - 3) →
      d'.length = (data.length + chunks.length) % 2 ^ (st.pageLog2Size - 3) ∧
      count' = count - ((data.length + chunks.length) / 2 ^ (st.pageLog2Size - 3) : Nat) := by
  intro chunks
  induction chunks with
  | nil =>
    intro st data indices root count d' ind' root' count' st' h h3 hlt
    simp only [pageLoop, Except.ok.injEq, Prod.mk.injEq] at h
    obtain ⟨rfl, rfl, rfl, rfl, rfl⟩ := h
    constructor
    · rw [List.length_nil, Nat.add_zero, Nat.mod_eq_of_lt (by omega)]
    · rw [List.length_nil, Nat.add_zero, Nat.div_eq_of_lt (by omega)]
      simp
  | cons b rest ih =>
    intro st data indices root count d' ind' root' count' st' h h3 hlt
    have hWpos : 0 < 2 ^ (st.pageLog2Size - 3) := Nat.pos_pow_of_pos _ (by omega)
    have hpow : 2 ^ st.pageLog2Size = 2 ^ (st.pageLog2Size - 3) * 8 := by
      have he : st.pageLog2Size - 3 + 3 = st.pageLog2Size := by omega
      calc 2 ^ st.pageLog2Size = 2 ^ (st.pageLog2Size - 3 + 3) := by rw [he]
        _ = 2 ^ (st.pageLog2Size - 3) * 2 ^ 3 := by rw [pow_add]
        _ = 2 ^ (st.pageLog2Size - 3) * 8 := rfl
    simp only [pageLoop] at h
    simp only [List.length_cons]
    by_cases hfull : ((data ++ [b]).length * 8 == 2 ^ st.pageLog2Size) = true
    · have hW : data.length + 1 = 2 ^ (st.pageLog2Size - 3) := by
        have hfe := beq_iff_eq.mp hfull
        simp only [List.length_append, List.length_cons, List.length_nil] at hfe
        rw [hpow] at hfe
        omega
      have htot : data.length + (rest.length + 1) = rest.length + 2 ^ (st.pageLog2Size - 3) := by
        omega
      rw [if_pos hfull] at h
      have hcont : ∀ (stN : St) (indN : List Nat) (rootN : Bytes),
          stN.pageLog2Size = st.pageLog2Size →
          pageLoop stN [] indN rootN (count - 1) rest = .ok (d', ind', root', count', st') →
          d'.length = (data.length + (rest.length + 1)) % 2 ^ (st.pageLog2Size - 3) ∧
          count' = count - ((data.length + (rest.length + 1)) / 2 ^ (st.pageLog2Size - 3) : Nat) := by
        intro stN indN rootN hpg hrun
        have hres := ih _ _ _ _ _ _ _ _ _ _ hrun (by rw [hpg]; omega)
          (by rw [hpg]; simp only [List.length_nil, Nat.zero_add]; exact hWpos)
        rw [hpg] at hres
        obtain ⟨hres1, hres2⟩ := hres
        simp only [List.length_nil, Nat.zero_add] at hres1 hres2
        constructor
        · rw [hres1, htot, Nat.add_mod_right]
        · rw [hres2, htot, Nat.add_div_right rest.length hWpos]
          push_cast
          omega
      rcases halk : alookup st.blobCache (data ++ [b]) with _ | cached
      · rcases hsd : submit_data_to_logger st (data ++ [b]) with ⟨o, stm⟩
        simp only [halk, hsd] at h
        cases o with
        | none => cases h
        | some ir =>
          rcases ir with ⟨i, r⟩
          obtain ⟨hp1, hp2, hp3, hp4, hp5, hp6⟩ := submit_data_preserves st (data ++ [b])
          rw [hsd] at hp4
          dsimp only at h hp4
          exact hcont _ _ _ (by dsimp only; rw [hp4]) h
      · simp only [halk] at h
        exact hcont _ _ _ rfl h
    · have hW : data.length + 1 < 2 ^ (st.pageLog2Size - 3) := by
        rcases Nat.lt_or_ge (data.length + 1) (2 ^ (st.pageLog2Size - 3)) with hlt2 | hge
        · exact hlt2
        · exfalso
          have heq : data.length + 1 = 2 ^ (st.pageLog2Size - 3) := by omega
          apply hfull
          apply beq_iff_eq.mpr
          simp only [List.length_append, List.length_cons, List.length_nil]
          rw [hpow]
          omega
      rw [if_neg hfull] at h
      have hres := ih _ _ _ _ _ _ _ _ _ _ h h3 (by simpa using hW)
      obtain ⟨hres1, hres2⟩ := hres
      simp only [List.length_append, List.length_cons, List.length_nil] at hres1 hres2
      constructor
      · rw [hres1]
        rw [show data.length + (0 + 1) + rest.length = data.length + (rest.length + 1) from by
          omega]
      · rw [hres2]
        rw [show data.length + (0 + 1) + rest.length = data.length + (rest.length + 1) from by
          omega]

/-- Replay property of one aggregation pass: a successful pass appends a list
of pair indices, records every consumed pair in the index cache of its final
state, leaves blob cache and sizes untouched, and rerunning the same index
list from any state whose index cache extends that final cache is a pure
cache replay: same appended indices, untouched state, root never reassigned. -/
theorem aggPass_replay (st : St) (log2Size : Nat) (root : Bytes) (acc : List Nat)
    (indices : List Nat) :
    ∀ (new' : List Nat) (root' : Bytes) (st' : St),
      aggPass st log2Size root acc indices = .ok (new', root', st') →
      st'.pageLog2Size = st.pageLog2Size ∧ st'.treeLog2Size = st.treeLog2Size ∧
      st'.blobCache = st.blobCache ∧
      cacheLe st.indexCache st'.indexCache ∧
      ∃ new, new' = acc ++ new ∧
        ∀ (st2 : St) (root0 : Bytes) (acc0 : List Nat),
          cacheLe st'.indexCache st2.indexCache →
          aggPass st2 log2Size root0 acc0 indices = .ok (acc0 ++ new, root0, st2) := by
  induction st, log2Size, root, acc, indices using aggPass.induct with
  | case1 st log2Size root acc i1 i2 rest cached halk ih =>
    intro new' root' st' h
    simp only [aggPass, halk] at h
    obtain ⟨hsz1, hsz2, hblob, hmono, new, hind, hreplay⟩ := ih _ _ _ h
    refine ⟨hsz1, hsz2, hblob, hmono, cached :: new, by rw [hind]; simp, ?_⟩
    intro st2 root0 acc0 hle
    simp only [aggPass, hle _ _ (hmono _ _ halk)]
    rw [hreplay st2 root0 (acc0 ++ [cached]) hle]
    rw [show (acc0 ++ [cached]) ++ new = acc0 ++ cached :: new from by simp]
  | case2 st log2Size root acc i1 i2 rest halk i r stm hsub ih =>
    intro new' root' st' h
    simp only [aggPass, halk, hsub] at h
    obtain ⟨hp1, hp2, hp3, hp4, hp5, hp6⟩ := submit_indices_preserves st log2Size [i1, i2]
    rw [hsub] at hp1 hp2 hp3 hp4 hp5 hp6
    dsimp only at hp1 hp2 hp3 hp4 hp5 hp6
    obtain ⟨hsz1, hsz2, hblob, hmono, new, hind, hreplay⟩ := ih _ _ _ h
    dsimp only at hsz1 hsz2 hblob hmono
    have hmonoFull : cacheLe st.indexCache st'.indexCache := by
      refine cacheLe_trans ?_ hmono
      rw [hp2]
      exact cacheLe_cons_of_miss halk
    refine ⟨by rw [hsz1, hp4], by rw [hsz2, hp5], by rw [hblob, hp1], hmonoFull,
      i :: new, by rw [hind]; simp, ?_⟩
    intro st2 root0 acc0 hle
    have hhit : alookup st2.indexCache [i1, i2] = some i := by
      apply hle
      apply hmono
      exact alookup_cons_self _ _ _
    simp only [aggPass, hhit]
    rw [hreplay st2 root0 (acc0 ++ [i]) hle]
    rw [show (acc0 ++ [i]) ++ new = acc0 ++ i :: new from by simp]
  | case3 st log2Size root acc i1 i2 rest halk stm hsub =>
    intro new' root' st' h
    simp only [aggPass, halk, hsub] at h
    cases h
  | case4 t st log2Size root acc hshape =>
    intro new' root' st' h
    rcases t with _ | ⟨a, _ | ⟨b, r⟩⟩
    · simp only [aggPass, Except.ok.injEq, Prod.mk.injEq] at h
      obtain ⟨rfl, rfl, rfl⟩ := h
      refine ⟨rfl, rfl, rfl, cacheLe_refl _, [], by simp, ?_⟩
      intro st2 root0 acc0 _
      simp [aggPass]
    · simp only [aggPass, Except.ok.injEq, Prod.mk.injEq] at h
      obtain ⟨rfl, rfl, rfl⟩ := h
      refine ⟨rfl, rfl, rfl, cacheLe_refl _, [], by simp, ?_⟩
      intro st2 root0 acc0 _
      simp [aggPass]
    · exact absurd rfl (hshape a b r)

/-- Replay property of the aggregation loop: after a successful run, rerunning
the same index list with the same fuel from any state whose index cache
extends the final cache is a pure cache replay that leaves the state untouched
and returns the root argument unchanged. -/
theorem aggLoop_replay :
    ∀ (fuel : Nat) (st : St) (log2Size : Nat) (indices : List Nat) (root : Bytes)
      (rootOut : Bytes) (st' : St),
      aggLoop fuel st log2Size indices root = .ok (rootOut, st') →
      st'.pageLog2Size = st.pageLog2Size ∧ st'.treeLog2Size = st.treeLog2Size ∧
      st'.blobCache = st.blobCache ∧
      cacheLe st.indexCache st'.indexCache ∧
      ∀ (st2 : St) (root0 : Bytes),
        cacheLe st'.indexCache st2.indexCache →
        aggLoop fuel st2 log2Size indices root0 = .ok (root0, st2) := by
  intro fuel
  induction fuel with
  | zero =>
    intro st log2 indices root rootOut st' h
    simp only [aggLoop, Except.ok.injEq, Prod.mk.injEq] at h
    obtain ⟨rfl, rfl⟩ := h
    exact ⟨rfl, rfl, rfl, cacheLe_refl _, fun st2 root0 _ => rfl⟩
  | succ n ih =>
    intro st log2 indices root rootOut st' h
    simp only [aggLoop] at h
    by_cases hlen : indices.length > 1
    · rw [if_pos hlen] at h
      rcases hpass : aggPass st log2 root [] indices with e | res
      · rw [hpass] at h; cases h
      · rcases res with ⟨newI, root2, stA⟩
        rw [hpass] at h
        obtain ⟨hpsz1, hpsz2, hpblob, hpmono, new, hnew, hpreplay⟩ :=
          aggPass_replay st log2 root [] indices _ _ _ hpass
        obtain ⟨hsz1, hsz2, hblob, hmono, hreplay⟩ := ih _ _ _ _ _ _ h
        refine ⟨by rw [hsz1, hpsz1], by rw [hsz2, hpsz2], by rw [hblob, hpblob],
          cacheLe_trans hpmono hmono, ?_⟩
        intro st2 root0 hle
        simp only [aggLoop]
        rw [if_pos hlen]
        rw [hpreplay st2 root0 [] (cacheLe_trans hmono hle)]
        simp only [List.nil_append] at hnew
        rw [← hnew]
        exact hreplay st2 root0 hle
    · rw [if_neg hlen] at h
      simp only [Except.ok.injEq, Prod.mk.injEq] at h
      obtain ⟨rfl, rfl⟩ := h
      refine ⟨rfl, rfl, rfl, cacheLe_refl _, ?_⟩
      intro st2 root0 _
      simp only [aggLoop]
      rw [if_neg hlen]

/-- C2 amended: the root variable of submit_file starts as bytes(32) and is
only reassigned by non-cached steps, so when a file that exactly fills the
tree (2 ^ (treeLog2Size - 3) full 8-byte words) is submitted twice in one
session, the second submission is served entirely from the session caches and
returns the 32 zero bytes unchanged (and an unchanged state), not the content
root returned by the first submission. -/
theorem C2_amended_cached_resubmission_returns_zero_root
    (p t : Nat) (ws : List Bytes) (r1 : Bytes) (st1 : St)
    (hp : 3 ≤ p) (hpt : p ≤ t)
    (hw : ∀ w ∈ ws, w.length = 8)
    (hlen : ws.length = 2 ^ (t - 3))
    (h1 : submit_file (initSt p t) ws = .ok (r1, st1)) :
    submit_file st1 ws = .ok (List.replicate 32 0, st1) := by
  have hinitp : (initSt p t).pageLog2Size = p := rfl
  have hinitt : (initSt p t).treeLog2Size = t := rfl
  simp only [submit_file, hinitp, hinitt] at h1
  rcases hpl : pageLoop (initSt p t) [] [] (List.replicate 32 0) (2 ^ (t - p)) ws
    with e | ⟨d, ind, root, count, stA⟩
  · rw [hpl] at h1; cases h1
  · rw [hpl] at h1
    have hshape := pageLoop_shape ws (initSt p t) [] [] (List.replicate 32 0) (2 ^ (t - p))
      d ind root count stA hpl (by rw [hinitp]; exact hp)
      (by rw [hinitp]; simp only [List.length_nil, Nat.zero_add]
          exact Nat.pos_pow_of_pos (p - 3) (by omega))
    rw [hinitp] at hshape
    obtain ⟨hd, hcount⟩ := hshape
    have hWpos : 0 < 2 ^ (p - 3) := Nat.pos_pow_of_pos _ (by omega)
    have hdvd : 2 ^ (p - 3) ∣ 2 ^ (t - 3) := pow_dvd_pow 2 (by omega)
    have hdnil : d = [] := by
      rw [← List.length_eq_zero, hd]
      simp only [List.length_nil, Nat.zero_add, hlen]
      obtain ⟨c, hc⟩ := hdvd
      rw [hc, Nat.mul_mod_right]
    have hdiv : ws.length / 2 ^ (p - 3) = 2 ^ (t - p) := by
      rw [hlen, Nat.pow_div (by omega) (by norm_num)]
      congr 1
      omega
    have hcount0 : count = 0 := by
      rw [hcount]
      simp only [List.length_nil, Nat.zero_add, hdiv]
      push_cast
      ring
    subst hdnil
    subst hcount0
    simp only [submitTail1, List.length_nil, submitTail2] at h1
    norm_num at h1
    obtain ⟨hpsz1, hpsz2, hpmonoB, new, hindnew, hpreplay⟩ :=
      pageLoop_replay ws (initSt p t) [] [] (List.replicate 32 0) (2 ^ (t - p))
        [] ind root 0 stA hpl
    obtain ⟨hasz1, hasz2, hablob, hamono, hareplay⟩ :=
      aggLoop_replay ind.length stA stA.pageLog2Size ind root r1 st1 h1
    have hst1p : st1.pageLog2Size = p := by rw [hasz1, hpsz1, hinitp]
    have hst1t : st1.treeLog2Size = t := by rw [hasz2, hpsz2, hinitt]
    simp only [submit_file, hst1p, hst1t]
    have hrep2 := hpreplay st1 [] (List.replicate 32 0) (2 ^ (t - p))
      (by rw [hablob]; exact cacheLe_refl _) (by rw [hst1p, hinitp])
    have hX : (2 : Int) ^ (t - p) - ((2 : Int) ^ (t - p) - 0) = 0 := by ring
    rw [hX] at hrep2
    simp only [List.nil_append] at hrep2 hindnew
    rw [hrep2]
    simp only [submitTail1, List.length_nil, submitTail2]
    norm_num
    rw [← hindnew]
    rw [show st1.pageLog2Size = stA.pageLog2Size from hasz1]
    exact hareplay st1 (List.replicate 32 0) (cacheLe_refl _)

mutual

/-- What the recovery engine reconstructs for a root from a ledger history:
either the first event with that root is a data event, whose stored words are
zero-word-padded to its declared size, or it is a history event whose child
indices all resolve (via the first event with each index) to payloads whose
in-order concatenation is the result.  The Nat index bounds the recursion
depth of the derivation. -/
inductive Resolves (logs : List Event) : Nat → Bytes → Blob → Prop where
  | data : ∀ {root : Bytes} {s : Nat} {words : Blob} {i : Nat} {n : Nat},
      logs.find? (fun e => e.root == root) = some (Event.fromData root s words i) →
      Resolves logs n root (words ++ List.replicate (2 ^ (s - 3) - words.length) zeroWord)
  | hist : ∀ {root : Bytes} {s : Nat} {indices : List Nat} {i : Nat} {n : Nat} {P : Blob},
      logs.find? (fun e => e.root == root) = some (Event.fromHistory root s indices i) →
      ResolvesChildren logs n indices P →
      Resolves logs (n + 1) root P

/-- The child indices of a history event, resolved in order: each index is
found (first event with that index), its root resolves, and the payloads are
concatenated. -/
inductive ResolvesChildren (logs : List Event) : Nat → List Nat → Blob → Prop where
  | nil : ∀ {n : Nat}, ResolvesChildren logs n [] []
  | cons : ∀ {j : Nat} {rest : List Nat} {e : Event} {Pj : Blob} {Prest : Blob} {n : Nat},
      logs.find? (fun e2 => e2.index == j) = some e →
      Resolves logs n e.root Pj →
      ResolvesChildren logs n rest Prest →
      ResolvesChildren logs n (j :: rest) (Pj ++ Prest)

end

/-- A root resolves to only one payload (the event search is deterministic). -/
theorem Resolves.deterministic {logs : List Event} :
    ∀ (n : Nat) {m : Nat} {root : Bytes} {P Q : Blob},
      Resolves logs n root P → Resolves logs m root Q → P = Q := by
  intro n
  induction n using Nat.strong_induction_on with
  | _ n ih =>
    intro m root P Q h1 h2
    cases h1 with
    | @data _ s1 w1 i1 n1 hfind1 =>
      cases h2 with
      | @data _ s2 w2 i2 n2 hfind2 =>
        rw [hfind1] at hfind2
        injection hfind2 with he
        injection he with e1 e2 e3 e4
        subst e2
        subst e3
        rfl
      | @hist _ s2 ind2 i2 n2 Q hfind2 hch2 =>
        rw [hfind1] at hfind2
        simp at hfind2
    | @hist _ s1 ind1 i1 n1 P hfind1 hch1 =>
      cases h2 with
      | @data _ s2 w2 i2 n2 hfind2 =>
        rw [hfind1] at hfind2
        simp at hfind2
      | @hist _ s2 ind2 i2 n2 Q hfind2 hch2 =>
        rw [hfind1] at hfind2
        injection hfind2 with he
        injection he with e1 e2 e3 e4
        subst e3
        have haux : ∀ (ind : List Nat) (P Q : Blob) (n2 : Nat),
            ResolvesChildren logs n1 ind P → ResolvesChildren logs n2 ind Q → P = Q := by
          intro ind
          induction ind with
          | nil =>
            intro P Q n2 hc1 hc2
            cases hc1
            cases hc2
            rfl
          | cons j rest ihr =>
            intro P Q n2 hc1 hc2
            cases hc1 with
            | cons hfe1 hres1 hrest1 =>
              cases hc2 with
              | cons hfe2 hres2 hrest2 =>
                rw [hfe1] at hfe2
                injection hfe2 with he2
                subst he2
                rw [ih n1 (by omega) hres1 hres2, ihr _ _ _ hrest1 hrest2]
        exact haux ind1 P Q n2 hch1 hch2

/-- Derivation depth can always be raised. -/
theorem resolves_mono_depth_pair {logs : List Event} :
    ∀ (n : Nat),
      (∀ {root : Bytes} {P : Blob}, Resolves logs n root P → Resolves logs (n + 1) root P) ∧
      (∀ (ind : List Nat) (P : Blob), ResolvesChildren logs n ind P →
        ResolvesChildren logs (n + 1) ind P) := by
  intro n
  induction n using Nat.strong_induction_on with
  | _ n ih =>
    have hA : ∀ {root : Bytes} {P : Blob}, Resolves logs n root P →
        Resolves logs (n + 1) root P := by
      intro root P h
      cases h with
      | @data _ s1 w1 i1 n1 hfind => exact Resolves.data hfind
      | @hist _ s1 ind1 i1 n1 P hfind hch =>
        exact Resolves.hist hfind ((ih n1 (by omega)).2 _ _ hch)
    refine ⟨hA, ?_⟩
    intro ind
    induction ind with
    | nil =>
      intro P h
      cases h
      exact ResolvesChildren.nil
    | cons j rest ihrest =>
      intro P h
      cases h with
      | cons hfe hres hrest =>
        exact ResolvesChildren.cons hfe (hA hres) (ihrest _ hrest)

theorem Resolves.mono_depth {logs : List Event} (n : Nat) {root : Bytes} {P : Blob}
    (h : Resolves logs n root P) : Resolves logs (n + 1) root P :=
  (resolves_mono_depth_pair n).1 h

theorem Resolves.le_depth {logs : List Event} {n m : Nat} {root : Bytes} {P : Blob}
    (hnm : n ≤ m) (h : Resolves logs n root P) : Resolves logs m root P := by
  induction m with
  | zero => exact (Nat.le_zero.mp hnm) ▸ h
  | succ k ihk =>
    rcases Nat.lt_or_ge n (k + 1) with hlt | hge
    · exact Resolves.mono_depth k (ihk (by omega))
    · have hh : n = k + 1 := by omega
      exact hh ▸ h

/-- Fields of the session/ledger state that recovery never modifies (it only
writes the download cache). -/
def recPreserves (st st' : St) : Prop :=
  st'.logs = st.logs ∧ st'.pageLog2Size = st.pageLog2Size ∧
  st'.treeLog2Size = st.treeLog2Size ∧ st'.blobCache = st.blobCache ∧
  st'.indexCache = st.indexCache ∧ st'.nextIndex = st.nextIndex ∧
  st'.rejects = st.rejects ∧ st'.mutCount = st.mutCount

theorem recPreserves_refl (st : St) : recPreserves st st :=
  ⟨rfl, rfl, rfl, rfl, rfl, rfl, rfl, rfl⟩

theorem recPreserves_trans {a b c : St} (h1 : recPreserves a b) (h2 : recPreserves b c) :
    recPreserves a c := by
  obtain ⟨x1, x2, x3, x4, x5, x6, x7, x8⟩ := h1
  obtain ⟨y1, y2, y3, y4, y5, y6, y7, y8⟩ := h2
  exact ⟨y1.trans x1, y2.trans x2, y3.trans x3, y4.trans x4, y5.trans x5, y6.trans x6,
    y7.trans x7, y8.trans x8⟩

/-- Every download-cache entry resolves against the ledger history. -/
def CacheInvP (logs : List Event) (cache : List (Bytes × Blob)) : Prop :=
  ∀ r d, alookup cache r = some d → ∃ m, Resolves logs m r d

/-- Correctness of the recovery engine: with enough fuel, a root whose payload
resolves at depth n is recovered exactly (success, that payload), recovery
touches nothing but the download cache, and the cache invariant is
preserved. -/
theorem recover_correct_main :
    ∀ (n : Nat),
      (∀ (fuel : Nat) (st : St) (root : Bytes) (P : Blob),
        Resolves st.logs n root P → n < fuel → CacheInvP st.logs st.downloadCache →
        ∃ st', recover_data_from_root fuel st root = some ((true, P), st') ∧
          recPreserves st st' ∧ CacheInvP st.logs st'.downloadCache) ∧
      (∀ (fuel : Nat) (logs : List Event) (inds : List Nat) (P2 : Blob) (acc : Blob) (stC : St),
        stC.logs = logs → ResolvesChildren logs n inds P2 → n < fuel →
        CacheInvP logs stC.downloadCache →
        ∃ stD, List.foldl (recoverFoldWith (recover_data_from_root fuel)) (some (acc, stC)) inds
            = some (acc ++ P2, stD) ∧
          recPreserves stC stD ∧ CacheInvP logs stD.downloadCache) := by
  intro n
  induction n using Nat.strong_induction_on with
  | _ n ih =>
    have hA : ∀ (fuel : Nat) (st : St) (root : Bytes) (P : Blob),
        Resolves st.logs n root P → n < fuel → CacheInvP st.logs st.downloadCache →
        ∃ st', recover_data_from_root fuel st root = some ((true, P), st') ∧
          recPreserves st st' ∧ CacheInvP st.logs st'.downloadCache := by
      intro fuel st root P hres hfuel hinv
      cases fuel with
      | zero => omega
      | succ f =>
        simp only [recover_data_from_root]
        cases hcache : alookup st.downloadCache root with
        | some d =>
          obtain ⟨m, hm⟩ := hinv _ _ hcache
          have hdP : d = P := Resolves.deterministic m hm hres
          subst hdP
          exact ⟨st, rfl, recPreserves_refl st, hinv⟩
        | none =>
          cases hres with
          | @data _ s1 w1 i1 n1 hfind =>
            simp only [searchLogsRoot, hfind]
            exact ⟨st, rfl, recPreserves_refl st, hinv⟩
          | @hist _ s1 ind1 i1 n1 P hfind hch =>
            simp only [searchLogsRoot, hfind]
            obtain ⟨stD, hfold, hpres, hinv2⟩ :=
              (ih n1 (by omega)).2 f st.logs ind1 P [] st rfl hch (by omega) hinv
            rw [hfold]
            refine ⟨{ stD with downloadCache := (root, P) :: stD.downloadCache },
              by rw [List.nil_append], ?_, ?_⟩
            · obtain ⟨x1, x2, x3, x4, x5, x6, x7, x8⟩ := hpres
              exact ⟨x1, x2, x3, x4, x5, x6, x7, x8⟩
            · intro r d hrd
              simp only [alookup] at hrd
              by_cases hr : r = root
              · rw [if_pos hr] at hrd
                injection hrd with hd
                subst hd
                subst hr
                exact ⟨n1 + 1, Resolves.hist hfind hch⟩
              · rw [if_neg hr] at hrd
                exact hinv2 r d hrd
    refine ⟨hA, ?_⟩
    intro fuel logs inds
    induction inds with
    | nil =>
      intro P2 acc stC hlogs hch hfuel hinv
      cases hch
      exact ⟨stC, by simp, recPreserves_refl stC, hinv⟩
    | cons j rest ihr =>
      intro P2 acc stC hlogs hch hfuel hinv
      cases hch with
      | @cons _ _ e Pj Prest _ hfe hres hrest =>
        simp only [List.foldl_cons]
        have hstep : recoverFoldWith (recover_data_from_root fuel) (some (acc, stC)) j =
            match recover_data_from_root fuel stC e.root with
            | none => none
            | some ((_, di), st3) => some (acc ++ di, st3) := by
          simp only [recoverFoldWith, searchLogsIndex, hlogs, hfe]
          try rfl
        obtain ⟨st', hrec, hpres, hinv2⟩ := hA fuel stC e.root Pj
          (by rw [hlogs]; exact hres) hfuel (by rw [hlogs]; exact hinv)
        rw [hstep, hrec]
        have hlogs2 : st'.logs = logs := by rw [hpres.1, hlogs]
        obtain ⟨stD, hfold, hpres2, hinv3⟩ := ihr Prest (acc ++ Pj) st' hlogs2 hrest hfuel
          (by rw [hlogs] at hinv2; exact hinv2)
        refine ⟨stD, ?_, recPreserves_trans hpres hpres2, hinv3⟩
        rw [hfold]
        rw [List.append_assoc]

/-- The Merkle root of a payload (an ordered list of 8-byte words) under the
ledger's fixed hashing rule: keccak-256 of each word, combined pairwise. -/
def rootOfPayload (P : Blob) : Bytes := calculate_root_from_hashes (P.map keccak256)

/-- The padded page payload a raw page (list of at most page-size raw chunks)
denotes: each word zero-byte-padded to 8 bytes, then zero words appended up to
the page word count. -/
def padSlot (p : Nat) (raw : Blob) : Blob :=
  raw.map pad8zero ++ List.replicate (2 ^ (p - 3) - raw.length) zeroWord

/-- The local page root submit_data_to_logger computes before consulting the
ledger (0x30-padded words). -/
def localRootOf (p : Nat) (raw : Blob) : Bytes :=
  calculate_root_from_hashes (localPageHashes p raw)

/-- How the page loop splits a chunk stream into completed raw pages and a
word remainder (W words per page). -/
def pageSplit (W : Nat) : Blob → List Bytes → List Blob × Blob
  | data, [] => ([], data)
  | data, b :: rest =>
    if data.length + 1 = W then
      ((data ++ [b]) :: (pageSplit W [] rest).1, (pageSplit W [] rest).2)
    else pageSplit W (data ++ [b]) rest

/-- The raw pages submit_file submits for a chunk stream: the completed pages,
then the nonempty word remainder as a short page. -/
def rawSlots (W : Nat) (chunks : List Bytes) : List Blob :=
  (pageSplit W [] chunks).1 ++
    (if (pageSplit W [] chunks).2 = [] then [] else [(pageSplit W [] chunks).2])

/-- Pairwise concatenation: the payloads of one aggregation level combined
into the next level's payloads. -/
def pairConcat : List Blob → List Blob
  | a :: b :: rest => (a ++ b) :: pairConcat rest
  | _ => []

/-- The payload levels of the tree, bottom up. -/
def treeLevels : Nat → List Blob → List (List Blob)
  | 0, l => [l]
  | k + 1, l => l :: treeLevels k (pairConcat l)

/-- The level-0 page payloads of a file: the submitted raw pages padded, then
all-zero pages up to the tree capacity. -/
def levelZero (p t : Nat) (chunks : List Bytes) : List Blob :=
  (rawSlots (2 ^ (p - 3)) chunks).map (padSlot p) ++
    List.replicate (2 ^ (t - p) - (rawSlots (2 ^ (p - 3)) chunks).length) (padSlot p [zeroWord])

/-- Every node payload of the file's Merkle tree, all levels. -/
def allNodes (p t : Nat) (chunks : List Bytes) : List Blob :=
  (treeLevels (t - p) (levelZero p t chunks)).flatten

/-- Distinct node payloads have distinct roots: the collision-freeness
hypothesis of the round-trip theorem (keccak-256 collisions cannot be
disproved, only assumed absent for the concrete payloads involved). -/
def RootInjOn (l : List Blob) : Prop :=
  ∀ P1 ∈ l, ∀ P2 ∈ l, rootOfPayload P1 = rootOfPayload P2 → P1 = P2

/-- The 0x30-padded local root of each submitted raw page either agrees with
the true (zero-padded) root of its page payload, or collides with no node
root: the second collision-freeness hypothesis. -/
def LocalOk (p t : Nat) (chunks : List Bytes) : Prop :=
  ∀ pg ∈ rawSlots (2 ^ (p - 3)) chunks,
    localRootOf p pg = rootOfPayload (padSlot p pg) ∨
    ∀ P ∈ allNodes p t chunks, rootOfPayload P ≠ localRootOf p pg

theorem find?_append_some {α : Type} {p : α → Bool} {l1 l2 : List α} {a : α}
    (h : l1.find? p = some a) : (l1 ++ l2).find? p = some a := by
  induction l1 with
  | nil => cases h
  | cons x rest ih =>
    simp only [List.find?] at h ⊢
    cases hp : p x with
    | true => rw [hp] at h; simpa [hp] using h
    | false => rw [hp] at h; simpa [hp] using ih h

theorem find?_append_none {α : Type} {p : α → Bool} {l1 l2 : List α}
    (h : l1.find? p = none) : (l1 ++ l2).find? p = l2.find? p := by
  induction l1 with
  | nil => rfl
  | cons x rest ih =>
    simp only [List.find?] at h ⊢
    cases hp : p x with
    | true => rw [hp] at h; cases h
    | false => rw [hp] at h; simpa [hp] using ih h

/-- Resolution derivations are stable under appending events to the history
(the first match of an existing search cannot change). -/
theorem resolves_append_pair {logs ext : List Event} :
    ∀ (n : Nat),
      (∀ {root : Bytes} {P : Blob}, Resolves logs n root P → Resolves (logs ++ ext) n root P) ∧
      (∀ (ind : List Nat) (P : Blob), ResolvesChildren logs n ind P →
        ResolvesChildren (logs ++ ext) n ind P) := by
  intro n
  induction n using Nat.strong_induction_on with
  | _ n ih =>
    have hA : ∀ {root : Bytes} {P : Blob}, Resolves logs n root P →
        Resolves (logs ++ ext) n root P := by
      intro root P h
      cases h with
      | @data _ s1 w1 i1 n1 hfind => exact Resolves.data (find?_append_some hfind)
      | @hist _ s1 ind1 i1 n1 P hfind hch =>
        exact Resolves.hist (find?_append_some hfind) ((ih n1 (by omega)).2 _ _ hch)
    refine ⟨hA, ?_⟩
    intro ind
    induction ind with
    | nil =>
      intro P h
      cases h
      exact ResolvesChildren.nil
    | cons j rest ihrest =>
      intro P h
      cases h with
      | cons hfe hres hrest =>
        exact ResolvesChildren.cons (find?_append_some hfe) (hA hres) (ihrest _ hrest)

theorem Resolves.append {logs ext : List Event} {n : Nat} {root : Bytes} {P : Blob}
    (h : Resolves logs n root P) : Resolves (logs ++ ext) n root P :=
  (resolves_append_pair n).1 h

/-- In a history with pairwise-distinct indices, the search by the index of a
member finds that member. -/
theorem find?_index_of_mem {logs : List Event} {e : Event}
    (hdist : List.Pairwise (fun e1 e2 => e1.index ≠ e2.index) logs) (hmem : e ∈ logs) :
    logs.find? (fun e2 => e2.index == e.index) = some e := by
  induction logs with
  | nil => cases hmem
  | cons x rest ih =>
    cases hmem with
    | head => simp [List.find?]
    | tail _ hmem2 =>
      have hx : x.index ≠ e.index := (List.pairwise_cons.mp hdist).1 e hmem2
      simp only [List.find?]
      rw [show (x.index == e.index) = false from beq_eq_false_iff_ne.mpr hx]
      exact ih (List.pairwise_cons.mp hdist).2 hmem2

/-- In a history with pairwise-distinct roots, the search by the root of a
member finds that member. -/
theorem find?_root_of_mem {logs : List Event} {e : Event}
    (hdist : List.Pairwise (fun e1 e2 => e1.root ≠ e2.root) logs) (hmem : e ∈ logs) :
    logs.find? (fun e2 => e2.root == e.root) = some e := by
  induction logs with
  | nil => cases hmem
  | cons x rest ih =>
    cases hmem with
    | head => simp [List.find?]
    | tail _ hmem2 =>
      have hx : x.root ≠ e.root := (List.pairwise_cons.mp hdist).1 e hmem2
      simp only [List.find?]
      rw [show (x.root == e.root) = false from beq_eq_false_iff_ne.mpr hx]
      exact ih (List.pairwise_cons.mp hdist).2 hmem2

/-- The while-loop of calculate_root_from_hashes makes one pass and repeats. -/
theorem calcRoot_step {l : Blob} (h : 1 < l.length) :
    calculate_root_from_hashes l = calculate_root_from_hashes (pairPass l) := by
  unfold calculate_root_from_hashes
  have haux : ∀ (n : Nat) (l2 : Blob), 1 < l2.length →
      calcRootAux (n + 1) l2 = calcRootAux n (pairPass l2) := by
    intro n l2 hh
    simp only [calcRootAux]
    rw [if_pos hh]
  cases hl : l.length with
  | zero => omega
  | succ n =>
    rw [haux n l (by omega)]
    exact congrArg (fun z => z.headD ([] : Bytes))
      (calcRootAux_congr n (pairPass l).length (pairPass l)
        (by rw [pairPass_length]; omega) (by omega))

theorem calcRoot_singleton (x : Bytes) : calculate_root_from_hashes [x] = x := rfl

theorem pairPass_append {l1 l2 : Blob} (h : l1.length % 2 = 0) :
    pairPass (l1 ++ l2) = pairPass l1 ++ pairPass l2 := by
  induction l1 using pairPass.induct with
  | case1 a b rest ih =>
    simp only [List.cons_append, pairPass, List.append_eq]
    rw [ih (by simp at h; omega)]
  | case2 l hshape =>
    cases l with
    | nil => simp [pairPass]
    | cons a rest =>
      cases rest with
      | nil => simp at h
      | cons b r => exact absurd rfl (hshape a b r)

/-- Splitting the root of two exactly-half hash lists: the iterative pairwise
pass computes the binary-Merkle combination. -/
theorem calcRoot_split :
    ∀ (a : Nat) (h1 h2 : List Bytes), h1.length = 2 ^ a → h2.length = 2 ^ a →
      calculate_root_from_hashes (h1 ++ h2) =
        keccak256 (calculate_root_from_hashes h1 ++ calculate_root_from_hashes h2) := by
  intro a
  induction a with
  | zero =>
    intro h1 h2 hl1 hl2
    rcases h1 with _ | ⟨x, _ | ⟨y, r⟩⟩ <;> simp at hl1
    rcases h2 with _ | ⟨y, _ | ⟨z, r⟩⟩ <;> simp at hl2
    · rfl
  | succ k ih =>
    intro h1 h2 hl1 hl2
    have hs1 : 1 < h1.length := by rw [hl1]; exact Nat.one_lt_two_pow (by omega)
    have hs2 : 1 < h2.length := by rw [hl2]; exact Nat.one_lt_two_pow (by omega)
    have hcat : 1 < (h1 ++ h2).length := by simp; omega
    rw [calcRoot_step hcat, pairPass_append (by rw [hl1]; simp [Nat.pow_succ, Nat.mul_mod]),
      calcRoot_step hs1, calcRoot_step hs2]
    exact ih (pairPass h1) (pairPass h2)
      (by rw [pairPass_length, hl1, Nat.pow_succ]; omega)
      (by rw [pairPass_length, hl2, Nat.pow_succ]; omega)

/-- rootOfPayload of two same-size halves. -/
theorem rootOfPayload_append {a : Nat} {P Q : Blob} (hP : P.length = 2 ^ a)
    (hQ : Q.length = 2 ^ a) :
    rootOfPayload (P ++ Q) = keccak256 (rootOfPayload P ++ rootOfPayload Q) := by
  unfold rootOfPayload
  rw [List.map_append]
  exact calcRoot_split a _ _ (by simpa using hP) (by simpa using hQ)

theorem range_map_getD {α β : Type} (d : α) (f : α → β) :
    ∀ (l : List α), (List.range l.length).map (fun x => f (l.getD x d)) = l.map f := by
  intro l
  induction l with
  | nil => rfl
  | cons a rest ih =>
    simp only [List.length_cons, List.range_succ_eq_map, List.map_cons, List.map_map]
    refine congrArg (fun z => f a :: z) ?_
    rw [← ih]
    rfl

/-- The local page hashes are the keccak-256 hashes of the locally padded
words: the padded page, each word 0x30-padded to 8 bytes. -/
theorem localPageHashes_eq (p : Nat) (raw : Blob) (hlen : raw.length ≤ 2 ^ p / 8) :
    localPageHashes p raw =
      ((raw ++ List.replicate (2 ^ p / 8 - raw.length) zeroWord).map localWordPad).map
        keccak256 := by
  unfold localPageHashes
  have hl : (raw ++ List.replicate (2 ^ p / 8 - raw.length) zeroWord).length = 2 ^ p / 8 := by
    simp
    omega
  have := range_map_getD ([] : Bytes) (fun w => keccak256 (localWordPad w))
    (raw ++ List.replicate (2 ^ p / 8 - raw.length) zeroWord)
  rw [hl] at this
  rw [this]
  simp [List.map_map]

theorem localWordPad_full {w : Bytes} (h : w.length = 8) : localWordPad w = w := by
  unfold localWordPad
  rw [h]
  simp

theorem pad8zero_full {w : Bytes} (h : w.length = 8) : pad8zero w = w := by
  unfold pad8zero
  rw [h]
  simp

theorem zeroWord_length : zeroWord.length = 8 := by simp [zeroWord]

/-- For a raw page whose words are all full (8 bytes), the locally computed
root agrees with the true root of its padded payload. -/
theorem localRootOf_full (p : Nat) (raw : Blob) (hp : 3 ≤ p)
    (hlen : raw.length ≤ 2 ^ (p - 3)) (hw : ∀ w ∈ raw, w.length = 8) :
    localRootOf p raw = rootOfPayload (padSlot p raw) := by
  have hdiv : 2 ^ p / 8 = 2 ^ (p - 3) := by
    have he : p - 3 + 3 = p := by omega
    calc 2 ^ p / 8 = 2 ^ (p - 3 + 3) / 8 := by rw [he]
      _ = 2 ^ (p - 3) * 2 ^ 3 / 8 := by rw [pow_add]
      _ = 2 ^ (p - 3) := by omega
  unfold localRootOf rootOfPayload
  rw [localPageHashes_eq p raw (by omega)]
  refine congrArg _ ?_
  rw [hdiv]
  unfold padSlot
  rw [List.map_append, List.map_replicate, localWordPad_full zeroWord_length]
  refine congrArg (fun z => List.map keccak256 (z ++ List.replicate (2 ^ (p - 3) - raw.length) zeroWord)) ?_
  exact List.map_congr_left
    (fun w hw2 => by rw [localWordPad_full (hw w hw2), pad8zero_full (hw w hw2)])

theorem padSlot_length {p : Nat} {raw : Blob} (h : raw.length ≤ 2 ^ (p - 3)) :
    (padSlot p raw).length = 2 ^ (p - 3) := by
  simp [padSlot]
  omega

theorem padSlot_words {p : Nat} {raw : Blob} (hw : ∀ w ∈ raw, w.length ≤ 8) :
    ∀ w ∈ padSlot p raw, w.length = 8 := by
  intro w hmem
  rcases List.mem_append.mp hmem with hm | hm
  · obtain ⟨w0, hw0, rfl⟩ := List.mem_map.mp hm
    simp [pad8zero]
    have := hw w0 hw0
    omega
  · rw [List.eq_of_mem_replicate hm]
    exact zeroWord_length

/-- Association of a ledger event with a node payload: its root is the
payload's Merkle root, the payload resolves from the history, and the
derivation depth is logarithmic in the payload's size (W words per page). -/
def EventOkAt (nodes : List Blob) (W : Nat) (logs : List Event) (e : Event) : Prop :=
  ∃ P n, P ∈ nodes ∧ e.root = rootOfPayload P ∧ Resolves logs n (rootOfPayload P) P ∧
    0 < n ∧ 2 ^ (n - 1) * W ≤ P.length

/-- The run invariant on the ledger state: rejection off, indices fresh and
pairwise distinct, roots pairwise distinct (the model ledger deduplicates by
root), and every event associated with a node payload. -/
def LedgerInv (nodes : List Blob) (W : Nat) (st : St) : Prop :=
  st.rejects = false ∧
  (∀ e ∈ st.logs, e.index < st.nextIndex) ∧
  List.Pairwise (fun e1 e2 => e1.index ≠ e2.index) st.logs ∧
  List.Pairwise (fun e1 e2 => e1.root ≠ e2.root) st.logs ∧
  (∀ e ∈ st.logs, EventOkAt nodes W st.logs e)

/-- Association of a ledger index with a node payload, as the recovery engine
will look it up: the first event with that index carries the payload root,
and the payload resolves at logarithmic depth. -/
def AssocIdx (W : Nat) (st : St) (i : Nat) (P : Blob) : Prop :=
  ∃ e n, st.logs.find? (fun e2 => e2.index == i) = some e ∧ e.root = rootOfPayload P ∧
    Resolves st.logs n (rootOfPayload P) P ∧ 0 < n ∧ 2 ^ (n - 1) * W ≤ P.length

theorem AssocIdx_extend {W : Nat} {st st' : St} {i : Nat} {P : Blob}
    (h : AssocIdx W st i P) (hext : ∃ ext, st'.logs = st.logs ++ ext) :
    AssocIdx W st' i P := by
  obtain ⟨e, n, hfind, hroot, hres, hn, hlen⟩ := h
  obtain ⟨ext, hlogs⟩ := hext
  exact ⟨e, n, by rw [hlogs]; exact find?_append_some hfind, hroot,
    by rw [hlogs]; exact hres.append, hn, hlen⟩

/-- Extending the history with a fresh event (fresh index, fresh root)
preserves the ledger invariant. -/
theorem ledgerInv_extend {nodes : List Blob} {W : Nat} {st : St} {e : Event}
    (hinv : LedgerInv nodes W st)
    (hidx : e.index = st.nextIndex)
    (hfresh : searchLogsRoot st e.root = none)
    (hok : EventOkAt nodes W (st.logs ++ [e]) e) :
    LedgerInv nodes W
      { st with logs := st.logs ++ [e], nextIndex := st.nextIndex + 1 } := by
  obtain ⟨hrej, hbound, hpi, hpr, hev⟩ := hinv
  have hfresh2 : ∀ x ∈ st.logs, x.root ≠ e.root := by
    intro x hx
    unfold searchLogsRoot at hfresh
    have := List.find?_eq_none.mp hfresh x hx
    simpa using this
  refine ⟨hrej, ?_, ?_, ?_, ?_⟩
  · intro e2 he2
    rcases List.mem_append.mp he2 with hm | hm
    · exact Nat.lt_succ_of_lt (hbound e2 hm)
    · rw [List.mem_singleton.mp hm, hidx]
      exact Nat.lt_succ_self _
  · rw [List.pairwise_append]
    refine ⟨hpi, List.pairwise_singleton _ _, ?_⟩
    intro a ha b hb
    rw [List.mem_singleton.mp hb, hidx]
    exact Nat.ne_of_lt (hbound a ha)
  · rw [List.pairwise_append]
    refine ⟨hpr, List.pairwise_singleton _ _, ?_⟩
    intro a ha b hb
    rw [List.mem_singleton.mp hb]
    exact hfresh2 a ha
  · intro e2 he2
    rcases List.mem_append.mp he2 with hm | hm
    · obtain ⟨P, n, hP, hroot, hres, hn, hlen⟩ := hev e2 hm
      exact ⟨P, n, hP, hroot, hres.append, hn, hlen⟩
    · rw [List.mem_singleton.mp hm]
      exact hok

theorem pow_div_eight {p : Nat} (hp : 3 ≤ p) : 2 ^ p / 8 = 2 ^ (p - 3) := by
  have he : p - 3 + 3 = p := by omega
  calc 2 ^ p / 8 = 2 ^ (p - 3 + 3) / 8 := by rw [he]
    _ = 2 ^ (p - 3) * 2 ^ 3 / 8 := by rw [pow_add]
    _ = 2 ^ (p - 3) := by omega

/-- The root the model contract computes for a data submission is the Merkle
root of the padded page payload. -/
theorem ledgerDataRoot_eq {p : Nat} (raw : Blob) (hp : 3 ≤ p) :
    calculate_root_from_hashes
        ((raw.map pad8zero ++
          List.replicate (2 ^ p / 8 - (raw.map pad8zero).length) zeroWord).map keccak256) =
      rootOfPayload (padSlot p raw) := by
  unfold rootOfPayload padSlot
  rw [List.length_map, pow_div_eight hp]

/-- Page-submission correctness: under the run invariant and the
collision-freeness hypotheses, submit_data_to_logger returns the true Merkle
root of the padded page payload together with a ledger index associated to
that payload, extending the history monotonically and preserving the
invariant. -/
theorem submit_data_assoc (nodes : List Blob) (st : St) (raw : Blob)
    (hp : 3 ≤ st.pageLog2Size)
    (hinv : LedgerInv nodes (2 ^ (st.pageLog2Size - 3)) st)
    (hinj : RootInjOn nodes)
    (hslot : padSlot st.pageLog2Size raw ∈ nodes)
    (hlen : raw.length ≤ 2 ^ (st.pageLog2Size - 3))
    (hlocal : localRootOf st.pageLog2Size raw = rootOfPayload (padSlot st.pageLog2Size raw) ∨
      ∀ P ∈ nodes, rootOfPayload P ≠ localRootOf st.pageLog2Size raw) :
    ∃ i st', submit_data_to_logger st raw =
        (some (i, rootOfPayload (padSlot st.pageLog2Size raw)), st') ∧
      (∃ ext, st'.logs = st.logs ++ ext) ∧
      LedgerInv nodes (2 ^ (st.pageLog2Size - 3)) st' ∧
      st.nextIndex ≤ st'.nextIndex ∧
      AssocIdx (2 ^ (st.pageLog2Size - 3)) st' i (padSlot st.pageLog2Size raw) := by
  obtain ⟨hrej, hbound, hpi, hpr, hev⟩ := hinv
  unfold localRootOf at hlocal
  have hW : (padSlot st.pageLog2Size raw).length = 2 ^ (st.pageLog2Size - 3) :=
    padSlot_length hlen
  have hmiss : (get_index_from_root st
      (calculate_root_from_hashes (localPageHashes st.pageLog2Size raw)) st.pageLog2Size).1 =
        false →
      ∃ i st', submit_data_to_logger st raw =
          (some (i, rootOfPayload (padSlot st.pageLog2Size raw)), st') ∧
        (∃ ext, st'.logs = st.logs ++ ext) ∧
        LedgerInv nodes (2 ^ (st.pageLog2Size - 3)) st' ∧
        st.nextIndex ≤ st'.nextIndex ∧
        AssocIdx (2 ^ (st.pageLog2Size - 3)) st' i (padSlot st.pageLog2Size raw) := by
    intro hqf
    have hsubmit : submit_data_to_logger st raw =
        (some (ledgerCalculateFromData { st with mutCount := st.mutCount + 1 }
          st.pageLog2Size raw).1,
         (ledgerCalculateFromData { st with mutCount := st.mutCount + 1 }
          st.pageLog2Size raw).2) := by
      simp only [submit_data_to_logger]
      rw [if_neg (by rw [hqf]; simp)]
      rw [if_neg (by simp [hrej])]
    simp only [ledgerCalculateFromData] at hsubmit
    rw [ledgerDataRoot_eq raw hp] at hsubmit
    have hinv1 : LedgerInv nodes (2 ^ (st.pageLog2Size - 3))
        { st with mutCount := st.mutCount + 1 } := ⟨hrej, hbound, hpi, hpr, hev⟩
    rcases hded : searchLogsRoot { st with mutCount := st.mutCount + 1 }
        (rootOfPayload (padSlot st.pageLog2Size raw)) with _ | e2
    · simp only [hded] at hsubmit
      have hfreshroot : st.logs.find?
          (fun x => x.root == rootOfPayload (padSlot st.pageLog2Size raw)) = none := by
        simpa [searchLogsRoot] using hded
      have hfind_ev : (st.logs ++ [Event.fromData
            (rootOfPayload (padSlot st.pageLog2Size raw)) st.pageLog2Size
            (raw.map pad8zero) st.nextIndex]).find?
          (fun x => x.root == rootOfPayload (padSlot st.pageLog2Size raw)) =
          some (Event.fromData (rootOfPayload (padSlot st.pageLog2Size raw)) st.pageLog2Size
            (raw.map pad8zero) st.nextIndex) := by
        rw [find?_append_none hfreshroot]
        simp [List.find?, Event.root]
      have hshape : padSlot st.pageLog2Size raw = raw.map pad8zero ++
          List.replicate (2 ^ (st.pageLog2Size - 3) - (raw.map pad8zero).length) zeroWord := by
        unfold padSlot
        rw [List.length_map]
      have hres_ev : Resolves (st.logs ++ [Event.fromData
            (rootOfPayload (padSlot st.pageLog2Size raw)) st.pageLog2Size
            (raw.map pad8zero) st.nextIndex]) 1
          (rootOfPayload (padSlot st.pageLog2Size raw)) (padSlot st.pageLog2Size raw) := by
        have hd := Resolves.data (n := 1) hfind_ev
        rw [← hshape] at hd
        exact hd
      have hlenB : 2 ^ (1 - 1) * 2 ^ (st.pageLog2Size - 3) ≤
          (padSlot st.pageLog2Size raw).length := by
        rw [hW]; simp
      have hok : EventOkAt nodes (2 ^ (st.pageLog2Size - 3))
          (st.logs ++ [Event.fromData (rootOfPayload (padSlot st.pageLog2Size raw))
            st.pageLog2Size (raw.map pad8zero) st.nextIndex])
          (Event.fromData (rootOfPayload (padSlot st.pageLog2Size raw)) st.pageLog2Size
            (raw.map pad8zero) st.nextIndex) :=
        ⟨padSlot st.pageLog2Size raw, 1, hslot, rfl, hres_ev, Nat.one_pos, hlenB⟩
      have hinv2 := ledgerInv_extend
        (e := Event.fromData (rootOfPayload (padSlot st.pageLog2Size raw)) st.pageLog2Size
          (raw.map pad8zero) st.nextIndex) hinv1 rfl hded hok
      have hfind_idx : (st.logs ++ [Event.fromData
            (rootOfPayload (padSlot st.pageLog2Size raw)) st.pageLog2Size
            (raw.map pad8zero) st.nextIndex]).find?
          (fun e2 => e2.index == st.nextIndex) =
          some (Event.fromData (rootOfPayload (padSlot st.pageLog2Size raw)) st.pageLog2Size
            (raw.map pad8zero) st.nextIndex) := by
        have h1 : st.logs.find? (fun e2 => e2.index == st.nextIndex) = none := by
          rw [List.find?_eq_none]
          intro x hx
          simpa using Nat.ne_of_lt (hbound x hx)
        rw [find?_append_none h1]
        simp [List.find?, Event.index]
      refine ⟨st.nextIndex, _, hsubmit, ⟨[Event.fromData
          (rootOfPayload (padSlot st.pageLog2Size raw)) st.pageLog2Size
          (raw.map pad8zero) st.nextIndex], rfl⟩, hinv2, Nat.le_succ _,
        Event.fromData (rootOfPayload (padSlot st.pageLog2Size raw)) st.pageLog2Size
          (raw.map pad8zero) st.nextIndex, 1, hfind_idx, rfl, hres_ev, Nat.one_pos, hlenB⟩
    · simp only [hded] at hsubmit
      have hfound : st.logs.find?
          (fun x => x.root == rootOfPayload (padSlot st.pageLog2Size raw)) = some e2 := by
        simpa [searchLogsRoot] using hded
      have hmem2 : e2 ∈ st.logs := List.mem_of_find?_eq_some hfound
      have hroot2 : e2.root = rootOfPayload (padSlot st.pageLog2Size raw) := by
        have := List.find?_some hfound
        simpa using this
      obtain ⟨P, n, hPmem, hProot, hres, hn, hlen2⟩ := hev e2 hmem2
      have hPeq : P = padSlot st.pageLog2Size raw := by
        apply hinj P hPmem _ hslot
        rw [← hProot, hroot2]
      subst hPeq
      refine ⟨e2.index, _, hsubmit, ⟨[], by simp⟩, hinv1, Nat.le_refl _,
        e2, n, find?_index_of_mem hpi hmem2, hProot, hres, hn, hlen2⟩
  rcases hq : searchLogsRoot st
      (calculate_root_from_hashes (localPageHashes st.pageLog2Size raw)) with _ | e
  · exact hmiss (by simp [get_index_from_root, isLogAvailable, hq])
  · rcases he : (e.log2Size == st.pageLog2Size) with _ | _
    · exact hmiss (by simp [get_index_from_root, isLogAvailable, hq, he])
    · have hqfind : st.logs.find?
          (fun x => x.root ==
            calculate_root_from_hashes (localPageHashes st.pageLog2Size raw)) = some e := by
        simpa [searchLogsRoot] using hq
      have hmem : e ∈ st.logs := List.mem_of_find?_eq_some hqfind
      have hroote : e.root =
          calculate_root_from_hashes (localPageHashes st.pageLog2Size raw) := by
        have := List.find?_some hqfind
        simpa using this
      obtain ⟨P, n, hPmem, hProot, hres, hn, hlen2⟩ := hev e hmem
      have hPl : rootOfPayload P =
          calculate_root_from_hashes (localPageHashes st.pageLog2Size raw) := by
        rw [← hProot, hroote]
      rcases hlocal with ha | hb
      · have hPeq : P = padSlot st.pageLog2Size raw := by
          apply hinj P hPmem _ hslot
          rw [hPl, ha]
        subst hPeq
        have hsubmit : submit_data_to_logger st raw = (some (e.index,
            calculate_root_from_hashes (localPageHashes st.pageLog2Size raw)), st) := by
          simp [submit_data_to_logger, get_index_from_root, isLogAvailable, getLogIndex, hq, he]
        rw [ha] at hsubmit
        refine ⟨e.index, st, hsubmit, ⟨[], by simp⟩, ⟨hrej, hbound, hpi, hpr, hev⟩,
          Nat.le_refl _, e, n, find?_index_of_mem hpi hmem, hProot, hres, hn, hlen2⟩
      · exact absurd hPl (hb P hPmem)

theorem alookup_mem {α : Type} [DecidableEq α] {c : List (α × Nat)} {k : α} {v : Nat}
    (h : alookup c k = some v) : (k, v) ∈ c := by
  induction c with
  | nil => cases h
  | cons e rest ih =>
    rcases e with ⟨k2, v2⟩
    simp only [alookup] at h
    by_cases he : k = k2
    · rw [if_pos he] at h
      injection h with hv
      subst he
      subst hv
      exact List.mem_cons_self _ _
    · rw [if_neg he] at h
      exact List.mem_cons_of_mem _ (ih h)

theorem calcRoot_pair (a b : Bytes) :
    calculate_root_from_hashes [a, b] = keccak256 (a ++ b) := rfl

theorem pairConcat_length : ∀ {l : List Blob} {n : Nat}, l.length = 2 * n →
    (pairConcat l).length = n := by
  intro l
  induction l using pairConcat.induct with
  | case1 a b rest ih =>
    intro n h
    simp only [List.length_cons] at h
    simp only [pairConcat, List.length_cons]
    have hn : rest.length = 2 * (n - 1) ∧ 1 ≤ n := by omega
    rw [ih hn.1]
    omega
  | case2 l hshape =>
    intro n h
    cases l with
    | nil =>
      simp only [List.length_nil] at h
      simp only [pairConcat, List.length_nil]
      omega
    | cons a rest =>
      cases rest with
      | nil =>
        simp only [List.length_cons, List.length_nil] at h
        omega
      | cons b r => exact absurd rfl (hshape a b r)

theorem pairConcat_mem_length {L : Nat} : ∀ {l : List Blob},
    (∀ P ∈ l, P.length = L) → ∀ Q ∈ pairConcat l, Q.length = 2 * L := by
  intro l
  induction l using pairConcat.induct with
  | case1 a b rest ih =>
    intro hl Q hQ
    simp only [pairConcat] at hQ
    cases hQ with
    | head =>
      simp only [List.length_append]
      rw [hl a (by simp), hl b (by simp)]
      omega
    | tail _ hQ2 =>
      exact ih (fun P hP => hl P (by simp [hP])) Q hQ2
  | case2 l hshape =>
    intro hl Q hQ
    cases l with
    | nil => simp [pairConcat] at hQ
    | cons a rest =>
      cases rest with
      | nil => simp [pairConcat] at hQ
      | cons b r => exact absurd rfl (hshape a b r)

theorem pairConcat_flatten : ∀ {l : List Blob}, l.length % 2 = 0 →
    (pairConcat l).flatten = l.flatten := by
  intro l
  induction l using pairConcat.induct with
  | case1 a b rest ih =>
    intro h
    simp only [List.length_cons] at h
    simp only [pairConcat, List.flatten_cons]
    rw [ih (by omega)]
    simp
  | case2 l hshape =>
    intro h
    cases l with
    | nil => rfl
    | cons a rest =>
      cases rest with
      | nil => simp at h
      | cons b r => exact absurd rfl (hshape a b r)

theorem pairIter_full : ∀ (m : Nat) (l : List Blob), l.length = 2 ^ m →
    pairConcat^[m] l = [l.flatten] := by
  intro m
  induction m with
  | zero =>
    intro l h
    match l, h with
    | [a], _ => simp
  | succ k ih =>
    intro l h
    rw [Function.iterate_succ_apply]
    have h2 : (pairConcat l).length = 2 ^ k := by
      apply pairConcat_length
      rw [h, pow_succ, Nat.mul_comm]
    rw [ih (pairConcat l) h2, pairConcat_flatten]
    rw [h, pow_succ]
    omega

theorem forall₂_replicate {α β : Type} {R : α → β → Prop} {a : α} {b : β} (h : R a b) :
    ∀ (k : Nat), List.Forall₂ R (List.replicate k a) (List.replicate k b) := by
  intro k
  induction k with
  | zero => exact List.Forall₂.nil
  | succ n ih => exact List.Forall₂.cons h ih

/-- Splitting a file into the 8-byte reads of __bytes_from_file (src lines
297-306): full 8-byte words, the last possibly shorter. -/
def chunksOf8 : Bytes → List Bytes
  | [] => []
  | a :: b :: c :: d :: e :: f :: g :: h :: rest => [a, b, c, d, e, f, g, h] :: chunksOf8 rest
  | short => [short]

theorem chunksOf8_flatten : ∀ (F : Bytes), (chunksOf8 F).flatten = F := by
  intro F
  induction F using chunksOf8.induct with
  | case1 => rfl
  | case2 a b c d e f g h rest ih =>
    simp only [chunksOf8, List.flatten_cons, ih]
    rfl
  | case3 short h1 h2 =>
    rw [chunksOf8.eq_3 short h1 h2]
    simp

theorem chunksOf8_short : ∀ (F : Bytes), ∀ c ∈ chunksOf8 F, c.length ≤ 8 := by
  intro F
  induction F using chunksOf8.induct with
  | case1 => intro c hc; cases hc
  | case2 a b c d e f g h rest ih =>
    intro w hw
    simp only [chunksOf8] at hw
    cases hw with
    | head => simp
    | tail _ h2 => exact ih w h2
  | case3 short h1 h2 =>
    rw [chunksOf8.eq_3 short h1 h2]
    intro c hc
    rw [List.mem_singleton.mp hc]
    match short, h1, h2 with
    | [a], _, _ => simp
    | [a, b], _, _ => simp
    | [a, b, c], _, _ => simp
    | [a, b, c, d], _, _ => simp
    | [a, b, c, d, e], _, _ => simp
    | [a, b, c, d, e, f], _, _ => simp
    | [a, b, c, d, e, f, g], _, _ => simp
    | [], h1, _ => exact absurd rfl h1
    | a :: b :: c :: d :: e :: f :: g :: h :: rest, _, h2 =>
      exact absurd rfl (h2 a b c d e f g h rest)

theorem chunksOf8_length : ∀ (F : Bytes), (chunksOf8 F).length = (F.length + 7) / 8 := by
  intro F
  induction F using chunksOf8.induct with
  | case1 => rfl
  | case2 a b c d e f g h rest ih =>
    simp only [chunksOf8, List.length_cons, ih]
    omega
  | case3 short h1 h2 =>
    rw [chunksOf8.eq_3 short h1 h2]
    have hle : short.length ≤ 7 := by
      match short, h1, h2 with
      | [a], _, _ => simp
      | [a, b], _, _ => simp
      | [a, b, c], _, _ => simp
      | [a, b, c, d], _, _ => simp
      | [a, b, c, d, e], _, _ => simp
      | [a, b, c, d, e, f], _, _ => simp
      | [a, b, c, d, e, f, g], _, _ => simp
      | [], h1, _ => exact absurd rfl h1
      | a :: b :: c :: d :: e :: f :: g :: h :: rest, _, h2 =>
        exact absurd rfl (h2 a b c d e f g h rest)
    have hne : short.length ≠ 0 := by
      intro hz
      exact h1 (List.length_eq_zero.mp hz)
    simp only [List.length_cons, List.length_nil]
    omega

/-- The 8-byte reads of a file, each zero-padded to 8 bytes, flatten back to
the file followed by the pad of the final short read. -/
theorem chunksOf8_pad_flatten : ∀ (F : Bytes),
    ((chunksOf8 F).map pad8zero).flatten =
      F ++ List.replicate (8 * (chunksOf8 F).length - F.length) 0 := by
  intro F
  induction F using chunksOf8.induct with
  | case1 => rfl
  | case2 a b c d e f g h rest ih =>
    simp only [chunksOf8, List.map_cons, List.flatten_cons, ih]
    rw [pad8zero_full (by simp)]
    have hlen : 8 * ([a, b, c, d, e, f, g, h] :: chunksOf8 rest).length -
        (a :: b :: c :: d :: e :: f :: g :: h :: rest).length =
        8 * (chunksOf8 rest).length - rest.length := by
      simp only [List.length_cons]
      omega
    rw [hlen]
    simp
  | case3 short h1 h2 =>
    rw [chunksOf8.eq_3 short h1 h2]
    have hle : short.length ≤ 7 := by
      match short, h1, h2 with
      | [a], _, _ => simp
      | [a, b], _, _ => simp
      | [a, b, c], _, _ => simp
      | [a, b, c, d], _, _ => simp
      | [a, b, c, d, e], _, _ => simp
      | [a, b, c, d, e, f], _, _ => simp
      | [a, b, c, d, e, f, g], _, _ => simp
      | [], h1, _ => exact absurd rfl h1
      | a :: b :: c :: d :: e :: f :: g :: h :: rest, _, h2 =>
        exact absurd rfl (h2 a b c d e f g h rest)
    simp only [List.map_cons, List.map_nil, List.flatten_cons, List.flatten_nil,
      List.append_nil, pad8zero, List.length_cons, List.length_nil]

theorem pageSplit_flatten {W : Nat} : ∀ (chs : List Bytes) (data : Blob),
    (pageSplit W data chs).1.flatten ++ (pageSplit W data chs).2 = data ++ chs := by
  intro chs
  induction chs with
  | nil => intro data; simp [pageSplit]
  | cons b rest ih =>
    intro data
    simp only [pageSplit]
    by_cases hfull : data.length + 1 = W
    · rw [if_pos hfull]
      simp only [List.flatten_cons, List.append_assoc]
      rw [ih []]
      simp
    · rw [if_neg hfull]
      rw [ih (data ++ [b])]
      simp

theorem pageSplit_full {W : Nat} : ∀ (chs : List Bytes) (data : Blob),
    data.length < W → ∀ pg ∈ (pageSplit W data chs).1, pg.length = W := by
  intro chs
  induction chs with
  | nil => intro data _ pg hpg; simp [pageSplit] at hpg
  | cons b rest ih =>
    intro data hd pg hpg
    simp only [pageSplit] at hpg
    by_cases hfull : data.length + 1 = W
    · rw [if_pos hfull] at hpg
      cases hpg with
      | head => simp only [List.length_append, List.length_cons, List.length_nil]; omega
      | tail _ h2 => exact ih [] (by simp; omega) pg h2
    · rw [if_neg hfull] at hpg
      exact ih (data ++ [b]) (by simp; omega) pg hpg

theorem pageSplit_rem {W : Nat} : ∀ (chs : List Bytes) (data : Blob),
    data.length < W → (pageSplit W data chs).2.length < W := by
  intro chs
  induction chs with
  | nil => intro data hd; simpa [pageSplit] using hd
  | cons b rest ih =>
    intro data hd
    simp only [pageSplit]
    by_cases hfull : data.length + 1 = W
    · rw [if_pos hfull]
      exact ih [] (by simp; omega)
    · rw [if_neg hfull]
      exact ih (data ++ [b]) (by simp; omega)

theorem flatten_length_uniform {W : Nat} : ∀ (l : List Blob),
    (∀ s ∈ l, s.length = W) → l.flatten.length = W * l.length := by
  intro l
  induction l with
  | nil => intro _; simp
  | cons s rest ih =>
    intro h
    simp only [List.flatten_cons, List.length_append, List.length_cons]
    rw [h s (by simp), ih (fun x hx => h x (by simp [hx]))]
    ring

theorem pageSplit_count {W : Nat} (hW : 0 < W) (chs : List Bytes) :
    W * (pageSplit W [] chs).1.length + (pageSplit W [] chs).2.length = chs.length := by
  have hA := pageSplit_flatten (W := W) chs []
  have hF := flatten_length_uniform (pageSplit W [] chs).1
    (pageSplit_full chs [] (by simpa using hW))
  have := congrArg List.length hA
  simp only [List.length_append, List.nil_append] at this
  rw [hF] at this
  omega

theorem rawSlots_count_le {W T : Nat} (hW : 0 < W) {chs : List Bytes}
    (hcap : chs.length ≤ W * T) : (rawSlots W chs).length ≤ T := by
  have hc := pageSplit_count hW chs
  have hr := pageSplit_rem (W := W) chs [] (by simpa using hW)
  unfold rawSlots
  by_cases hrem : (pageSplit W [] chs).2 = []
  · rw [if_pos hrem]
    simp only [List.append_nil]
    rw [hrem] at hc
    simp only [List.length_nil, Nat.add_zero] at hc
    have : W * (pageSplit W [] chs).1.length ≤ W * T := by omega
    exact Nat.le_of_mul_le_mul_left this hW
  · rw [if_neg hrem]
    simp only [List.length_append, List.length_cons, List.length_nil]
    have hrlen : 0 < (pageSplit W [] chs).2.length :=
      List.length_pos.mpr hrem
    have hlt : W * (pageSplit W [] chs).1.length < W * T := by omega
    have := Nat.lt_of_mul_lt_mul_left hlt
    omega

theorem padSlot_of_full {p : Nat} {s : Blob} (h : s.length = 2 ^ (p - 3)) :
    padSlot p s = s.map pad8zero := by
  unfold padSlot
  rw [h]
  simp

theorem slots_pad_flatten {p : Nat} : ∀ (slots : List Blob),
    (∀ s ∈ slots, s.length = 2 ^ (p - 3)) →
    (slots.map (padSlot p)).flatten = slots.flatten.map pad8zero := by
  intro slots
  induction slots with
  | nil => intro _; rfl
  | cons s rest ih =>
    intro h
    simp only [List.map_cons, List.flatten_cons, List.map_append]
    rw [padSlot_of_full (h s (by simp)), ih (fun x hx => h x (by simp [hx]))]

theorem padSlot_zeroPage {p : Nat} :
    padSlot p [zeroWord] = List.replicate (2 ^ (p - 3)) zeroWord := by
  unfold padSlot
  have hz : pad8zero zeroWord = zeroWord := pad8zero_full zeroWord_length
  have hpos : 1 ≤ 2 ^ (p - 3) := Nat.one_le_two_pow
  simp only [List.map_cons, List.map_nil, List.length_cons, List.length_nil]
  rw [hz]
  rw [show 2 ^ (p - 3) = 1 + (2 ^ (p - 3) - 1) from by omega, List.replicate_add]
  have hc : 1 + (2 ^ (p - 3) - 1) - (0 + 1) = 2 ^ (p - 3) - 1 := by omega
  rw [hc]
  simp

theorem flatten_replicate_replicate {α : Type} (z : α) (W : Nat) : ∀ (k : Nat),
    (List.replicate k (List.replicate W z)).flatten = List.replicate (k * W) z := by
  intro k
  induction k with
  | zero => simp
  | succ n ih =>
    rw [List.replicate_succ, List.flatten_cons, ih]
    rw [show (n + 1) * W = W + n * W from by ring, List.replicate_add]

/-- The flattened level-zero payload of a chunk stream: every word of the
stream zero-padded to 8 bytes, then zero words up to the tree word count. -/
theorem levelZero_flatten {p t : Nat} (hp : 3 ≤ p) (hpt : p ≤ t) (chs : List Bytes)
    (hcap : chs.length ≤ 2 ^ (p - 3) * 2 ^ (t - p)) :
    (levelZero p t chs).flatten =
      chs.map pad8zero ++ List.replicate (2 ^ (t - 3) - chs.length) zeroWord := by
  have hW : 0 < 2 ^ (p - 3) := Nat.pos_pow_of_pos _ (by omega)
  have hWT : 2 ^ (p - 3) * 2 ^ (t - p) = 2 ^ (t - 3) := by
    rw [← pow_add]
    congr 1
    omega
  have hA := pageSplit_flatten (W := 2 ^ (p - 3)) chs []
  have hfull := pageSplit_full (W := 2 ^ (p - 3)) chs [] (by simp [hW])
  have hrlt := pageSplit_rem (W := 2 ^ (p - 3)) chs [] (by simp [hW])
  have hc := pageSplit_count hW chs
  have hN := rawSlots_count_le hW hcap
  simp only [List.nil_append] at hA
  unfold levelZero
  unfold rawSlots at hN ⊢
  by_cases hrem : (pageSplit (2 ^ (p - 3)) [] chs).2 = []
  · rw [if_pos hrem] at hN ⊢
    simp only [List.append_nil] at hN ⊢
    rw [List.flatten_append, slots_pad_flatten _ hfull]
    rw [show (pageSplit (2 ^ (p - 3)) [] chs).1.flatten = chs from by
      rw [hrem, List.append_nil] at hA; exact hA]
    rw [padSlot_zeroPage, flatten_replicate_replicate]
    congr 2
    rw [hrem] at hc
    simp only [List.length_nil, Nat.add_zero] at hc
    rw [← hWT, ← hc]
    rw [Nat.sub_mul]
    ring_nf
  · rw [if_neg hrem] at hN ⊢
    have hrlen1 : 1 ≤ (pageSplit (2 ^ (p - 3)) [] chs).2.length :=
      List.length_pos.mpr hrem
    simp only [List.length_append, List.length_cons, List.length_nil] at hN
    have hk : ∃ k, 2 ^ (t - p) = (pageSplit (2 ^ (p - 3)) [] chs).1.length + 1 + k := by
      exact ⟨2 ^ (t - p) - ((pageSplit (2 ^ (p - 3)) [] chs).1.length + 1), by omega⟩
    have hZeq : 2 ^ (t - 3) - chs.length =
        (2 ^ (p - 3) - (pageSplit (2 ^ (p - 3)) [] chs).2.length) +
        (2 ^ (t - p) - ((pageSplit (2 ^ (p - 3)) [] chs).1.length + 1)) * 2 ^ (p - 3) := by
      obtain ⟨k, hkk⟩ := hk
      have hm : 2 ^ (p - 3) * 2 ^ (t - p) =
          2 ^ (p - 3) * (pageSplit (2 ^ (p - 3)) [] chs).1.length + 2 ^ (p - 3) +
          2 ^ (p - 3) * k := by
        rw [hkk]
        ring
      have hk2 : 2 ^ (t - p) - ((pageSplit (2 ^ (p - 3)) [] chs).1.length + 1) = k := by
        omega
      rw [hk2, ← hWT]
      have hcm : (pageSplit (2 ^ (p - 3)) [] chs).2.length < 2 ^ (p - 3) := hrlt
      have hmul : k * 2 ^ (p - 3) = 2 ^ (p - 3) * k := by ring
      omega
    have hsplit : chs.map pad8zero =
        (pageSplit (2 ^ (p - 3)) [] chs).1.flatten.map pad8zero ++
        (pageSplit (2 ^ (p - 3)) [] chs).2.map pad8zero := by
      rw [← List.map_append, hA]
    rw [hsplit, hZeq, List.replicate_add]
    rw [List.map_append, List.flatten_append, List.flatten_append,
      slots_pad_flatten _ hfull]
    simp only [List.map_cons, List.map_nil, List.flatten_cons, List.flatten_nil,
      List.append_nil, List.length_append, List.length_cons, List.length_nil]
    rw [padSlot_zeroPage, flatten_replicate_replicate]
    unfold padSlot
    simp only [List.append_assoc]

theorem pad8zero_length {w : Bytes} (h : w.length ≤ 8) : (pad8zero w).length = 8 := by
  simp [pad8zero]
  omega

theorem sum_lengths_uniform {W : Nat} : ∀ (l : List Blob), (∀ w ∈ l, w.length = W) →
    (l.map List.length).sum = W * l.length := by
  intro l
  induction l with
  | nil => intro _; simp
  | cons w rest ih =>
    intro h
    simp only [List.map_cons, List.sum_cons, List.length_cons]
    rw [h w (by simp), ih (fun x hx => h x (by simp [hx]))]
    ring

theorem levelZero_flatten_words {p t : Nat} (hp : 3 ≤ p) (hpt : p ≤ t) (chs : List Bytes)
    (hcap : chs.length ≤ 2 ^ (p - 3) * 2 ^ (t - p))
    (hshort : ∀ c ∈ chs, c.length ≤ 8) :
    ∀ w ∈ (levelZero p t chs).flatten, w.length = 8 := by
  rw [levelZero_flatten hp hpt chs hcap]
  intro w hw
  rcases List.mem_append.mp hw with hm | hm
  · obtain ⟨c, hc, rfl⟩ := List.mem_map.mp hm
    exact pad8zero_length (hshort c hc)
  · rw [List.eq_of_mem_replicate hm]
    exact zeroWord_length

theorem levelZero_flatten_length {p t : Nat} (hp : 3 ≤ p) (hpt : p ≤ t) (chs : List Bytes)
    (hcap : chs.length ≤ 2 ^ (p - 3) * 2 ^ (t - p)) :
    (levelZero p t chs).flatten.length = 2 ^ (t - 3) := by
  rw [levelZero_flatten hp hpt chs hcap]
  have hWT : 2 ^ (p - 3) * 2 ^ (t - p) = 2 ^ (t - 3) := by
    rw [← pow_add]
    congr 1
    omega
  simp only [List.length_append, List.length_map, List.length_replicate]
  omega

theorem levelZero_length {p t : Nat} (chs : List Bytes)
    (hcap : chs.length ≤ 2 ^ (p - 3) * 2 ^ (t - p)) :
    (levelZero p t chs).length = 2 ^ (t - p) := by
  have hW : 0 < 2 ^ (p - 3) := Nat.pos_pow_of_pos _ (by omega)
  have hN := rawSlots_count_le hW hcap
  unfold levelZero
  simp only [List.length_append, List.length_map, List.length_replicate]
  omega

theorem depth_bound_pair {W a n1 n2 : Nat} {L1 L2 : Nat}
    (hb1 : 2 ^ (n1 - 1) * W ≤ L1) (hb2 : 2 ^ (n2 - 1) * W ≤ L2)
    (hn1 : 0 < n1) (hn2 : 0 < n2) (hL1 : L1 = 2 ^ a) (hL2 : L2 = 2 ^ a) :
    2 ^ (max n1 n2 + 1 - 1) * W ≤ L1 + L2 := by
  simp only [Nat.add_sub_cancel]
  rcases Nat.le_total n1 n2 with h | h
  · rw [Nat.max_eq_right h]
    have hs : n2 - 1 + 1 = n2 := by omega
    have h2 : 2 ^ n2 * W = 2 * (2 ^ (n2 - 1) * W) := by
      calc 2 ^ n2 * W = 2 ^ (n2 - 1 + 1) * W := by rw [hs]
        _ = 2 * (2 ^ (n2 - 1) * W) := by rw [pow_succ]; ring
    rw [h2]
    omega
  · rw [Nat.max_eq_left h]
    have hs : n1 - 1 + 1 = n1 := by omega
    have h2 : 2 ^ n1 * W = 2 * (2 ^ (n1 - 1) * W) := by
      calc 2 ^ n1 * W = 2 ^ (n1 - 1 + 1) * W := by rw [hs]
        _ = 2 * (2 ^ (n1 - 1) * W) := by rw [pow_succ]; ring
    rw [h2]
    omega

theorem getLogRoot_of_assoc {W : Nat} {st : St} {i : Nat} {Q : Blob}
    (h : AssocIdx W st i Q) : getLogRoot st i = some (rootOfPayload Q) := by
  obtain ⟨e, n, hfind, hroot, _, _, _⟩ := h
  unfold getLogRoot searchLogsIndex
  rw [hfind]
  simp [hroot]

/-- Aggregation-step correctness: submitting a pair of associated indices
returns the true Merkle root of the concatenated payloads and an index
associated to that concatenation, extending the history monotonically and
preserving the invariant. -/
theorem submit_indices_assoc (nodes : List Blob) (W : Nat) (st : St) (lg : Nat)
    (i1 i2 : Nat) (Q1 Q2 : Blob) (a : Nat)
    (hinv : LedgerInv nodes W st)
    (hinj : RootInjOn nodes)
    (hQ1 : Q1 ∈ nodes) (hQ2 : Q2 ∈ nodes) (hQQ : Q1 ++ Q2 ∈ nodes)
    (hA1 : AssocIdx W st i1 Q1) (hA2 : AssocIdx W st i2 Q2)
    (hL1 : Q1.length = 2 ^ a) (hL2 : Q2.length = 2 ^ a) :
    ∃ j st', submit_indices_to_logger st lg [i1, i2] =
        (some (j, rootOfPayload (Q1 ++ Q2)), st') ∧
      (∃ ext, st'.logs = st.logs ++ ext) ∧
      LedgerInv nodes W st' ∧
      st.nextIndex ≤ st'.nextIndex ∧
      AssocIdx W st' j (Q1 ++ Q2) := by
  obtain ⟨hrej, hbound, hpi, hpr, hev⟩ := hinv
  have hg1 : getLogRoot st i1 = some (rootOfPayload Q1) := getLogRoot_of_assoc hA1
  have hg2 : getLogRoot st i2 = some (rootOfPayload Q2) := getLogRoot_of_assoc hA2
  have hroot : calculate_root_from_hashes [rootOfPayload Q1, rootOfPayload Q2] =
      rootOfPayload (Q1 ++ Q2) := by
    rw [calcRoot_pair, rootOfPayload_append hL1 hL2]
  have hallSome : allSome ([i1, i2].map (getLogRoot st)) =
      some [rootOfPayload Q1, rootOfPayload Q2] := by
    simp [allSome, hg1, hg2]
  obtain ⟨e1, n1, hfind1, hroot1, hres1, hn1, hlen1⟩ := hA1
  obtain ⟨e2, n2, hfind2, hroot2, hres2, hn2, hlen2⟩ := hA2
  have hmiss : (get_index_from_root st (rootOfPayload (Q1 ++ Q2))
        (lg + Nat.log2 [i1, i2].length)).1 = false →
      ∃ j st', submit_indices_to_logger st lg [i1, i2] =
          (some (j, rootOfPayload (Q1 ++ Q2)), st') ∧
        (∃ ext, st'.logs = st.logs ++ ext) ∧
        LedgerInv nodes W st' ∧
        st.nextIndex ≤ st'.nextIndex ∧
        AssocIdx W st' j (Q1 ++ Q2) := by
    intro hqf
    have hsubmit : submit_indices_to_logger st lg [i1, i2] =
        (match ledgerCalculateFromHistory { st with mutCount := st.mutCount + 1 }
          lg [i1, i2] with
        | none => (none, { st with mutCount := st.mutCount + 1 })
        | some r => (some r.1, r.2)) := by
      simp only [submit_indices_to_logger, hallSome, hroot]
      rw [if_neg (by rw [hqf]; simp)]
      rw [if_neg (by simp [hrej])]
      try rfl
    have hallSome1 : allSome ([i1, i2].map
        (getLogRoot { st with mutCount := st.mutCount + 1 })) =
        some [rootOfPayload Q1, rootOfPayload Q2] := hallSome
    rw [show ledgerCalculateFromHistory { st with mutCount := st.mutCount + 1 } lg [i1, i2] =
        (match searchLogsRoot { st with mutCount := st.mutCount + 1 }
            (rootOfPayload (Q1 ++ Q2)) with
         | some e => some ((e.index, rootOfPayload (Q1 ++ Q2)),
             { st with mutCount := st.mutCount + 1 })
         | none =>
           some ((st.nextIndex, rootOfPayload (Q1 ++ Q2)),
             { st with
               mutCount := st.mutCount + 1
               logs := st.logs ++ [Event.fromHistory (rootOfPayload (Q1 ++ Q2))
                 (lg + Nat.log2 [i1, i2].length) [i1, i2] st.nextIndex]
               nextIndex := st.nextIndex + 1 })) from by
      simp only [ledgerCalculateFromHistory, hallSome1, hroot]
      try rfl] at hsubmit
    rcases hded : searchLogsRoot { st with mutCount := st.mutCount + 1 }
        (rootOfPayload (Q1 ++ Q2)) with _ | e3
    · simp only [hded] at hsubmit
      have hfreshroot : st.logs.find?
          (fun x => x.root == rootOfPayload (Q1 ++ Q2)) = none := by
        simpa [searchLogsRoot] using hded
      have hfind_ev : (st.logs ++ [Event.fromHistory (rootOfPayload (Q1 ++ Q2))
            (lg + Nat.log2 [i1, i2].length) [i1, i2] st.nextIndex]).find?
          (fun x => x.root == rootOfPayload (Q1 ++ Q2)) =
          some (Event.fromHistory (rootOfPayload (Q1 ++ Q2))
            (lg + Nat.log2 [i1, i2].length) [i1, i2] st.nextIndex) := by
        rw [find?_append_none hfreshroot]
        simp [List.find?, Event.root]
      have hch : ResolvesChildren (st.logs ++ [Event.fromHistory (rootOfPayload (Q1 ++ Q2))
            (lg + Nat.log2 [i1, i2].length) [i1, i2] st.nextIndex])
          (max n1 n2) [i1, i2] (Q1 ++ (Q2 ++ [])) := by
        refine ResolvesChildren.cons (find?_append_some hfind1) ?_
          (ResolvesChildren.cons (find?_append_some hfind2) ?_ ResolvesChildren.nil)
        · rw [hroot1]
          exact (hres1.append).le_depth (Nat.le_max_left n1 n2)
        · rw [hroot2]
          exact (hres2.append).le_depth (Nat.le_max_right n1 n2)
      rw [List.append_nil] at hch
      have hres_ev : Resolves (st.logs ++ [Event.fromHistory (rootOfPayload (Q1 ++ Q2))
            (lg + Nat.log2 [i1, i2].length) [i1, i2] st.nextIndex])
          (max n1 n2 + 1) (rootOfPayload (Q1 ++ Q2)) (Q1 ++ Q2) :=
        Resolves.hist hfind_ev hch
      have hlenB : 2 ^ (max n1 n2 + 1 - 1) * W ≤ (Q1 ++ Q2).length := by
        rw [List.length_append]
        exact depth_bound_pair hlen1 hlen2 hn1 hn2 hL1 hL2
      have hok : EventOkAt nodes W (st.logs ++ [Event.fromHistory (rootOfPayload (Q1 ++ Q2))
            (lg + Nat.log2 [i1, i2].length) [i1, i2] st.nextIndex])
          (Event.fromHistory (rootOfPayload (Q1 ++ Q2))
            (lg + Nat.log2 [i1, i2].length) [i1, i2] st.nextIndex) :=
        ⟨Q1 ++ Q2, max n1 n2 + 1, hQQ, rfl, hres_ev, Nat.succ_pos _, hlenB⟩
      have hinv2 := ledgerInv_extend
        (e := Event.fromHistory (rootOfPayload (Q1 ++ Q2))
          (lg + Nat.log2 [i1, i2].length) [i1, i2] st.nextIndex)
        ⟨hrej, hbound, hpi, hpr, hev⟩ rfl hded hok
      have hfind_idx : (st.logs ++ [Event.fromHistory (rootOfPayload (Q1 ++ Q2))
            (lg + Nat.log2 [i1, i2].length) [i1, i2] st.nextIndex]).find?
          (fun e => e.index == st.nextIndex) =
          some (Event.fromHistory (rootOfPayload (Q1 ++ Q2))
            (lg + Nat.log2 [i1, i2].length) [i1, i2] st.nextIndex) := by
        have h1 : st.logs.find? (fun e => e.index == st.nextIndex) = none := by
          rw [List.find?_eq_none]
          intro x hx
          simpa using Nat.ne_of_lt (hbound x hx)
        rw [find?_append_none h1]
        simp [List.find?, Event.index]
      refine ⟨st.nextIndex, _, hsubmit, ⟨[Event.fromHistory (rootOfPayload (Q1 ++ Q2))
          (lg + Nat.log2 [i1, i2].length) [i1, i2] st.nextIndex], rfl⟩, hinv2,
        Nat.le_succ _,
        Event.fromHistory (rootOfPayload (Q1 ++ Q2)) (lg + Nat.log2 [i1, i2].length)
          [i1, i2] st.nextIndex, max n1 n2 + 1, hfind_idx, rfl, hres_ev,
        Nat.succ_pos _, hlenB⟩
    · simp only [hded] at hsubmit
      have hfound : st.logs.find?
          (fun x => x.root == rootOfPayload (Q1 ++ Q2)) = some e3 := by
        simpa [searchLogsRoot] using hded
      have hmem3 : e3 ∈ st.logs := List.mem_of_find?_eq_some hfound
      have hroot3 : e3.root = rootOfPayload (Q1 ++ Q2) := by
        have := List.find?_some hfound
        simpa using this
      obtain ⟨P, n, hPmem, hProot, hres, hn, hlenP⟩ := hev e3 hmem3
      have hPeq : P = Q1 ++ Q2 := by
        apply hinj P hPmem _ hQQ
        rw [← hProot, hroot3]
      subst hPeq
      refine ⟨e3.index, _, hsubmit, ⟨[], by simp⟩, ⟨hrej, hbound, hpi, hpr, hev⟩,
        Nat.le_refl _, e3, n, find?_index_of_mem hpi hmem3, hProot, hres, hn, hlenP⟩
  rcases hq : searchLogsRoot st (rootOfPayload (Q1 ++ Q2)) with _ | e
  · exact hmiss (by simp [get_index_from_root, isLogAvailable, hq])
  · rcases he : (e.log2Size == lg + Nat.log2 2) with _ | _
    · exact hmiss (by simp [get_index_from_root, isLogAvailable, hq, he])
    · have hqfind : st.logs.find?
          (fun x => x.root == rootOfPayload (Q1 ++ Q2)) = some e := by
        simpa [searchLogsRoot] using hq
      have hmem : e ∈ st.logs := List.mem_of_find?_eq_some hqfind
      have hroote : e.root = rootOfPayload (Q1 ++ Q2) := by
        have := List.find?_some hqfind
        simpa using this
      obtain ⟨P, n, hPmem, hProot, hres, hn, hlenP⟩ := hev e hmem
      have hPeq : P = Q1 ++ Q2 := by
        apply hinj P hPmem _ hQQ
        rw [← hProot, hroote]
      subst hPeq
      have hsubmit : submit_indices_to_logger st lg [i1, i2] =
          (some (e.index, rootOfPayload (Q1 ++ Q2)), st) := by
        simp [submit_indices_to_logger, allSome, hg1, hg2, hroot, get_index_from_root,
          isLogAvailable, getLogIndex, hq, he]
      refine ⟨e.index, st, hsubmit, ⟨[], by simp⟩, ⟨hrej, hbound, hpi, hpr, hev⟩,
        Nat.le_refl _, e, n, find?_index_of_mem hpi hmem, hProot, hres, hn, hlenP⟩

/-- Two associations of the same ledger index resolve to the same node
payload (the index lookup is deterministic and node roots are injective). -/
theorem AssocIdx_inj {nodes : List Blob} {W : Nat} {st : St} {i : Nat} {P Q : Blob}
    (hinj : RootInjOn nodes) (hP : P ∈ nodes) (hQ : Q ∈ nodes)
    (h1 : AssocIdx W st i P) (h2 : AssocIdx W st i Q) : P = Q := by
  obtain ⟨e, n, hf, hr, _, _, _⟩ := h1
  obtain ⟨e2, n2, hf2, hr2, _, _, _⟩ := h2
  rw [hf] at hf2
  injection hf2 with he
  subst he
  exact hinj P hP Q hQ (by rw [← hr, ← hr2])

/-- Every index-pair cache entry is associated with a pair of node payloads
whose concatenation is a node payload, of combined size at most L words. -/
def AggCacheInv (nodes : List Blob) (W L : Nat) (st : St) : Prop :=
  ∀ e ∈ st.indexCache, ∃ i1 i2 P1 P2, e.1 = [i1, i2] ∧
    P1 ∈ nodes ∧ P2 ∈ nodes ∧ P1 ++ P2 ∈ nodes ∧
    AssocIdx W st i1 P1 ∧ AssocIdx W st i2 P2 ∧ AssocIdx W st e.2 (P1 ++ P2) ∧
    P1.length + P2.length ≤ L

/-- One aggregation pass: pairs of associated indices are combined in order
to indices associated with the concatenated payloads; the invariant and the
pair cache invariant are preserved, and when the entry bound excludes a
cache hit, a two-index pass returns the root of the single combined
payload. -/
theorem aggPass_assoc (nodes : List Blob) (W a : Nat) (hinj : RootInjOn nodes) :
    ∀ (n : Nat) (inds : List Nat) (L : Nat) (st : St) (lg : Nat) (root : Bytes)
      (acc : List Nat) (Ps : List Blob),
      inds.length ≤ n →
      LedgerInv nodes W st →
      AggCacheInv nodes W L st →
      List.Forall₂ (fun i P => AssocIdx W st i P) inds Ps →
      (∀ P ∈ Ps, P ∈ nodes) →
      (∀ P ∈ Ps, P.length = 2 ^ a) →
      (∀ Q ∈ pairConcat Ps, Q ∈ nodes) →
      L ≤ 2 ^ (a + 1) →
      ∃ outInds root' st',
        aggPass st lg root acc inds = .ok (acc ++ outInds, root', st') ∧
        List.Forall₂ (fun i P => AssocIdx W st' i P) outInds (pairConcat Ps) ∧
        LedgerInv nodes W st' ∧
        AggCacheInv nodes W (2 ^ (a + 1)) st' ∧
        (∃ ext, st'.logs = st.logs ++ ext) ∧
        st.nextIndex ≤ st'.nextIndex ∧
        st'.pageLog2Size = st.pageLog2Size ∧ st'.treeLog2Size = st.treeLog2Size ∧
        st'.blobCache = st.blobCache ∧ st'.downloadCache = st.downloadCache ∧
        (outInds = [] → root' = root ∧ st' = st) ∧
        (L < 2 ^ (a + 1) → ∀ Q, inds.length = 2 → pairConcat Ps = [Q] →
          root' = rootOfPayload Q) := by
  intro n
  induction n with
  | zero =>
    intro inds L st lg root acc Ps hn hinv hcache hf hmem hlen hnext hL
    have hnil : inds = [] := List.length_eq_zero.mp (Nat.le_zero.mp hn)
    subst hnil
    cases hf
    refine ⟨[], root, st, by simp [aggPass.eq_def], ?_, hinv, ?_, ⟨[], by simp⟩, Nat.le_refl _,
      rfl, rfl, rfl, rfl, fun _ => ⟨rfl, rfl⟩, ?_⟩
    · exact List.Forall₂.nil
    · intro e he
      obtain ⟨i1, i2, P1, P2, hk, m1, m2, m3, a1, a2, a3, hl⟩ := hcache e he
      exact ⟨i1, i2, P1, P2, hk, m1, m2, m3, a1, a2, a3, by omega⟩
    · intro _ Q h2 _
      simp at h2
  | succ n ih =>
    intro inds L st lg root acc Ps hn hinv hcache hf hmem hlen hnext hL
    match inds, hf with
    | [], List.Forall₂.nil =>
      refine ⟨[], root, st, by simp [aggPass.eq_def], ?_, hinv, ?_, ⟨[], by simp⟩, Nat.le_refl _,
        rfl, rfl, rfl, rfl, fun _ => ⟨rfl, rfl⟩, ?_⟩
      · exact List.Forall₂.nil
      · intro e he
        obtain ⟨i1, i2, P1, P2, hk, m1, m2, m3, a1, a2, a3, hl⟩ := hcache e he
        exact ⟨i1, i2, P1, P2, hk, m1, m2, m3, a1, a2, a3, by omega⟩
      · intro _ Q h2 _
        simp at h2
    | [i1], List.Forall₂.cons hA1 List.Forall₂.nil =>
      refine ⟨[], root, st, by simp [aggPass.eq_def], ?_, hinv, ?_, ⟨[], by simp⟩, Nat.le_refl _,
        rfl, rfl, rfl, rfl, fun _ => ⟨rfl, rfl⟩, ?_⟩
      · exact List.Forall₂.nil
      · intro e he
        obtain ⟨j1, j2, P1, P2, hk, m1, m2, m3, a1, a2, a3, hl⟩ := hcache e he
        exact ⟨j1, j2, P1, P2, hk, m1, m2, m3, a1, a2, a3, by omega⟩
      · intro _ Q h2 _
        simp at h2
    | i1 :: i2 :: rest, List.Forall₂.cons hA1 (List.Forall₂.cons hA2 hfrest) =>
      rename_i Q1 Q2 Ps'
      have hQ1 : Q1 ∈ nodes := hmem Q1 (by simp)
      have hQ2 : Q2 ∈ nodes := hmem Q2 (by simp)
      have hQQ : Q1 ++ Q2 ∈ nodes := hnext (Q1 ++ Q2) (by simp [pairConcat])
      have hL1 : Q1.length = 2 ^ a := hlen Q1 (by simp)
      have hL2 : Q2.length = 2 ^ a := hlen Q2 (by simp)
      have hpow : 2 ^ (a + 1) = 2 ^ a + 2 ^ a := by
        rw [pow_succ]
        omega
      simp only [aggPass]
      rcases halk : alookup st.indexCache [i1, i2] with _ | c
      · obtain ⟨j, st2, hsubmit, ⟨ext2, hext2⟩, hinv2, hni2, hAj⟩ :=
          submit_indices_assoc nodes W st lg i1 i2 Q1 Q2 a hinv hinj
            hQ1 hQ2 hQQ hA1 hA2 hL1 hL2
        obtain ⟨hp1, hp2, hp3, hp4, hp5, hp6⟩ := submit_indices_preserves st lg [i1, i2]
        rw [hsubmit] at hp1 hp2 hp3 hp4 hp5 hp6
        dsimp only at hp1 hp2 hp3 hp4 hp5 hp6
        simp only [halk, hsubmit]
        have hinv3 : LedgerInv nodes W
            { st2 with indexCache := ([i1, i2], j) :: st2.indexCache } := hinv2
        have hext3 : ∃ ext, ({ st2 with
            indexCache := ([i1, i2], j) :: st2.indexCache } : St).logs = st.logs ++ ext :=
          ⟨ext2, hext2⟩
        have hcache3 : AggCacheInv nodes W (2 ^ (a + 1))
            { st2 with indexCache := ([i1, i2], j) :: st2.indexCache } := by
          intro e he
          rcases List.mem_cons.mp he with hhd | htl
          · subst hhd
            exact ⟨i1, i2, Q1, Q2, rfl, hQ1, hQ2, hQQ,
              AssocIdx_extend hA1 hext3, AssocIdx_extend hA2 hext3,
              AssocIdx_extend hAj ⟨[], by simp⟩, by omega⟩
          · rw [hp2] at htl
            obtain ⟨j1, j2, P1, P2, hk, m1, m2, m3, a1, a2, a3, hl⟩ := hcache e htl
            exact ⟨j1, j2, P1, P2, hk, m1, m2, m3,
              AssocIdx_extend a1 hext3, AssocIdx_extend a2 hext3,
              AssocIdx_extend a3 hext3, by omega⟩
        have hfrest3 : List.Forall₂ (fun i P => AssocIdx W
            { st2 with indexCache := ([i1, i2], j) :: st2.indexCache } i P) rest Ps' :=
          hfrest.imp (fun i P h => AssocIdx_extend h hext3)
        have hrec := ih rest (2 ^ (a + 1))
          { st2 with indexCache := ([i1, i2], j) :: st2.indexCache } lg
          (rootOfPayload (Q1 ++ Q2)) (acc ++ [j]) Ps'
          (by simp only [List.length_cons] at hn; omega) hinv3 hcache3 hfrest3
          (fun P hP => hmem P (by simp [hP]))
          (fun P hP => hlen P (by simp [hP]))
          (fun Q hQ => hnext Q (by simp [pairConcat, hQ]))
          (Nat.le_refl _)
        obtain ⟨out', root', st', hrec_eq, hf', hinv', hcache', ⟨ext', hext'⟩, hni',
          hq1, hq2, hq3, hq4, hbase, _⟩ := hrec
        refine ⟨j :: out', root', st', by rw [hrec_eq]; simp, ?_, hinv', hcache',
          ⟨ext2 ++ ext', by rw [hext', hext2]; simp⟩, ?_, ?_, ?_, ?_, ?_, ?_, ?_⟩
        · rw [show pairConcat (Q1 :: Q2 :: Ps') = (Q1 ++ Q2) :: pairConcat Ps' from rfl]
          exact List.Forall₂.cons
            (AssocIdx_extend hAj ⟨ext', by rw [hext']⟩) hf'
        · have hnx : ({ st2 with
              indexCache := ([i1, i2], j) :: st2.indexCache } : St).nextIndex =
              st2.nextIndex := rfl
          omega
        · rw [hq1]; exact hp4
        · rw [hq2]; exact hp5
        · rw [hq3]; exact hp1
        · rw [hq4]; exact hp3
        · intro habs
          cases habs
        · intro hstrict Q hlen2 hpc
          have hrest : rest = [] := by
            simp only [List.length_cons] at hlen2
            exact List.length_eq_zero.mp (by omega)
          subst hrest
          cases hfrest
          simp only [pairConcat] at hpc
          injection hpc with hq _
          have hout : out' = [] := by
            cases hf'
            rfl
          obtain ⟨hr, _⟩ := hbase hout
          rw [hr, hq]
      · have hcentry := hcache ([i1, i2], c) (alookup_mem halk)
        obtain ⟨j1, j2, P1, P2, hk, m1, m2, m3, a1, a2, a3, hl⟩ := hcentry
        simp only at hk
        injection hk with h1 hk2
        injection hk2 with h2 _
        subst h1
        subst h2
        have hP1 : P1 = Q1 := AssocIdx_inj hinj m1 hQ1 a1 hA1
        have hP2 : P2 = Q2 := AssocIdx_inj hinj m2 hQ2 a2 hA2
        subst hP1
        subst hP2
        simp only [halk]
        have hrec := ih rest L st lg root (acc ++ [c]) Ps'
          (by simp only [List.length_cons] at hn; omega) hinv hcache hfrest
          (fun P hP => hmem P (by simp [hP]))
          (fun P hP => hlen P (by simp [hP]))
          (fun Q hQ => hnext Q (by simp [pairConcat, hQ]))
          hL
        obtain ⟨out', root', st', hrec_eq, hf', hinv', hcache', ⟨ext', hext'⟩, hni',
          hq1, hq2, hq3, hq4, hbase, _⟩ := hrec
        refine ⟨c :: out', root', st', by rw [hrec_eq]; simp, ?_, hinv', hcache',
          ⟨ext', hext'⟩, hni', hq1, hq2, hq3, hq4, ?_, ?_⟩
        · rw [show pairConcat (P1 :: P2 :: Ps') = (P1 ++ P2) :: pairConcat Ps' from rfl]
          exact List.Forall₂.cons (AssocIdx_extend a3 ⟨ext', hext'⟩) hf'
        · intro habs
          cases habs
        · intro hstrict Q hlen2 hpc
          exact absurd hstrict (by omega)

/-- The aggregation while-loop, started on a power-of-two level of associated
indices with a strictly bounded pair cache, returns the Merkle root of the
concatenation of all the level payloads, with a resolution derivation of
logarithmic depth. -/
theorem aggLoop_assoc (nodes : List Blob) (W : Nat) (hinj : RootInjOn nodes) :
    ∀ (m : Nat) (fuel : Nat) (st : St) (lg : Nat) (inds : List Nat) (root : Bytes)
      (Ps : List Blob) (a : Nat),
      1 ≤ m → m < fuel →
      inds.length = 2 ^ m →
      LedgerInv nodes W st →
      AggCacheInv nodes W (2 ^ a) st →
      List.Forall₂ (fun i P => AssocIdx W st i P) inds Ps →
      (∀ k : Nat, ∀ Q ∈ pairConcat^[k] Ps, Q ∈ nodes) →
      (∀ P ∈ Ps, P.length = 2 ^ a) →
      ∃ st' n, aggLoop fuel st lg inds root = .ok (rootOfPayload Ps.flatten, st') ∧
        Resolves st'.logs n (rootOfPayload Ps.flatten) Ps.flatten ∧ 0 < n ∧
        2 ^ (n - 1) * W ≤ Ps.flatten.length ∧
        (∃ ext, st'.logs = st.logs ++ ext) ∧
        st'.pageLog2Size = st.pageLog2Size ∧ st'.treeLog2Size = st.treeLog2Size ∧
        st'.blobCache = st.blobCache ∧ st'.downloadCache = st.downloadCache := by
  intro m
  induction m with
  | zero => intro fuel st lg inds root Ps a h1; omega
  | succ m ih =>
    intro fuel st lg inds root Ps a h1 hfuel hlen hinv hcache hf hmemk hlenPs
    have hPslen : Ps.length = 2 ^ (m + 1) := by
      rw [← hf.length_eq, hlen]
    obtain ⟨f, rfl⟩ : ∃ f, fuel = f + 1 := ⟨fuel - 1, by omega⟩
    have hgt : inds.length > 1 := by
      rw [hlen]
      exact Nat.one_lt_two_pow (by omega)
    simp only [aggLoop]
    rw [if_pos hgt]
    obtain ⟨outInds, root2, st2, hpass, hf2, hinv2, hcache2, ⟨ext2, hext2⟩, hni2,
      hs1, hs2, hs3, hs4, hbase2, hforced⟩ :=
      aggPass_assoc nodes W a hinj inds.length inds (2 ^ a) st lg root [] Ps
        (Nat.le_refl _) hinv hcache hf (fun P hP => hmemk 0 P hP) hlenPs
        (fun Q hQ => hmemk 1 Q hQ)
        (Nat.pow_le_pow_right (by omega) (by omega))
    rw [hpass]
    simp only [List.nil_append]
    rcases Nat.eq_or_lt_of_le h1 with hm1 | hm2
    · -- m + 1 = 1: two indices, the pass is the top combination
      have hm0 : m = 0 := by omega
      subst hm0
      have hQfull : pairConcat Ps = [Ps.flatten] := by
        have := pairIter_full 1 Ps (by rw [hPslen])
        simpa using this
      have hroot2 : root2 = rootOfPayload Ps.flatten :=
        hforced (by
          have h1 : 0 < 2 ^ a := Nat.pos_pow_of_pos _ (by omega)
          have h2 : 2 ^ (a + 1) = 2 ^ a * 2 := pow_succ 2 a
          omega) Ps.flatten (by rw [hlen]; norm_num) hQfull
      have hout1 : ∃ j, outInds = [j] := by
        have hl2 := hf2.length_eq
        rw [hQfull] at hl2
        match outInds, hl2 with
        | [j], _ => exact ⟨j, rfl⟩
      obtain ⟨j, rfl⟩ := hout1
      have hAj : AssocIdx W st2 j Ps.flatten := by
        rw [hQfull] at hf2
        cases hf2 with
        | cons hAj _ => exact hAj
      obtain ⟨f2, rfl⟩ : ∃ f2, f = f2 + 1 := ⟨f - 1, by omega⟩
      simp only [aggLoop]
      rw [if_neg (by simp)]
      obtain ⟨e, n, hfind, hroote, hres, hn, hlenb⟩ := hAj
      exact ⟨st2, n, by rw [hroot2], hres, hn, hlenb, ⟨ext2, hext2⟩,
        hs1, hs2, hs3, hs4⟩
    · -- m + 1 ≥ 2: recurse on the next level
      have hout : outInds.length = 2 ^ m := by
        rw [hf2.length_eq, pairConcat_length (n := 2 ^ m) (by rw [hPslen]; ring)]
      have hmemk2 : ∀ k : Nat, ∀ Q ∈ pairConcat^[k] (pairConcat Ps), Q ∈ nodes := by
        intro k Q hQ
        rw [← Function.iterate_succ_apply] at hQ
        exact hmemk (k + 1) Q hQ
      have hlen2 : ∀ P ∈ pairConcat Ps, P.length = 2 ^ (a + 1) := by
        intro P hP
        rw [show (2 : Nat) ^ (a + 1) = 2 * 2 ^ a from by ring]
        exact pairConcat_mem_length hlenPs P hP
      obtain ⟨st', n, hloop, hres, hn, hlenb, ⟨ext', hext'⟩, hr1, hr2, hr3, hr4⟩ :=
        ih f st2 (lg + 1) outInds root2 (pairConcat Ps) (a + 1)
          (by omega) (by omega) hout hinv2 hcache2 hf2 hmemk2 hlen2
      have hflat : (pairConcat Ps).flatten = Ps.flatten :=
        pairConcat_flatten (by rw [hPslen]; simp [Nat.pow_succ, Nat.mul_mod])
      rw [hflat] at hloop hres hlenb
      exact ⟨st', n, hloop, hres, hn, hlenb,
        ⟨ext2 ++ ext', by rw [hext', hext2]; simp⟩,
        by rw [hr1, hs1], by rw [hr2, hs2], by rw [hr3, hs3], by rw [hr4, hs4]⟩

/-- Every blob-cache entry is a completed raw page whose padded payload is a
node, associated with the cached ledger index. -/
def BlobInv (nodes : List Blob) (W : Nat) (st : St) : Prop :=
  ∀ e ∈ st.blobCache, padSlot st.pageLog2Size e.1 ∈ nodes ∧
    AssocIdx W st e.2 (padSlot st.pageLog2Size e.1)

/-- The page for-loop: completed pages are submitted or fetched from the blob
cache, yielding indices associated with the padded page payloads in order;
the word remainder is returned unchanged and the page counter decreases by
the number of completed pages.  On a fresh blob cache a single-page stream
also fixes root to that page's true root. -/
theorem pageLoop_assoc (nodes : List Blob) (p : Nat) (hp : 3 ≤ p) (hinj : RootInjOn nodes) :
    ∀ (chs : List Bytes) (st : St) (data : Blob) (inds : List Nat) (root : Bytes)
      (count : Int),
      st.pageLog2Size = p →
      LedgerInv nodes (2 ^ (p - 3)) st →
      BlobInv nodes (2 ^ (p - 3)) st →
      data.length < 2 ^ (p - 3) →
      (∀ pg ∈ (pageSplit (2 ^ (p - 3)) data chs).1, padSlot p pg ∈ nodes) →
      (∀ pg ∈ (pageSplit (2 ^ (p - 3)) data chs).1,
        localRootOf p pg = rootOfPayload (padSlot p pg) ∨
        ∀ P ∈ nodes, rootOfPayload P ≠ localRootOf p pg) →
      ∃ newInds root' st',
        pageLoop st data inds root count chs =
          .ok ((pageSplit (2 ^ (p - 3)) data chs).2, inds ++ newInds, root',
            count - newInds.length, st') ∧
        List.Forall₂ (fun i pg => AssocIdx (2 ^ (p - 3)) st' i (padSlot p pg)) newInds
          (pageSplit (2 ^ (p - 3)) data chs).1 ∧
        LedgerInv nodes (2 ^ (p - 3)) st' ∧
        BlobInv nodes (2 ^ (p - 3)) st' ∧
        (∃ ext, st'.logs = st.logs ++ ext) ∧
        st.nextIndex ≤ st'.nextIndex ∧
        st'.pageLog2Size = st.pageLog2Size ∧ st'.treeLog2Size = st.treeLog2Size ∧
        st'.indexCache = st.indexCache ∧ st'.downloadCache = st.downloadCache ∧
        (newInds = [] → root' = root ∧ st' = st) ∧
        (∀ pg0, (pageSplit (2 ^ (p - 3)) data chs).1 = [pg0] → st.blobCache = [] →
          root' = rootOfPayload (padSlot p pg0)) := by
  intro chs
  induction chs with
  | nil =>
    intro st data inds root count hpe hinv hblob hdata hslots hlocal
    refine ⟨[], root, st, ?_, List.Forall₂.nil, hinv, hblob, ⟨[], by simp⟩,
      Nat.le_refl _, rfl, rfl, rfl, rfl, fun _ => ⟨rfl, rfl⟩, ?_⟩
    · simp [pageLoop, pageSplit]
    · intro pg0 habs _
      simp [pageSplit] at habs
  | cons b rest ih =>
    intro st data inds root count hpe hinv hblob hdata hslots hlocal
    have h8 : (2 : Nat) ^ p = 2 ^ (p - 3) * 8 := by
      rw [show (8 : Nat) = 2 ^ 3 from by norm_num, ← pow_add]
      congr 1
      omega
    simp only [pageLoop]
    by_cases hfull : ((data ++ [b]).length * 8 == 2 ^ st.pageLog2Size) = true
    · have hflen : (data ++ [b]).length = 2 ^ (p - 3) := by
        rw [hpe] at hfull
        have := beq_iff_eq.mp hfull
        simp only [List.length_append, List.length_cons, List.length_nil] at this ⊢
        omega
      have hcond : data.length + 1 = 2 ^ (p - 3) := by
        simp only [List.length_append, List.length_cons, List.length_nil] at hflen
        omega
      have hsp1 : (pageSplit (2 ^ (p - 3)) data (b :: rest)).1 =
          (data ++ [b]) :: (pageSplit (2 ^ (p - 3)) [] rest).1 := by
        simp [pageSplit, hcond]
      have hsp2 : (pageSplit (2 ^ (p - 3)) data (b :: rest)).2 =
          (pageSplit (2 ^ (p - 3)) [] rest).2 := by
        simp [pageSplit, hcond]
      rw [if_pos hfull]
      rw [hsp1] at hslots hlocal
      rcases halk : alookup st.blobCache (data ++ [b]) with _ | c
      · -- cache miss: submit the page
        obtain ⟨i, st2, hsubmit, ⟨ext2, hext2⟩, hinv2, hni2, hAi⟩ :=
          submit_data_assoc nodes st (data ++ [b]) (by rw [hpe]; exact hp)
            (by rw [hpe]; exact hinv) hinj
            (by rw [hpe]; exact hslots _ (by simp))
            (by rw [hpe]; omega)
            (by rw [hpe]; exact hlocal _ (by simp))
        rw [hpe] at hsubmit hinv2 hAi
        obtain ⟨hq1, hq2, hq3, hq4, hq5, hq6⟩ := submit_data_preserves st (data ++ [b])
        rw [hsubmit] at hq1 hq2 hq3 hq4 hq5 hq6
        dsimp only at hq1 hq2 hq3 hq4 hq5 hq6
        simp only [halk, hsubmit]
        have hpe3 : ({ st2 with blobCache := (data ++ [b], i) :: st2.blobCache } : St).pageLog2Size
            = p := by
          show st2.pageLog2Size = p
          rw [hq4, hpe]
        have hext3 : ∃ ext, ({ st2 with
            blobCache := (data ++ [b], i) :: st2.blobCache } : St).logs = st.logs ++ ext :=
          ⟨ext2, hext2⟩
        have hinv3 : LedgerInv nodes (2 ^ (p - 3))
            { st2 with blobCache := (data ++ [b], i) :: st2.blobCache } := hinv2
        have hblob3 : BlobInv nodes (2 ^ (p - 3))
            { st2 with blobCache := (data ++ [b], i) :: st2.blobCache } := by
          intro e he
          rcases List.mem_cons.mp he with hhd | htl
          · subst hhd
            refine ⟨?_, ?_⟩
            · rw [show ({ st2 with blobCache := (data ++ [b], i) :: st2.blobCache } :
                St).pageLog2Size = p from hpe3]
              exact hslots _ (by simp)
            · rw [show ({ st2 with blobCache := (data ++ [b], i) :: st2.blobCache } :
                St).pageLog2Size = p from hpe3]
              exact AssocIdx_extend hAi ⟨[], by simp⟩
          · rw [hq1] at htl
            obtain ⟨hm, hA⟩ := hblob e htl
            rw [hpe] at hm hA
            refine ⟨?_, ?_⟩
            · rw [show ({ st2 with blobCache := (data ++ [b], i) :: st2.blobCache } :
                St).pageLog2Size = p from hpe3]
              exact hm
            · rw [show ({ st2 with blobCache := (data ++ [b], i) :: st2.blobCache } :
                St).pageLog2Size = p from hpe3]
              exact AssocIdx_extend hA hext3
        obtain ⟨new', root', st', hrec_eq, hf', hinv', hblob', ⟨ext', hext'⟩, hni',
          hr1, hr2, hr3, hr4, hbase, hsingle⟩ :=
          ih { st2 with blobCache := (data ++ [b], i) :: st2.blobCache } []
            (inds ++ [i]) (rootOfPayload (padSlot p (data ++ [b]))) (count - 1)
            hpe3 hinv3 hblob3
            (Nat.pos_pow_of_pos _ (by omega))
            (fun pg hpg => hslots pg (by simp [hpg]))
            (fun pg hpg => hlocal pg (by simp [hpg]))
        have harr : (inds ++ [i]) ++ new' = inds ++ i :: new' := by simp
        have hcnt : count - 1 - (new'.length : Int) = count - ((i :: new').length : Int) := by
          simp only [List.length_cons]
          push_cast
          ring
        refine ⟨i :: new', root', st', by rw [hrec_eq, harr, hcnt, hsp2], ?_, hinv', hblob',
          ⟨ext2 ++ ext', by rw [hext', hext2]; simp⟩, ?_, ?_, ?_, ?_, ?_, ?_, ?_⟩
        · rw [hsp1]
          exact List.Forall₂.cons (AssocIdx_extend hAi ⟨ext', by rw [hext']⟩) hf'
        · have hnx : ({ st2 with blobCache := (data ++ [b], i) :: st2.blobCache } :
              St).nextIndex = st2.nextIndex := rfl
          omega
        · rw [hr1]
          show st2.pageLog2Size = st.pageLog2Size
          exact hq4
        · rw [hr2]
          show st2.treeLog2Size = st.treeLog2Size
          exact hq5
        · rw [hr3]
          show st2.indexCache = st.indexCache
          exact hq2
        · rw [hr4]
          show st2.downloadCache = st.downloadCache
          exact hq3
        · intro habs
          cases habs
        · intro pg0 hpg0 hbc
          rw [hsp1] at hpg0
          injection hpg0 with hpg1 hpg2
          have hnew' : new' = [] := by
            have hflen2 := hf'.length_eq
            rw [hpg2] at hflen2
            simpa using List.length_eq_zero.mp (by simpa using hflen2)
          obtain ⟨hr, _⟩ := hbase hnew'
          rw [hr, hpg1]
      · -- cache hit
        have hentry := hblob ((data ++ [b]), c) (alookup_mem halk)
        obtain ⟨hmem, hA⟩ := hentry
        rw [hpe] at hmem hA
        simp only [halk]
        obtain ⟨new', root', st', hrec_eq, hf', hinv', hblob', ⟨ext', hext'⟩, hni',
          hr1, hr2, hr3, hr4, hbase, hsingle⟩ :=
          ih st [] (inds ++ [c]) root (count - 1) hpe hinv hblob
            (Nat.pos_pow_of_pos _ (by omega))
            (fun pg hpg => hslots pg (by simp [hpg]))
            (fun pg hpg => hlocal pg (by simp [hpg]))
        have harr : (inds ++ [c]) ++ new' = inds ++ c :: new' := by simp
        have hcnt : count - 1 - (new'.length : Int) = count - ((c :: new').length : Int) := by
          simp only [List.length_cons]
          push_cast
          ring
        refine ⟨c :: new', root', st', by rw [hrec_eq, harr, hcnt, hsp2], ?_, hinv', hblob',
          ⟨ext', hext'⟩, hni', hr1, hr2, hr3, hr4, ?_, ?_⟩
        · rw [hsp1]
          exact List.Forall₂.cons (AssocIdx_extend hA ⟨ext', hext'⟩) hf'
        · intro habs
          cases habs
        · intro pg0 hpg0 hbc
          rw [hbc] at halk
          simp [alookup] at halk
    · have hflen : (data ++ [b]).length ≠ 2 ^ (p - 3) := by
        intro habs
        apply hfull
        rw [hpe]
        apply beq_iff_eq.mpr
        simp only [List.length_append, List.length_cons, List.length_nil] at habs ⊢
        omega
      have hcond : ¬(data.length + 1 = 2 ^ (p - 3)) := by
        simp only [List.length_append, List.length_cons, List.length_nil] at hflen
        omega
      have hsp : pageSplit (2 ^ (p - 3)) data (b :: rest) =
          pageSplit (2 ^ (p - 3)) (data ++ [b]) rest := by
        simp [pageSplit, hcond]
      rw [if_neg hfull]
      rw [hsp] at hslots hlocal
      obtain ⟨new', root', st', hrec_eq, hf', hinv', hblob', hext', hni',
        hr1, hr2, hr3, hr4, hbase, hsingle⟩ :=
        ih st (data ++ [b]) inds root count hpe hinv hblob
          (by simp only [List.length_append, List.length_cons, List.length_nil]; omega)
          hslots hlocal
      refine ⟨new', root', st', by rw [hrec_eq, hsp], ?_, hinv', hblob', hext', hni',
        hr1, hr2, hr3, hr4, hbase, ?_⟩
      · rw [hsp]
        exact hf'
      · intro pg0 hpg0 hbc
        rw [hsp] at hpg0
        exact hsingle pg0 hpg0 hbc

/-- The partial-final-page step: an empty remainder passes everything
through; a nonempty remainder is submitted as a short page, appending one
index associated with its padded payload and fixing root to its true root. -/
theorem submitTail1_assoc (nodes : List Blob) (p : Nat) (hp : 3 ≤ p)
    (hinj : RootInjOn nodes) (st : St) (data : Blob) (inds : List Nat) (root : Bytes)
    (count : Int)
    (hpe : st.pageLog2Size = p)
    (hinv : LedgerInv nodes (2 ^ (p - 3)) st)
    (hlen : data.length ≤ 2 ^ (p - 3))
    (hmem : data ≠ [] → padSlot p data ∈ nodes)
    (hlocal : data ≠ [] → localRootOf p data = rootOfPayload (padSlot p data) ∨
      ∀ P ∈ nodes, rootOfPayload P ≠ localRootOf p data) :
    ∃ newInds root2 st2,
      submitTail1 st data inds root count =
        .ok (inds ++ newInds, root2, count - newInds.length, st2) ∧
      List.Forall₂ (fun i pg => AssocIdx (2 ^ (p - 3)) st2 i (padSlot p pg)) newInds
        (if data = [] then [] else [data]) ∧
      LedgerInv nodes (2 ^ (p - 3)) st2 ∧
      (∃ ext, st2.logs = st.logs ++ ext) ∧
      st.nextIndex ≤ st2.nextIndex ∧
      st2.pageLog2Size = st.pageLog2Size ∧ st2.treeLog2Size = st.treeLog2Size ∧
      st2.blobCache = st.blobCache ∧ st2.indexCache = st.indexCache ∧
      st2.downloadCache = st.downloadCache ∧
      (data = [] → root2 = root ∧ st2 = st) ∧
      (data ≠ [] → root2 = rootOfPayload (padSlot p data)) := by
  by_cases hd : data = []
  · subst hd
    refine ⟨[], root, st, ?_, ?_, hinv, ⟨[], by simp⟩, Nat.le_refl _, rfl, rfl, rfl,
      rfl, rfl, fun _ => ⟨rfl, rfl⟩, fun habs => absurd rfl habs⟩
    · simp [submitTail1]
    · simp only [if_pos rfl]
      exact List.Forall₂.nil
  · have hdlen : data.length ≠ 0 := fun h => hd (List.length_eq_zero.mp h)
    obtain ⟨i, st2, hsubmit, hext, hinv2, hni2, hAi⟩ :=
      submit_data_assoc nodes st data (by rw [hpe]; exact hp)
        (by rw [hpe]; exact hinv) hinj
        (by rw [hpe]; exact hmem hd)
        (by rw [hpe]; exact hlen)
        (by rw [hpe]; exact hlocal hd)
    rw [hpe] at hsubmit hinv2 hAi
    obtain ⟨hq1, hq2, hq3, hq4, hq5, hq6⟩ := submit_data_preserves st data
    rw [hsubmit] at hq1 hq2 hq3 hq4 hq5 hq6
    dsimp only at hq1 hq2 hq3 hq4 hq5 hq6
    refine ⟨[i], rootOfPayload (padSlot p data), st2, ?_, ?_, hinv2, hext, hni2,
      hq4, hq5, hq1, hq2, hq3, fun habs => absurd habs hd, fun _ => rfl⟩
    · simp only [submitTail1, if_neg hdlen, hsubmit]
      norm_num
    · simp only [if_neg hd]
      exact List.Forall₂.cons hAi List.Forall₂.nil

/-- The zero-page fill step: a positive remaining page count submits the
one-zero-word page once and appends its index that many times, each
associated with the all-zero page payload, fixing root to its true root. -/
theorem submitTail2_assoc (nodes : List Blob) (p : Nat) (hp : 3 ≤ p)
    (hinj : RootInjOn nodes) (st : St) (inds : List Nat) (root : Bytes) (count : Int)
    (hpe : st.pageLog2Size = p)
    (hinv : LedgerInv nodes (2 ^ (p - 3)) st)
    (hzmem : 0 < count → padSlot p [zeroWord] ∈ nodes) :
    ∃ newInds root3 st3,
      submitTail2 st inds root count = .ok (inds ++ newInds, root3, st3) ∧
      List.Forall₂ (fun i P => AssocIdx (2 ^ (p - 3)) st3 i P) newInds
        (List.replicate count.toNat (padSlot p [zeroWord])) ∧
      LedgerInv nodes (2 ^ (p - 3)) st3 ∧
      (∃ ext, st3.logs = st.logs ++ ext) ∧
      st.nextIndex ≤ st3.nextIndex ∧
      st3.pageLog2Size = st.pageLog2Size ∧ st3.treeLog2Size = st.treeLog2Size ∧
      st3.blobCache = st.blobCache ∧ st3.indexCache = st.indexCache ∧
      st3.downloadCache = st.downloadCache ∧
      (count ≤ 0 → root3 = root ∧ st3 = st) ∧
      (0 < count → root3 = rootOfPayload (padSlot p [zeroWord])) := by
  by_cases hc : count > 0
  · have hone : (1 : Nat) ≤ 2 ^ (p - 3) := Nat.one_le_two_pow
    obtain ⟨i, st2, hsubmit, hext, hinv2, hni2, hAi⟩ :=
      submit_data_assoc nodes st [zeroWord] (by rw [hpe]; exact hp)
        (by rw [hpe]; exact hinv) hinj
        (by rw [hpe]; exact hzmem hc)
        (by rw [hpe]; simp [hone])
        (by
          rw [hpe]
          left
          exact localRootOf_full p [zeroWord] hp (by simp [hone])
            (fun w hw => by rw [List.mem_singleton.mp hw]; exact zeroWord_length))
    rw [hpe] at hsubmit hinv2 hAi
    obtain ⟨hq1, hq2, hq3, hq4, hq5, hq6⟩ := submit_data_preserves st [zeroWord]
    rw [hsubmit] at hq1 hq2 hq3 hq4 hq5 hq6
    dsimp only at hq1 hq2 hq3 hq4 hq5 hq6
    refine ⟨List.replicate count.toNat i, rootOfPayload (padSlot p [zeroWord]), st2,
      ?_, ?_, hinv2, hext, hni2, hq4, hq5, hq1, hq2, hq3,
      fun habs => absurd hc (by omega), fun _ => rfl⟩
    · simp only [submitTail2, if_pos hc, hsubmit]
    · exact forall₂_replicate hAi count.toNat
  · have hc0 : count.toNat = 0 := by omega
    refine ⟨[], root, st, ?_, ?_, hinv, ⟨[], by simp⟩, Nat.le_refl _, rfl, rfl, rfl,
      rfl, rfl, fun _ => ⟨rfl, rfl⟩, fun habs => absurd habs hc⟩
    · simp [submitTail2, hc]
    · rw [hc0]
      exact List.Forall₂.nil

theorem treeLevels_iterate_mem : ∀ (m k : Nat) (l : List Blob), k ≤ m →
    ∀ Q ∈ pairConcat^[k] l, Q ∈ (treeLevels m l).flatten := by
  intro m
  induction m with
  | zero =>
    intro k l hk Q hQ
    have hk0 : k = 0 := Nat.le_zero.mp hk
    subst hk0
    simpa [treeLevels] using hQ
  | succ m ih =>
    intro k l hk Q hQ
    rw [show treeLevels (m + 1) l = l :: treeLevels m (pairConcat l) from rfl,
      List.flatten_cons]
    cases k with
    | zero =>
      exact List.mem_append_left _ (by simpa using hQ)
    | succ k2 =>
      rw [Function.iterate_succ_apply] at hQ
      exact List.mem_append_right _ (ih k2 (pairConcat l) (by omega) Q hQ)

theorem pairConcat_iterate_high {m k : Nat} {l : List Blob} (hl : l.length = 2 ^ m)
    (hk : m < k) : pairConcat^[k] l = [] := by
  obtain ⟨j, rfl⟩ : ∃ j, k = (m + 1) + j := ⟨k - (m + 1), by omega⟩
  rw [Nat.add_comm, Function.iterate_add_apply]
  have hm1 : pairConcat^[m + 1] l = [] := by
    rw [Function.iterate_succ_apply', pairIter_full m l hl]
    rfl
  rw [hm1]
  exact Function.iterate_fixed rfl j

/-- End-to-end submission correctness: from a fresh session (empty caches)
against a ledger satisfying the run invariant, submit_file returns the true
Merkle root of the file's full padded payload, which resolves from the final
ledger history at logarithmic depth. -/
theorem submit_file_assoc (nodes : List Blob) (p t : Nat) (chs : List Bytes) (st0 : St)
    (hp : 3 ≤ p) (hpt : p ≤ t) (hinj : RootInjOn nodes)
    (hpe : st0.pageLog2Size = p) (hte : st0.treeLog2Size = t)
    (hbc : st0.blobCache = []) (hic : st0.indexCache = [])
    (hall : ∀ Q ∈ allNodes p t chs, Q ∈ nodes)
    (hinv : LedgerInv nodes (2 ^ (p - 3)) st0)
    (hloc : ∀ pg ∈ rawSlots (2 ^ (p - 3)) chs,
      localRootOf p pg = rootOfPayload (padSlot p pg) ∨
      ∀ P ∈ nodes, rootOfPayload P ≠ localRootOf p pg)
    (hcap : chs.length ≤ 2 ^ (p - 3) * 2 ^ (t - p)) :
    ∃ st1 n, submit_file st0 chs =
        .ok (rootOfPayload (levelZero p t chs).flatten, st1) ∧
      Resolves st1.logs n (rootOfPayload (levelZero p t chs).flatten)
        (levelZero p t chs).flatten ∧
      0 < n ∧ 2 ^ (n - 1) * 2 ^ (p - 3) ≤ (levelZero p t chs).flatten.length ∧
      st1.treeLog2Size = t ∧ st1.downloadCache = st0.downloadCache := by
  have hW : 0 < 2 ^ (p - 3) := Nat.pos_pow_of_pos _ (by omega)
  have hpagesW := pageSplit_full (W := 2 ^ (p - 3)) chs [] (by simp [hW])
  have hremW := pageSplit_rem (W := 2 ^ (p - 3)) chs [] (by simp [hW])
  have hN : (rawSlots (2 ^ (p - 3)) chs).length ≤ 2 ^ (t - p) :=
    rawSlots_count_le hW hcap
  have hmemLZ : ∀ Q ∈ levelZero p t chs, Q ∈ nodes := by
    intro Q hQ
    exact hall Q (treeLevels_iterate_mem (t - p) 0 (levelZero p t chs)
      (Nat.zero_le _) Q hQ)
  have hpagesSub : ∀ pg ∈ (pageSplit (2 ^ (p - 3)) [] chs).1,
      pg ∈ rawSlots (2 ^ (p - 3)) chs := by
    intro pg hpg
    exact List.mem_append_left _ hpg
  have hremSub : (pageSplit (2 ^ (p - 3)) [] chs).2 ≠ [] →
      (pageSplit (2 ^ (p - 3)) [] chs).2 ∈ rawSlots (2 ^ (p - 3)) chs := by
    intro hne
    unfold rawSlots
    rw [if_neg hne]
    exact List.mem_append_right _ (by simp)
  have hslotMem : ∀ pg ∈ rawSlots (2 ^ (p - 3)) chs, padSlot p pg ∈ nodes := by
    intro pg hpg
    apply hmemLZ
    unfold levelZero
    exact List.mem_append_left _ (List.mem_map_of_mem _ hpg)
  -- step 1: the page loop
  obtain ⟨inds1, root1, st1, heq1, hf1, hinv1, hblob1, ⟨ext1, hext1⟩, hni1,
    hs11, hs12, hs13, hs14, hbase1, hsingle1⟩ :=
    pageLoop_assoc nodes p hp hinj chs st0 [] [] (List.replicate 32 0)
      ((2 : Int) ^ (t - p)) hpe hinv
      (by intro e he; rw [hbc] at he; cases he)
      hW
      (fun pg hpg => hslotMem pg (hpagesSub pg hpg))
      (fun pg hpg => hloc pg (hpagesSub pg hpg))
  -- step 2: the partial page
  obtain ⟨inds2n, root2, st2, heq2, hf2, hinv2, ⟨ext2, hext2⟩, hni2,
    ht21, ht22, ht23, ht24, ht25, hbase2, hroot2ne⟩ :=
    submitTail1_assoc nodes p hp hinj st1 (pageSplit (2 ^ (p - 3)) [] chs).2
      inds1 root1 ((2 : Int) ^ (t - p) - inds1.length)
      (by rw [hs11, hpe])
      hinv1
      (Nat.le_of_lt hremW)
      (fun hne => hslotMem _ (hremSub hne))
      (fun hne => hloc _ (hremSub hne))
  have hfA : List.Forall₂ (fun i pg => AssocIdx (2 ^ (p - 3)) st2 i (padSlot p pg))
      (inds1 ++ inds2n) (rawSlots (2 ^ (p - 3)) chs) := by
    unfold rawSlots
    exact List.rel_append
      (List.Forall₂.imp (fun i pg h => AssocIdx_extend h ⟨ext2, hext2⟩) hf1) hf2
  have hNlen : (inds1 ++ inds2n).length = (rawSlots (2 ^ (p - 3)) chs).length :=
    hfA.length_eq
  -- step 3: the zero-page fill
  obtain ⟨inds3n, root3, st3, heq3, hf3, hinv3, ⟨ext3, hext3⟩, hni3,
    hu1, hu2, hu3, hu4, hu5, hbase3, hroot3pos⟩ :=
    submitTail2_assoc nodes p hp hinj st2 (inds1 ++ inds2n) root2
      ((2 : Int) ^ (t - p) - inds1.length - inds2n.length)
      (by rw [ht21, hs11, hpe])
      hinv2
      (by
        intro hcpos
        apply hmemLZ
        unfold levelZero
        apply List.mem_append_right
        apply List.mem_replicate.mpr
        refine ⟨?_, rfl⟩
        have hTcast : ((2 : Int) ^ (t - p)) = ((2 ^ (t - p) : Nat) : Int) := by
          push_cast
          ring
        rw [hTcast] at hcpos
        simp only [List.length_append] at hNlen
        omega)
  have hcnt2 : ((2 : Int) ^ (t - p) - inds1.length - inds2n.length).toNat =
      2 ^ (t - p) - (rawSlots (2 ^ (p - 3)) chs).length := by
    simp only [List.length_append] at hNlen
    have hTcast : ((2 : Int) ^ (t - p)) = ((2 ^ (t - p) : Nat) : Int) := by push_cast; ring
    rw [hTcast]
    omega
  rw [hcnt2] at hf3
  have hfLZ : List.Forall₂ (fun i P => AssocIdx (2 ^ (p - 3)) st3 i P)
      ((inds1 ++ inds2n) ++ inds3n) (levelZero p t chs) := by
    unfold levelZero
    refine List.rel_append ?_ hf3
    rw [List.forall₂_map_right_iff]
    exact List.Forall₂.imp (fun i pg h => AssocIdx_extend h ⟨ext3, hext3⟩) hfA
  have hlzlen : (levelZero p t chs).length = 2 ^ (t - p) := levelZero_length chs hcap
  have hlen3 : ((inds1 ++ inds2n) ++ inds3n).length = 2 ^ (t - p) := by
    rw [hfLZ.length_eq, hlzlen]
  have hlzW : ∀ P ∈ levelZero p t chs, P.length = 2 ^ (p - 3) := by
    intro P hP
    unfold levelZero at hP
    rcases List.mem_append.mp hP with hm | hm
    · obtain ⟨pg, hpg, rfl⟩ := List.mem_map.mp hm
      rcases List.mem_append.mp hpg with hm2 | hm2
      · exact padSlot_length (by rw [hpagesW pg hm2])
      · by_cases hrem : (pageSplit (2 ^ (p - 3)) [] chs).2 = []
        · rw [if_pos hrem] at hm2
          cases hm2
        · rw [if_neg hrem] at hm2
          rw [List.mem_singleton.mp hm2]
          exact padSlot_length (Nat.le_of_lt hremW)
    · rw [List.eq_of_mem_replicate hm]
      exact padSlot_length (by simp [Nat.one_le_two_pow])
  -- assemble submit_file
  simp only [submit_file]
  rw [hpe, hte]
  simp only [heq1, List.nil_append, heq2, heq3]
  -- the aggregation loop
  rcases Nat.eq_or_lt_of_le hpt with hteq | hplt
  · -- t = p: a single page slot, no aggregation pass runs
    subst hteq
    have hT1 : (2 : Nat) ^ (p - p) = 1 := by simp
    have hsingleLen : ((inds1 ++ inds2n) ++ inds3n).length = 1 := by rw [hlen3, hT1]
    obtain ⟨j, hj⟩ : ∃ j, (inds1 ++ inds2n) ++ inds3n = [j] := by
      match (inds1 ++ inds2n) ++ inds3n, hsingleLen with
      | [j], _ => exact ⟨j, rfl⟩
    obtain ⟨Q, hQ⟩ : ∃ Q, levelZero p p chs = [Q] := by
      have : (levelZero p p chs).length = 1 := by rw [hlzlen, hT1]
      match levelZero p p chs, this with
      | [Q], _ => exact ⟨Q, rfl⟩
    have hAj : AssocIdx (2 ^ (p - 3)) st3 j Q := by
      rw [hj, hQ] at hfLZ
      cases hfLZ with
      | cons h _ => exact h
    have hflatQ : (levelZero p p chs).flatten = Q := by
      rw [hQ]
      simp
    have hroot3 : root3 = rootOfPayload Q := by
      have hNle1 : (rawSlots (2 ^ (p - 3)) chs).length ≤ 1 := by rw [← hT1]; exact hN
      simp only [List.length_append] at hNlen
      rcases Nat.eq_zero_or_pos (rawSlots (2 ^ (p - 3)) chs).length with hN0 | hN1
      · -- no slots: the zero page was submitted
        have hcpos : (0 : Int) < (2 : Int) ^ (p - p) - inds1.length - inds2n.length := by
          have : inds1.length + inds2n.length = 0 := by omega
          simp only [Nat.sub_self, pow_zero] at *
          omega
        have hz := hroot3pos hcpos
        have hlz0 : levelZero p p chs = [padSlot p [zeroWord]] := by
          unfold levelZero
          rw [List.length_eq_zero.mp hN0]
          simp [hT1]
        rw [hlz0] at hQ
        injection hQ with hQ2
        rw [hz, hQ2]
      · -- one slot: the fill count is zero and the slot root was returned
        have hNeq1 : (rawSlots (2 ^ (p - 3)) chs).length = 1 := by omega
        have hcz : (2 : Int) ^ (p - p) - inds1.length - inds2n.length ≤ 0 := by
          simp only [Nat.sub_self, pow_zero]
          omega
        obtain ⟨hr32, hst32⟩ := hbase3 hcz
        have hlzslot : levelZero p p chs =
            (rawSlots (2 ^ (p - 3)) chs).map (padSlot p) := by
          unfold levelZero
          rw [hNeq1, hT1]
          simp
        by_cases hrem : (pageSplit (2 ^ (p - 3)) [] chs).2 = []
        · -- remainder empty: the single full page fixed root in the page loop
          obtain ⟨hr21, hst21⟩ := hbase2 hrem
          have hslots_pages : rawSlots (2 ^ (p - 3)) chs =
              (pageSplit (2 ^ (p - 3)) [] chs).1 := by
            unfold rawSlots
            rw [if_pos hrem]
            simp
          have hpg1 : ∃ pg0, (pageSplit (2 ^ (p - 3)) [] chs).1 = [pg0] := by
            have : (pageSplit (2 ^ (p - 3)) [] chs).1.length = 1 := by
              rw [← hslots_pages, hNeq1]
            match (pageSplit (2 ^ (p - 3)) [] chs).1, this with
            | [pg0], _ => exact ⟨pg0, rfl⟩
          obtain ⟨pg0, hpg0⟩ := hpg1
          have hr1 := hsingle1 pg0 hpg0 hbc
          have hQpg : Q = padSlot p pg0 := by
            rw [hlzslot, hslots_pages, hpg0] at hQ
            simp at hQ
            exact hQ.symm
          rw [hr32, hr21, hr1, hQpg]
        · -- nonempty remainder: the short page fixed root in the tail step
          have hne : (pageSplit (2 ^ (p - 3)) [] chs).2 ≠ [] := hrem
          have hr2 := hroot2ne hne
          have hpages0 : (pageSplit (2 ^ (p - 3)) [] chs).1 = [] := by
            have hsl : rawSlots (2 ^ (p - 3)) chs =
                (pageSplit (2 ^ (p - 3)) [] chs).1 ++
                [(pageSplit (2 ^ (p - 3)) [] chs).2] := by
              unfold rawSlots
              rw [if_neg hne]
            have := congrArg List.length hsl
            rw [hNeq1] at this
            simp only [List.length_append, List.length_cons, List.length_nil] at this
            exact List.length_eq_zero.mp (by omega)
          have hQrem : Q = padSlot p (pageSplit (2 ^ (p - 3)) [] chs).2 := by
            rw [hlzslot] at hQ
            unfold rawSlots at hQ
            rw [if_neg hne, hpages0] at hQ
            simp at hQ
            exact hQ.symm
          rw [hr32, hr2, hQrem]
    obtain ⟨e, n, hfind, hroote, hres, hn, hlenb⟩ := hAj
    refine ⟨st3, n, ?_, ?_, hn, ?_, ?_, ?_⟩
    · rw [hj]
      simp only [aggLoop]
      rw [if_neg (by simp)]
      rw [hroot3, hflatQ]
    · rw [hflatQ]
      exact hres
    · rw [hflatQ]
      exact hlenb
    · rw [hu2, ht22, hs12, hte]
    · rw [hu5, ht25, hs14]
  · -- p < t: run the aggregation passes
    have hm1 : 1 ≤ t - p := by omega
    have hcache3 : AggCacheInv nodes (2 ^ (p - 3)) (2 ^ (p - 3)) st3 := by
      intro e he
      rw [hu4, ht24, hs13, hic] at he
      cases he
    have hmemk : ∀ k : Nat, ∀ Q ∈ pairConcat^[k] (levelZero p t chs), Q ∈ nodes := by
      intro k Q hQ
      rcases le_or_lt k (t - p) with hk | hk
      · exact hall Q (treeLevels_iterate_mem (t - p) k (levelZero p t chs) hk Q hQ)
      · rw [pairConcat_iterate_high (by rw [hlzlen]) hk] at hQ
        cases hQ
    obtain ⟨st', n, hloop, hres, hn, hlenb, ⟨ext', hext'⟩, ha1, ha2, ha3, ha4⟩ :=
      aggLoop_assoc nodes (2 ^ (p - 3)) hinj (t - p)
        ((inds1 ++ inds2n) ++ inds3n).length st3 st3.pageLog2Size
        ((inds1 ++ inds2n) ++ inds3n) root3 (levelZero p t chs) (p - 3)
        hm1 (by rw [hlen3]; exact Nat.lt_two_pow _) hlen3 hinv3 hcache3 hfLZ hmemk hlzW
    refine ⟨st', n, hloop, hres, hn, hlenb, ?_, ?_⟩
    · rw [ha2, hu2, ht22, hs12, hte]
    · rw [ha4, hu5, ht25, hs14]

theorem sum_lengths_uniform2 {α : Type} {W : Nat} : ∀ (l : List (List α)),
    (∀ w ∈ l, w.length = W) → (l.map List.length).sum = W * l.length := by
  intro l
  induction l with
  | nil => intro _; simp
  | cons w rest ih =>
    intro h
    simp only [List.map_cons, List.sum_cons, List.length_cons]
    rw [h w (by simp), ih (fun x hx => h x (by simp [hx]))]
    ring

/-- The byte stream written back for a file: the file itself, zero-extended
to the full tree size. -/
theorem levelZero_flatten_bytes {p t : Nat} (hp : 3 ≤ p) (hpt : p ≤ t) (F : Bytes)
    (hcap : F.length ≤ 2 ^ t)
    (hchlen : (chunksOf8 F).length ≤ 2 ^ (p - 3) * 2 ^ (t - p)) :
    (levelZero p t (chunksOf8 F)).flatten.flatten =
      F ++ List.replicate (2 ^ t - F.length) 0 := by
  have h8t : (2 : Nat) ^ t = 8 * 2 ^ (t - 3) := by
    rw [show (8 : Nat) = 2 ^ 3 from by norm_num, ← pow_add]
    congr 1
    omega
  have hlen8 := chunksOf8_length F
  rw [levelZero_flatten hp hpt (chunksOf8 F) hchlen]
  rw [List.flatten_append, chunksOf8_pad_flatten F]
  rw [show zeroWord = List.replicate 8 0 from rfl, flatten_replicate_replicate]
  rw [List.append_assoc, ← List.replicate_add]
  congr 2
  have hF8 : F.length ≤ 8 * (chunksOf8 F).length := by omega
  have hch_le : (chunksOf8 F).length ≤ 2 ^ (t - 3) := by omega
  omega

set_option maxHeartbeats 1000000 in
/-- C1 amended: downloading the root submit_file
returns for a file from a fresh session recovers the file zero-extended to
2 ^ treeLog2Size bytes (not the file byte-for-byte; a non-aligned file comes
back padded). Collision-freeness of keccak-256 on the file's tree is
assumed, as is the benignity of the 0x30-padded local page roots. -/
theorem C1_roundtrip_padded_output (p t : Nat) (F : Bytes) (r : Bytes) (st1 : St)
    (fuel : Nat)
    (hp : 3 ≤ p) (hpt : p ≤ t)
    (hcap : F.length ≤ 2 ^ t)
    (hinj : RootInjOn (allNodes p t (chunksOf8 F)))
    (hloc : LocalOk p t (chunksOf8 F))
    (hsub : submit_file (initSt p t) (chunksOf8 F) = .ok (r, st1))
    (hfuel : t - p + 1 < fuel) :
    ∃ st2, download_file fuel st1 r =
      some ((true, some (F ++ List.replicate (2 ^ t - F.length) 0)), st2) := by
  have hW : 0 < 2 ^ (p - 3) := Nat.pos_pow_of_pos _ (by omega)
  have h8t : (2 : Nat) ^ t = 8 * 2 ^ (t - 3) := by
    rw [show (8 : Nat) = 2 ^ 3 from by norm_num, ← pow_add]
    congr 1
    omega
  have hWT : 2 ^ (p - 3) * 2 ^ (t - p) = 2 ^ (t - 3) := by
    rw [← pow_add]
    congr 1
    omega
  have hchlen : (chunksOf8 F).length ≤ 2 ^ (p - 3) * 2 ^ (t - p) := by
    rw [hWT]
    have := chunksOf8_length F
    omega
  have hinv0 : LedgerInv (allNodes p t (chunksOf8 F)) (2 ^ (p - 3)) (initSt p t) := by
    refine ⟨rfl, ?_, List.Pairwise.nil, List.Pairwise.nil, ?_⟩
    · intro e he
      cases he
    · intro e he
      cases he
  obtain ⟨st1x, n, heq, hres, hn, hlenb, htree, hdc⟩ :=
    submit_file_assoc (allNodes p t (chunksOf8 F)) p t (chunksOf8 F) (initSt p t)
      hp hpt hinj rfl rfl rfl rfl (fun Q hQ => hQ) hinv0 hloc hchlen
  rw [hsub] at heq
  injection heq with heq2
  injection heq2 with hr hst
  subst hst
  subst hr
  have hlzlen : (levelZero p t (chunksOf8 F)).flatten.length = 2 ^ (t - 3) :=
    levelZero_flatten_length hp hpt (chunksOf8 F) hchlen
  have hwords : ∀ w ∈ (levelZero p t (chunksOf8 F)).flatten, w.length = 8 :=
    levelZero_flatten_words hp hpt (chunksOf8 F) hchlen (chunksOf8_short F)
  have hnfuel : n < fuel := by
    have hble : 2 ^ (n - 1) * 2 ^ (p - 3) ≤ 2 ^ (t - p) * 2 ^ (p - 3) := by
      rw [show 2 ^ (t - p) * 2 ^ (p - 3) = 2 ^ (p - 3) * 2 ^ (t - p) from by ring, hWT]
      rw [← hlzlen]
      exact hlenb
    have hple : 2 ^ (n - 1) ≤ 2 ^ (t - p) := Nat.le_of_mul_le_mul_right hble hW
    have hexp : n - 1 ≤ t - p := by
      by_contra hgt
      have := Nat.pow_lt_pow_right (a := 2) (by omega) (by omega : t - p < n - 1)
      omega
    omega
  have hcinv : CacheInvP st1.logs st1.downloadCache := by
    intro r2 d h
    rw [hdc] at h
    cases h
  obtain ⟨st2, hrec, hpres, hcinv2⟩ :=
    (recover_correct_main n).1 fuel st1
      (rootOfPayload (levelZero p t (chunksOf8 F)).flatten)
      (levelZero p t (chunksOf8 F)).flatten hres hnfuel hcinv
  have htree2 : st2.treeLog2Size = t := by
    obtain ⟨_, _, h3, _⟩ := hpres
    rw [h3, htree]
  have hsum : ((levelZero p t (chunksOf8 F)).flatten.map List.length).sum = 2 ^ t := by
    rw [sum_lengths_uniform2 ((levelZero p t (chunksOf8 F)).flatten) hwords, hlzlen]
    omega
  refine ⟨st2, ?_⟩
  simp only [download_file, hrec]
  have hcnt : ¬(2 ^ st2.treeLog2Size ≠
      ((levelZero p t (chunksOf8 F)).flatten.map List.length).sum) := by
    rw [htree2, hsum]
    omega
  rw [if_pos True.intro, if_neg hcnt]
  rw [levelZero_flatten_bytes hp hpt F hcap hchlen]

/-- The 8-byte file of the round-trip witness. -/
def c1wF : Bytes := [1, 2, 3, 4, 5, 6, 7, 8]

def c1wRun : Except PyErr (Bytes × St) := submit_file (initSt 3 4) (chunksOf8 c1wF)

def c1wRoot : Bytes :=
  match c1wRun with
  | .ok (r, _) => r
  | .error _ => []

def c1wSt1 : St :=
  match c1wRun with
  | .ok (_, s) => s
  | .error _ => initSt 3 4

instance (l : List Blob) : Decidable (RootInjOn l) := by
  unfold RootInjOn
  infer_instance

instance (p t : Nat) (chunks : List Bytes) : Decidable (LocalOk p t chunks) := by
  unfold LocalOk
  infer_instance

set_option maxRecDepth 1000000 in
example : RootInjOn (allNodes 3 4 (chunksOf8 c1wF)) := by decide

set_option maxRecDepth 1000000 in
example : LocalOk 3 4 (chunksOf8 c1wF) := by decide

set_option maxRecDepth 1000000 in
theorem C1_roundtrip_padded_output_witness :
    ∃ st2, download_file 3 c1wSt1 c1wRoot =
      some ((true, some (c1wF ++ List.replicate (2 ^ 4 - c1wF.length) 0)), st2) :=
  C1_roundtrip_padded_output 3 4 c1wF c1wRoot c1wSt1 3 (by decide) (by decide)
    (by decide) (by decide) (by decide) (by rfl) (by decide)

def c2wRun : Except PyErr (Bytes × St) := submit_file (initSt 3 4) c2File

def c2wR1 : Bytes :=
  match c2wRun with
  | .ok (r, _) => r
  | .error _ => []

def c2wSt1 : St :=
  match c2wRun with
  | .ok (_, s) => s
  | .error _ => initSt 3 4

set_option maxRecDepth 1000000 in
theorem C2_amended_cached_resubmission_returns_zero_root_witness :
    submit_file c2wSt1 c2File = .ok (List.replicate 32 0, c2wSt1) :=
  C2_amended_cached_resubmission_returns_zero_root 3 4 c2File c2wR1 c2wSt1
    (by decide) (by decide) (by decide) (by decide) (by rfl)
